import Mathlib

/-!
# Verification of the otel-arrow-views wire-format decoders

A shallow embedding of the hand-written protobuf decoding engine of the
repository (`src/otlp_bytes.rs`, `src/otlp_bytes_lazy.rs`, `src/Untitled-1.rs`,
`src/prost_structs.rs`, `src/main.rs`, `benches/logs_traversal.rs`), together
with proofs about the embedded definitions.

Byte buffers (`&[u8]`) are modelled as `List Nat`; positions (`usize`) as `Nat`;
`u64` arithmetic is carried out on `Nat` with explicit truncation modulo `2 ^ 64`
where the Rust code can overflow or drop bits; fallible operations return
`Option`.  Rust `&str` values are modelled by their UTF-8 byte contents, and
`std::str::from_utf8` by a validity check that returns the same bytes.

Every `while` loop of the source is embedded with structural recursion on an
explicit fuel that provably dominates the loop's iteration count (each loop
strictly advances its position, or its shift, so a fuel derived from the buffer
length — or the constant 10 for varint loops — makes fuel exhaustion
unreachable or coincide with the loop's own exit value).
-/

set_option maxHeartbeats 1600000
set_option linter.unreachableTactic false
set_option linter.unusedTactic false

namespace Otel

/-- Bytes of an input buffer (`&[u8]` in the source). -/
abbrev Bytes := List Nat

/-- Truncation to 64 bits: the semantics of a `u64` shift/or in Rust. -/
def u64Mod (x : Nat) : Nat := x % 2 ^ 64

/-- The shift-accumulation loop shared by every `parse_varint` variant: the
whole parser of `Untitled-1.rs`, and the fall-back loop of the parsers in
`otlp_bytes.rs` (entered at shift 28) and `otlp_bytes_lazy.rs` (entered at
shift 14).  The loop `while pos < len && shift < 64` runs at most 10 iterations
from any starting shift (the shift grows by 7 each round), so fuel 10 makes the
recursion structural without changing the result: when the fuel runs out the
shift has reached 64 and the loop itself would exit with `None`. -/
def varintLoopF : Nat → Bytes → Nat → Nat → Nat → Option (Nat × Nat)
  | 0, _, _, _, _ => none
  | fuel + 1, data, pos, result, shift =>
    if pos < data.length ∧ shift < 64 then
      let byte := data.getD pos 0
      let result1 := result ||| u64Mod ((byte &&& 127) <<< shift)
      if byte &&& 128 = 0 then some (result1, pos + 1)
      else varintLoopF fuel data (pos + 1) result1 (shift + 7)
    else none

/-- `ProtobufParser::parse_varint` of `src/Untitled-1.rs`: the plain general
shift loop, starting from an empty accumulator and shift 0. -/
def parse_varint_untitled (data : Bytes) (pos : Nat) : Option (Nat × Nat) :=
  varintLoopF 10 data pos 0 0

/-- `ProtobufParser::parse_varint` of `src/otlp_bytes.rs`: fast path for
single-byte varints, unrolled cases for 2-4 byte varints, then the general
loop at shift 28. -/
def parse_varint_bytes (data : Bytes) (pos : Nat) : Option (Nat × Nat) :=
  if pos < data.length then
    let byte := data.getD pos 0
    if byte &&& 128 = 0 then some (byte, pos + 1)
    else
      let r0 := byte &&& 127
      if pos + 1 < data.length then
        let b1 := data.getD (pos + 1) 0
        let r1 := r0 ||| u64Mod ((b1 &&& 127) <<< 7)
        if b1 &&& 128 = 0 then some (r1, pos + 2)
        else if pos + 2 < data.length then
          let b2 := data.getD (pos + 2) 0
          let r2 := r1 ||| u64Mod ((b2 &&& 127) <<< 14)
          if b2 &&& 128 = 0 then some (r2, pos + 3)
          else if pos + 3 < data.length then
            let b3 := data.getD (pos + 3) 0
            let r3 := r2 ||| u64Mod ((b3 &&& 127) <<< 21)
            if b3 &&& 128 = 0 then some (r3, pos + 4)
            else varintLoopF 10 data (pos + 4) r3 28
          else none
        else none
      else none
  else none

/-- `ProtobufParser::parse_varint` of `src/otlp_bytes_lazy.rs`: first byte and
second byte unrolled (both masked with `0x7F`), then the general loop at
shift 14. -/
def parse_varint_lazy (data : Bytes) (pos : Nat) : Option (Nat × Nat) :=
  if pos < data.length then
    let byte := data.getD pos 0
    let r0 := byte &&& 127
    if byte &&& 128 = 0 then some (r0, pos + 1)
    else if pos + 1 < data.length then
      let b1 := data.getD (pos + 1) 0
      let r1 := r0 ||| u64Mod ((b1 &&& 127) <<< 7)
      if b1 &&& 128 = 0 then some (r1, pos + 2)
      else varintLoopF 10 data (pos + 2) r1 14
    else none
  else none

/-- `ProtobufParser::parse_length_delimited`, textually identical in
`otlp_bytes.rs`, `otlp_bytes_lazy.rs` and `Untitled-1.rs` up to the varint
routine of the enclosing module (passed here as `pv`): read a varint length,
fail if the span overruns the buffer, otherwise return the subslice and the
position after it. -/
def parse_length_delimited (pv : Bytes → Nat → Option (Nat × Nat))
    (data : Bytes) (pos : Nat) : Option (Bytes × Nat) :=
  match pv data pos with
  | none => none
  | some (length, newPos) =>
    if newPos + length ≤ data.length then
      some ((data.drop newPos).take length, newPos + length)
    else none

/-- `parse_length_delimited` as instantiated in `otlp_bytes.rs`. -/
def parse_length_delimited_bytes : Bytes → Nat → Option (Bytes × Nat) :=
  parse_length_delimited parse_varint_bytes

/-- `parse_length_delimited` as instantiated in `otlp_bytes_lazy.rs`. -/
def parse_length_delimited_lazy : Bytes → Nat → Option (Bytes × Nat) :=
  parse_length_delimited parse_varint_lazy

/-- `ProtobufParser::parse_fixed32` (identical in all three modules):
little-endian 4-byte read, failing if fewer than 4 bytes remain. -/
def parse_fixed32 (data : Bytes) (pos : Nat) : Option (Nat × Nat) :=
  if pos + 4 ≤ data.length then
    some (data.getD pos 0 + data.getD (pos + 1) 0 * 256 +
      data.getD (pos + 2) 0 * 256 ^ 2 + data.getD (pos + 3) 0 * 256 ^ 3, pos + 4)
  else none

/-- `ProtobufParser::parse_fixed64` (identical in all three modules):
little-endian 8-byte read, failing if fewer than 8 bytes remain. -/
def parse_fixed64 (data : Bytes) (pos : Nat) : Option (Nat × Nat) :=
  if pos + 8 ≤ data.length then
    some (data.getD pos 0 + data.getD (pos + 1) 0 * 256 +
      data.getD (pos + 2) 0 * 256 ^ 2 + data.getD (pos + 3) 0 * 256 ^ 3 +
      data.getD (pos + 4) 0 * 256 ^ 4 + data.getD (pos + 5) 0 * 256 ^ 5 +
      data.getD (pos + 6) 0 * 256 ^ 6 + data.getD (pos + 7) 0 * 256 ^ 7, pos + 8)
  else none

/-- Strict UTF-8 validity of a byte sequence, the acceptance condition of
`std::str::from_utf8` (RFC 3629 ranges: no overlong forms, no surrogates,
no code points above U+10FFFF). -/
def utf8Cont (b : Nat) : Bool := 128 ≤ b && b ≤ 191

/-- See `utf8Cont`; `from_utf8` succeeds exactly on such sequences. -/
def utf8Valid : List Nat → Bool
  | [] => true
  | b :: rest =>
    if b < 128 then utf8Valid rest
    else if 194 ≤ b ∧ b ≤ 223 then
      match rest with
      | c1 :: r => utf8Cont c1 && utf8Valid r
      | [] => false
    else if b = 224 then
      match rest with
      | c1 :: c2 :: r => (160 ≤ c1 && c1 ≤ 191) && utf8Cont c2 && utf8Valid r
      | _ => false
    else if (225 ≤ b ∧ b ≤ 236) ∨ b = 238 ∨ b = 239 then
      match rest with
      | c1 :: c2 :: r => utf8Cont c1 && utf8Cont c2 && utf8Valid r
      | _ => false
    else if b = 237 then
      match rest with
      | c1 :: c2 :: r => (128 ≤ c1 && c1 ≤ 159) && utf8Cont c2 && utf8Valid r
      | _ => false
    else if b = 240 then
      match rest with
      | c1 :: c2 :: c3 :: r => (144 ≤ c1 && c1 ≤ 191) && utf8Cont c2 && utf8Cont c3 && utf8Valid r
      | _ => false
    else if 241 ≤ b ∧ b ≤ 243 then
      match rest with
      | c1 :: c2 :: c3 :: r => utf8Cont c1 && utf8Cont c2 && utf8Cont c3 && utf8Valid r
      | _ => false
    else if b = 244 then
      match rest with
      | c1 :: c2 :: c3 :: r => (128 ≤ c1 && c1 ≤ 143) && utf8Cont c2 && utf8Cont c3 && utf8Valid r
      | _ => false
    else false

/-- `std::str::from_utf8(bytes).ok()`: a `&str` is modelled by its UTF-8
bytes, so a successful decode returns the input bytes unchanged. -/
def from_utf8 (bytes : Bytes) : Option Bytes :=
  if utf8Valid bytes then some bytes else none

/-- `u64 as i32` (used for `severity_number`): truncate to 32 bits and
reinterpret as a signed value. -/
def toI32 (v : Nat) : Int :=
  if v % 2 ^ 32 < 2 ^ 31 then (v % 2 ^ 32 : Int) else (v % 2 ^ 32 : Int) - 2 ^ 32

/-- `u64 as i64` (used for int attribute values). -/
def toI64 (v : Nat) : Int :=
  if v % 2 ^ 64 < 2 ^ 63 then (v % 2 ^ 64 : Int) else (v % 2 ^ 64 : Int) - 2 ^ 64

/-- `u64 as u32` truncation. -/
def toU32 (v : Nat) : Nat := v % 2 ^ 32

end Otel

namespace Otel

/-! ## Basic facts about bytes and the varint loop -/

theorem and127_eq_mod (b : Nat) : b &&& 127 = b % 128 := by
  have h := Nat.and_pow_two_sub_one_eq_mod b 7
  norm_num at h
  exact h

theorem and128_eq_zero_iff {b : Nat} (hb : b < 256) : b &&& 128 = 0 ↔ b < 128 := by
  have h : b &&& 128 = (b.testBit 7).toNat * 128 := by
    have h2 := Nat.and_two_pow b 7
    norm_num at h2
    exact h2
  rw [h, Nat.testBit_to_div_mod]
  constructor
  · intro h0
    by_contra hge
    have : b / 128 = 1 := by omega
    simp [this] at h0
  · intro hlt
    have : b / 128 = 0 := Nat.div_eq_of_lt hlt
    simp [this]

theorem getD_lt_of_bound {data : Bytes} (hb : ∀ x ∈ data, x < 256) {pos : Nat}
    (h : pos < data.length) : data.getD pos 0 < 256 := by
  have : data.getD pos 0 ∈ data := by
    rw [List.getD_eq_getElem?_getD, List.getElem?_eq_getElem h]
    exact List.getElem_mem h
  exact hb _ this

theorem u64Mod_small {x : Nat} (h : x < 2 ^ 64) : u64Mod x = x := Nat.mod_eq_of_lt h

theorem and127_le (b : Nat) : b &&& 127 ≤ 127 := Nat.and_le_right


/-- Unfolding equation for one iteration of the varint loop. -/
theorem varintLoopF_succ (fuel : Nat) (data : Bytes) (pos result shift : Nat) :
    varintLoopF (fuel + 1) data pos result shift =
      if pos < data.length ∧ shift < 64 then
        if data.getD pos 0 &&& 128 = 0 then
          some (result ||| u64Mod ((data.getD pos 0 &&& 127) <<< shift), pos + 1)
        else varintLoopF fuel data (pos + 1)
          (result ||| u64Mod ((data.getD pos 0 &&& 127) <<< shift)) (shift + 7)
      else none := rfl

theorem varintLoopF_none_of_ge (fuel : Nat) (data : Bytes) (pos result : Nat) {shift : Nat}
    (hs : 64 ≤ shift) : varintLoopF fuel data pos result shift = none := by
  cases fuel with
  | zero => rfl
  | succ f =>
    rw [varintLoopF_succ, if_neg]
    omega

theorem varintLoopF_none_of_len {fuel : Nat} {data : Bytes} {pos : Nat} (result shift : Nat)
    (h : data.length ≤ pos) : varintLoopF fuel data pos result shift = none := by
  cases fuel with
  | zero => rfl
  | succ f =>
    rw [varintLoopF_succ, if_neg]
    omega

/-- The fuel does not matter as long as it dominates the remaining shift
budget: when it runs out the shift has passed 64 and the loop exits anyway. -/
theorem varintLoopF_congr {f1 f2 : Nat} (data : Bytes) (pos result shift : Nat)
    (h1 : 64 ≤ shift + 7 * f1) (h2 : 64 ≤ shift + 7 * f2) :
    varintLoopF f1 data pos result shift = varintLoopF f2 data pos result shift := by
  induction f1 generalizing f2 pos result shift with
  | zero =>
    rw [show varintLoopF 0 data pos result shift = none from rfl,
      varintLoopF_none_of_ge f2 data pos result (by omega)]
  | succ f1 ih =>
    cases f2 with
    | zero =>
      rw [show varintLoopF 0 data pos result shift = none from rfl,
        varintLoopF_none_of_ge (f1 + 1) data pos result (by omega)]
    | succ f2 =>
      rw [varintLoopF_succ, varintLoopF_succ]
      by_cases h : pos < data.length ∧ shift < 64
      · rw [if_pos h, if_pos h]
        by_cases hc : data.getD pos 0 &&& 128 = 0
        · rw [if_pos hc, if_pos hc]
        · rw [if_neg hc, if_neg hc]
          exact @ih f2 _ _ _ (by omega) (by omega)
      · rw [if_neg h, if_neg h]

/-! ## Equivalence of the three varint parsers -/

/-- The lazy module's partially unrolled varint parser computes exactly the
plain shift loop of `Untitled-1.rs`, on any input. -/
theorem parse_varint_lazy_eq_untitled (data : Bytes) (pos : Nat) :
    parse_varint_lazy data pos = parse_varint_untitled data pos := by
  rw [parse_varint_untitled]
  by_cases h0 : pos < data.length
  · have hg0 : pos < data.length ∧ 0 < 64 := ⟨h0, by omega⟩
    conv_rhs => rw [show (10 : Nat) = 9 + 1 from rfl, varintLoopF_succ, if_pos hg0]
    simp only [parse_varint_lazy, if_pos h0]
    have e0 : (0 : Nat) ||| u64Mod ((data.getD pos 0 &&& 127) <<< 0) = data.getD pos 0 &&& 127 := by
      rw [Nat.shiftLeft_zero, u64Mod_small (by have := and127_le (data.getD pos 0); omega),
        Nat.zero_or]
    rw [e0]
    by_cases hc : data.getD pos 0 &&& 128 = 0
    · rw [if_pos hc, if_pos hc]
    · rw [if_neg hc, if_neg hc]
      by_cases h1 : pos + 1 < data.length
      · have hg1 : pos + 1 < data.length ∧ 0 + 7 < 64 := ⟨h1, by omega⟩
        rw [if_pos h1]
        conv_rhs => rw [show (9 : Nat) = 8 + 1 from rfl, varintLoopF_succ, if_pos hg1]
        by_cases hc1 : data.getD (pos + 1) 0 &&& 128 = 0
        · rw [if_pos hc1, if_pos hc1]
        · rw [if_neg hc1, if_neg hc1]
          exact varintLoopF_congr data _ _ _ (by omega) (by omega)
      · rw [if_neg h1, varintLoopF_none_of_len _ _ (by omega)]
  · simp only [parse_varint_lazy, if_neg h0]
    rw [varintLoopF_none_of_len _ _ (by omega)]

/-- The otlp_bytes module's varint parser (fast path plus four unrolled bytes)
computes exactly the plain shift loop of `Untitled-1.rs` on byte-valued input. -/
theorem parse_varint_bytes_eq_untitled (data : Bytes) (pos : Nat)
    (hb : ∀ x ∈ data, x < 256) :
    parse_varint_bytes data pos = parse_varint_untitled data pos := by
  rw [parse_varint_untitled]
  by_cases h0 : pos < data.length
  · have hg0 : pos < data.length ∧ 0 < 64 := ⟨h0, by omega⟩
    conv_rhs => rw [show (10 : Nat) = 9 + 1 from rfl, varintLoopF_succ, if_pos hg0]
    simp only [parse_varint_bytes, if_pos h0]
    have e0 : (0 : Nat) ||| u64Mod ((data.getD pos 0 &&& 127) <<< 0) = data.getD pos 0 &&& 127 := by
      rw [Nat.shiftLeft_zero, u64Mod_small (by have := and127_le (data.getD pos 0); omega),
        Nat.zero_or]
    rw [e0]
    by_cases hc : data.getD pos 0 &&& 128 = 0
    · have hlt : data.getD pos 0 < 128 := (and128_eq_zero_iff (getD_lt_of_bound hb h0)).1 hc
      have hself : data.getD pos 0 &&& 127 = data.getD pos 0 := by rw [and127_eq_mod]; omega
      rw [if_pos hc, if_pos hc, hself]
    · rw [if_neg hc, if_neg hc]
      by_cases h1 : pos + 1 < data.length
      · have hg1 : pos + 1 < data.length ∧ 0 + 7 < 64 := ⟨h1, by omega⟩
        rw [if_pos h1]
        conv_rhs => rw [show (9 : Nat) = 8 + 1 from rfl, varintLoopF_succ, if_pos hg1]
        by_cases hc1 : data.getD (pos + 1) 0 &&& 128 = 0
        · rw [if_pos hc1, if_pos hc1]
        · rw [if_neg hc1, if_neg hc1]
          by_cases h2 : pos + 2 < data.length
          · have hg2 : pos + 1 + 1 < data.length ∧ 0 + 7 + 7 < 64 := ⟨by omega, by omega⟩
            rw [if_pos h2]
            conv_rhs => rw [show (8 : Nat) = 7 + 1 from rfl, varintLoopF_succ, if_pos hg2]
            have ep : pos + 1 + 1 = pos + 2 := rfl
            rw [ep]
            by_cases hc2 : data.getD (pos + 2) 0 &&& 128 = 0
            · rw [if_pos hc2, if_pos hc2]
            · rw [if_neg hc2, if_neg hc2]
              by_cases h3 : pos + 3 < data.length
              · have hg3 : pos + 2 + 1 < data.length ∧ 0 + 7 + 7 + 7 < 64 := ⟨by omega, by omega⟩
                rw [if_pos h3]
                conv_rhs => rw [show (7 : Nat) = 6 + 1 from rfl, varintLoopF_succ, if_pos hg3]
                have ep3 : pos + 2 + 1 = pos + 3 := rfl
                rw [ep3]
                by_cases hc3 : data.getD (pos + 3) 0 &&& 128 = 0
                · rw [if_pos hc3, if_pos hc3]
                · rw [if_neg hc3, if_neg hc3]
                  exact varintLoopF_congr data _ _ _ (by omega) (by omega)
              · rw [if_neg h3, varintLoopF_none_of_len _ _ (by omega)]
          · rw [if_neg h2, varintLoopF_none_of_len _ _ (by omega)]
      · rw [if_neg h1, varintLoopF_none_of_len _ _ (by omega)]
  · simp only [parse_varint_bytes, if_neg h0]
    rw [varintLoopF_none_of_len _ _ (by omega)]

end Otel

namespace Otel

/-! ## Claim C9: the unrolled varint parser refines the plain loop -/

/-- **C9.** For every byte slice and start position, the unrolled fast-path
varint parser of `otlp_bytes.rs` returns exactly the same result (same decoded
value and next position, and failure on exactly the same inputs) as the plain
general shift-loop varint parser of `Untitled-1.rs`. -/
theorem c9_varint_unrolled_eq_plain (data : Bytes) (pos : Nat)
    (hb : ∀ x ∈ data, x < 256) :
    parse_varint_bytes data pos = parse_varint_untitled data pos :=
  parse_varint_bytes_eq_untitled data pos hb

theorem c9_varint_unrolled_eq_plain_witness :
    (∀ x ∈ ([150, 1, 200, 3] : Bytes), x < 256) ∧
      parse_varint_bytes [150, 1, 200, 3] 0 = parse_varint_untitled [150, 1, 200, 3] 0 :=
  ⟨by decide, c9_varint_unrolled_eq_plain [150, 1, 200, 3] 0 (by decide)⟩

/-! ## Claim C3: what the varint parsers accept and return -/

/-- The mathematical little-endian base-128 value of a varint encoding, decoded
with no 64-bit truncation of the accumulated value, bounded to the 10 bytes the
parsers can consume.  This is the specification-side meaning of an encoding,
used to state what the parsers return and where they silently drop bits. -/
def varintIdealF : Nat → Bytes → Nat → Option (Nat × Nat)
  | 0, _, _ => none
  | fuel + 1, data, pos =>
    if pos < data.length then
      if data.getD pos 0 &&& 128 = 0 then some (data.getD pos 0 &&& 127, pos + 1)
      else
        match varintIdealF fuel data (pos + 1) with
        | some (v, p) => some ((data.getD pos 0 &&& 127) + 128 * v, p)
        | none => none
    else none

/-- See `varintIdealF`. -/
def varintIdeal (data : Bytes) (pos : Nat) : Option (Nat × Nat) :=
  varintIdealF 10 data pos

theorem varintIdealF_succ (fuel : Nat) (data : Bytes) (pos : Nat) :
    varintIdealF (fuel + 1) data pos =
      if pos < data.length then
        if data.getD pos 0 &&& 128 = 0 then some (data.getD pos 0 &&& 127, pos + 1)
        else
          match varintIdealF fuel data (pos + 1) with
          | some (v, p) => some ((data.getD pos 0 &&& 127) + 128 * v, p)
          | none => none
      else none := rfl

theorem lor_shiftLeft_eq_add {a : Nat} (k b : Nat) (h : a < 2 ^ k) :
    a ||| b <<< k = a + b <<< k := by
  apply Nat.eq_of_testBit_eq
  intro j
  rw [Nat.testBit_lor, Nat.testBit_shiftLeft, Nat.shiftLeft_eq,
    show a + b * 2 ^ k = 2 ^ k * b + a from by ring,
    Nat.testBit_mul_pow_two_add b h j]
  rcases Nat.lt_or_ge j k with hj | hj
  · simp [hj, Nat.not_le.2 hj]
  · have ha : a.testBit j = false :=
      Nat.testBit_lt_two_pow (lt_of_lt_of_le h (Nat.pow_le_pow_right (by omega) hj))
    simp [ha, hj, Nat.not_lt.2 hj]

theorem u64Mod_shiftLeft {x s : Nat} (hs : s ≤ 64) :
    u64Mod (x <<< s) = (x % 2 ^ (64 - s)) <<< s := by
  rw [u64Mod, Nat.shiftLeft_eq, Nat.shiftLeft_eq,
    show (2 : Nat) ^ 64 = 2 ^ (64 - s) * 2 ^ s from by rw [← pow_add]; congr 1; omega,
    Nat.mul_mod_mul_right]

theorem lor_u64Mod_shift {r x s : Nat} (hr : r < 2 ^ s) (hs : s ≤ 63) :
    r ||| u64Mod (x <<< s) = u64Mod (r + x <<< s) := by
  have hAB : 2 ^ (64 - s) * 2 ^ s = 2 ^ 64 := by rw [← pow_add]; congr 1; omega
  have hBpos : 0 < 2 ^ (64 - s) := Nat.two_pow_pos _
  have hq : x % 2 ^ (64 - s) ≤ 2 ^ (64 - s) - 1 := by
    have := Nat.mod_lt x hBpos
    omega
  have hqa : x % 2 ^ (64 - s) * 2 ^ s ≤ 2 ^ 64 - 2 ^ s := by
    calc x % 2 ^ (64 - s) * 2 ^ s ≤ (2 ^ (64 - s) - 1) * 2 ^ s := Nat.mul_le_mul_right _ hq
      _ = 2 ^ (64 - s) * 2 ^ s - 1 * 2 ^ s := by rw [Nat.sub_mul]
      _ = 2 ^ 64 - 2 ^ s := by rw [hAB, Nat.one_mul]
  have hms : u64Mod (x <<< s) = x % 2 ^ (64 - s) * 2 ^ s := by
    rw [u64Mod_shiftLeft (by omega), Nat.shiftLeft_eq]
  have hsplit : x * 2 ^ s = x / 2 ^ (64 - s) * 2 ^ 64 + x % 2 ^ (64 - s) * 2 ^ s := by
    conv_lhs => rw [← Nat.div_add_mod x (2 ^ (64 - s))]
    rw [← hAB]
    ring
  have h2s : (2 : Nat) ^ s ≤ 2 ^ 63 := Nat.pow_le_pow_right (by omega) hs
  have h3 : u64Mod (r + x <<< s) = r + x % 2 ^ (64 - s) * 2 ^ s := by
    rw [u64Mod, Nat.shiftLeft_eq, hsplit,
      show r + (x / 2 ^ (64 - s) * 2 ^ 64 + x % 2 ^ (64 - s) * 2 ^ s) =
        r + x % 2 ^ (64 - s) * 2 ^ s + x / 2 ^ (64 - s) * 2 ^ 64 from by ring,
      Nat.add_mul_mod_self_right, Nat.mod_eq_of_lt]
    omega
  rw [h3, hms, ← Nat.shiftLeft_eq, lor_shiftLeft_eq_add s _ hr]

/-- The varint loop computes the ideal value truncated to 64 bits: with fuel
`f` and shift `7 * (10 - f)` (the coupling maintained by all three parsers),
the loop result is the ideal decode of the remaining bytes, merged into the
accumulator modulo `2 ^ 64`. -/
theorem varintLoopF_eq_ideal (f : Nat) (hf : f ≤ 10) (data : Bytes) (pos r : Nat)
    (hr : r < 2 ^ (7 * (10 - f))) :
    varintLoopF f data pos r (7 * (10 - f)) =
      (varintIdealF f data pos).map
        (fun w => (u64Mod (r + w.1 <<< (7 * (10 - f))), w.2)) := by
  induction f generalizing pos r with
  | zero =>
    rw [varintLoopF_none_of_ge _ _ _ _ (by norm_num)]
    rfl
  | succ f ih =>
    have hs63 : 7 * (10 - (f + 1)) ≤ 63 := by omega
    rw [varintLoopF_succ, varintIdealF_succ]
    by_cases hp : pos < data.length
    · rw [if_pos (show pos < data.length ∧ 7 * (10 - (f + 1)) < 64 from ⟨hp, by omega⟩),
        if_pos hp]
      by_cases hterm : data.getD pos 0 &&& 128 = 0
      · rw [if_pos hterm, if_pos hterm]
        simp only [Option.map_some']
        rw [lor_u64Mod_shift hr hs63]
      · rw [if_neg hterm, if_neg hterm]
        have hx : data.getD pos 0 &&& 127 ≤ 127 := and127_le _
        have hr1 : r ||| u64Mod ((data.getD pos 0 &&& 127) <<< (7 * (10 - (f + 1)))) <
            2 ^ (7 * (10 - f)) := by
          rw [lor_u64Mod_shift hr hs63]
          have hb1 : r + (data.getD pos 0 &&& 127) <<< (7 * (10 - (f + 1))) <
              2 ^ (7 * (10 - f)) := by
            rw [Nat.shiftLeft_eq]
            have h1 : (data.getD pos 0 &&& 127) * 2 ^ (7 * (10 - (f + 1))) ≤
                127 * 2 ^ (7 * (10 - (f + 1))) := Nat.mul_le_mul_right _ hx
            have h2 : (2 : Nat) ^ (7 * (10 - f)) = 128 * 2 ^ (7 * (10 - (f + 1))) := by
              rw [show 7 * (10 - f) = 7 + 7 * (10 - (f + 1)) from by omega, pow_add]
              norm_num
            omega
          exact lt_of_le_of_lt (Nat.mod_le _ _) hb1
        have hstep : 7 * (10 - (f + 1)) + 7 = 7 * (10 - f) := by omega
        rw [hstep]
        rw [ih (by omega) (pos + 1) _ hr1]
        cases hi : varintIdealF f data (pos + 1) with
        | none => rfl
        | some w =>
          simp only [Option.map_some']
          rw [lor_u64Mod_shift hr hs63, ← hstep]
          simp only [u64Mod]
          rw [Nat.mod_add_mod]
          congr 2
          simp only [Nat.shiftLeft_eq, pow_add]
          ring_nf
    · rw [if_neg (by omega), if_neg hp]
      rfl

/-- Failure characterization for the ideal decoder with fuel `f`: it fails
exactly when no terminating byte (high bit clear) occurs within the first `f`
bytes of the remaining input. -/
theorem varintIdealF_none_iff (f : Nat) (data : Bytes) (pos : Nat) :
    varintIdealF f data pos = none ↔
      ¬ ∃ k, k < f ∧ pos + k < data.length ∧ data.getD (pos + k) 0 &&& 128 = 0 ∧
        ∀ j, j < k → data.getD (pos + j) 0 &&& 128 ≠ 0 := by
  induction f generalizing pos with
  | zero =>
    rw [show varintIdealF 0 data pos = none from rfl]
    apply iff_of_true rfl
    rintro ⟨k, hk, -⟩
    omega
  | succ f ih =>
    rw [varintIdealF_succ]
    by_cases hp : pos < data.length
    · rw [if_pos hp]
      by_cases hterm : data.getD pos 0 &&& 128 = 0
      · rw [if_pos hterm]
        apply iff_of_false (by simp)
        apply not_not_intro
        exact ⟨0, by omega, by simpa using hp, by simpa using hterm,
          fun j hj => absurd hj (Nat.not_lt_zero j)⟩
      · rw [if_neg hterm]
        cases hi : varintIdealF f data (pos + 1) with
        | none =>
          apply iff_of_true rfl
          rintro ⟨k, hk, hklen, hkterm, hkcont⟩
          rcases k with - | k
          · exact hterm (by simpa using hkterm)
          · have := (ih (pos + 1)).1 hi
            apply this
            refine ⟨k, by omega, by have := hklen; omega, ?_, ?_⟩
            · have : pos + 1 + k = pos + (k + 1) := by omega
              rw [this]; exact hkterm
            · intro j hj
              have : pos + 1 + j = pos + (j + 1) := by omega
              rw [this]
              exact hkcont (j + 1) (by omega)
        | some w =>
          apply iff_of_false (by simp)
          apply not_not_intro
          have hne : varintIdealF f data (pos + 1) ≠ none := by rw [hi]; simp
          have hex := not_not.1 (fun hno => hne ((ih (pos + 1)).2 hno))
          obtain ⟨k, hk, hklen, hkterm, hkcont⟩ := hex
          refine ⟨k + 1, by omega, by have := hklen; omega, ?_, ?_⟩
          · have : pos + (k + 1) = pos + 1 + k := by omega
            rw [this]; exact hkterm
          · intro j hj
            rcases j with - | j
            · simpa using hterm
            · have : pos + (j + 1) = pos + 1 + j := by omega
              rw [this]
              exact hkcont j (by omega)
    · rw [if_neg hp]
      apply iff_of_true rfl
      rintro ⟨k, hk, hklen, -⟩
      omega

/-- The lazy parser in terms of the ideal decoder. -/
theorem parse_varint_lazy_eq_ideal (data : Bytes) (pos : Nat) :
    parse_varint_lazy data pos =
      (varintIdeal data pos).map (fun w => (u64Mod w.1, w.2)) := by
  rw [parse_varint_lazy_eq_untitled, parse_varint_untitled, varintIdeal]
  have h := varintLoopF_eq_ideal 10 (by omega) data pos 0 (by norm_num)
  simp only [show 7 * (10 - 10) = 0 from rfl, Nat.shiftLeft_zero, Nat.zero_add] at h
  exact h

/-- **C3 (amended).** `read_varint` decodes a little-endian base-128 integer
with continuation bit `0x80`, both in `otlp_bytes.rs` and `otlp_bytes_lazy.rs`;
it fails exactly when no terminating byte occurs within the first 10 encoded
bytes (input exhausted while the continuation bit is set, or ten continuation
bytes — the point where the accumulated shift reaches 64).  On success it
returns the mathematical value of the consumed encoding reduced modulo
`2 ^ 64` — an encoding that terminates within 10 bytes but carries more than
64 significant bits is accepted with the excess bits silently discarded, not
rejected. -/
theorem c3_read_varint_characterization (data : Bytes) (pos : Nat)
    (hb : ∀ x ∈ data, x < 256) :
    parse_varint_bytes data pos = parse_varint_lazy data pos ∧
    (parse_varint_lazy data pos = none ↔
      ¬ ∃ k, k < 10 ∧ pos + k < data.length ∧ data.getD (pos + k) 0 &&& 128 = 0 ∧
        ∀ j, j < k → data.getD (pos + j) 0 &&& 128 ≠ 0) ∧
    (∀ v p, parse_varint_lazy data pos = some (v, p) →
      ∃ w, varintIdeal data pos = some (w, p) ∧ v = u64Mod w) := by
  refine ⟨?_, ?_, ?_⟩
  · rw [parse_varint_bytes_eq_untitled data pos hb, parse_varint_lazy_eq_untitled]
  · rw [parse_varint_lazy_eq_ideal, varintIdeal]
    rw [Option.map_eq_none']
    exact varintIdealF_none_iff 10 data pos
  · intro v p h
    rw [parse_varint_lazy_eq_ideal] at h
    cases hi : varintIdeal data pos with
    | none => rw [hi] at h; cases h
    | some w =>
      rw [hi] at h
      simp only [Option.map_some', Option.some.injEq, Prod.mk.injEq] at h
      refine ⟨w.1, ?_, h.1.symm⟩
      rw [← h.2]


theorem c3_read_varint_characterization_witness :
    (∀ x ∈ ([150, 1] : Bytes), x < 256) ∧
      parse_varint_bytes [150, 1] 0 = parse_varint_lazy [150, 1] 0 :=
  ⟨by decide, (c3_read_varint_characterization [150, 1] 0 (by decide)).1⟩

/-- **C3 (counterexample).** The ten-byte encoding below terminates (last byte
`0x7F` has the continuation bit clear) and its mathematical value is
`127 * 2 ^ 63 ≥ 2 ^ 64` — it "exceeds 64 significant bits" — yet both parsers
succeed, returning the truncated value `2 ^ 63` instead of failing as the
claim states. -/
theorem c3_varint_counterexample :
    varintIdeal [128, 128, 128, 128, 128, 128, 128, 128, 128, 127] 0 =
      some (127 * 2 ^ 63, 10) ∧
    2 ^ 64 ≤ 127 * 2 ^ 63 ∧
    parse_varint_bytes [128, 128, 128, 128, 128, 128, 128, 128, 128, 127] 0 =
      some (2 ^ 63, 10) ∧
    parse_varint_lazy [128, 128, 128, 128, 128, 128, 128, 128, 128, 127] 0 =
      some (2 ^ 63, 10) :=
  ⟨by decide, by decide, by decide, by decide⟩

end Otel

namespace Otel

/-- Tag extraction from a tag-and-wire varint: `(tag_and_wire >> 3) as u32`
(the `u32` cast truncates modulo `2 ^ 32`). -/
def tagOf (tw : Nat) : Nat := (tw >>> 3) % 2 ^ 32

/-! ## Field-scanning loops

All the scanning loops of the repository (`parse_all_fields` and `find_field`
in `otlp_bytes.rs`, `find_field` in `otlp_bytes_lazy.rs`, the seven lazy
iterators, the `get_cache` scan) walk the same path through a message's bytes:
parse a tag-and-wire varint, act on the field, skip its body by wire type.
`fieldScanF` is the common specification of that walk: the list of
`(tag, wire_type, value_position)` triples visited, stopping at the end of the
buffer, on a truncated field, or right after a field with an unsupported wire
type (which is still recorded, since every loop acts on a field before
skipping it).  Each source loop is then proven to be a `filter`/`find?`/
`filterMap`/`foldl` over this list. -/
def skipPos (pv : Bytes → Nat → Option (Nat × Nat)) (data : Bytes)
    (pos1 wire : Nat) : Option Nat :=
  match wire with
  | 0 => (pv data pos1).map Prod.snd
  | 1 => if pos1 + 8 ≤ data.length then some (pos1 + 8) else none
  | 2 => (parse_length_delimited pv data pos1).map Prod.snd
  | 5 => if pos1 + 4 ≤ data.length then some (pos1 + 4) else none
  | _ => none

/-- See the section comment above: the canonical walk over a message's
fields. -/
def fieldScanF (pv : Bytes → Nat → Option (Nat × Nat)) :
    Nat → Bytes → Nat → List (Nat × Nat × Nat)
  | 0, _, _ => []
  | fuel + 1, data, pos =>
    if pos < data.length then
      match pv data pos with
      | none => []
      | some (tw, pos1) =>
        (tagOf tw, tw &&& 7, pos1) ::
          (match skipPos pv data pos1 (tw &&& 7) with
          | some pos2 => fieldScanF pv fuel data pos2
          | none => [])
    else []

/-- The canonical field list of a message under the `otlp_bytes.rs` parser. -/
def fieldScan_bytes (data : Bytes) : List (Nat × Nat × Nat) :=
  fieldScanF parse_varint_bytes (data.length + 1) data 0

/-- The canonical field list of a message under the `otlp_bytes_lazy.rs`
parser. -/
def fieldScan_lazy (data : Bytes) : List (Nat × Nat × Nat) :=
  fieldScanF parse_varint_lazy (data.length + 1) data 0

/-- `ProtobufParser::parse_all_fields` of `otlp_bytes.rs`: one linear pass
collecting `(wire_type, position)` of every occurrence of `target_tag`,
breaking silently on a truncated field or an unsupported wire type (after
recording the current field if it matched).  The `while` loop strictly
advances `pos`, so fuel `data.length + 1` dominates its iteration count. -/
def parse_all_fieldsF : Nat → Bytes → Nat → Nat → List (Nat × Nat)
  | 0, _, _, _ => []
  | fuel + 1, data, target_tag, pos =>
    if pos < data.length then
      match parse_varint_bytes data pos with
      | none => []
      | some (tw, pos1) =>
        if tagOf tw = target_tag then
          (tw &&& 7, pos1) ::
            (match skipPos parse_varint_bytes data pos1 (tw &&& 7) with
            | some pos2 => parse_all_fieldsF fuel data target_tag pos2
            | none => [])
        else
          match skipPos parse_varint_bytes data pos1 (tw &&& 7) with
          | some pos2 => parse_all_fieldsF fuel data target_tag pos2
          | none => []
    else []

/-- See `parse_all_fieldsF`. -/
def parse_all_fields (data : Bytes) (target_tag : Nat) : List (Nat × Nat) :=
  parse_all_fieldsF (data.length + 1) data target_tag 0

/-- `ProtobufParser::find_field` of `otlp_bytes.rs`: the first element of
`parse_all_fields`. -/
def find_field_bytes (data : Bytes) (target_tag : Nat) : Option (Nat × Nat) :=
  (parse_all_fields data target_tag).head?

/-- `ProtobufParser::find_field` of `otlp_bytes_lazy.rs`: direct scan
returning `(wire_type, position_after_tag)` of the first occurrence of
`target_tag`, failing on a truncated field or an unsupported wire type. -/
def find_field_lazyF : Nat → Bytes → Nat → Nat → Option (Nat × Nat)
  | 0, _, _, _ => none
  | fuel + 1, data, target_tag, pos =>
    if pos < data.length then
      match parse_varint_lazy data pos with
      | none => none
      | some (tw, pos1) =>
        if tagOf tw = target_tag then some (tw &&& 7, pos1)
        else
          match skipPos parse_varint_lazy data pos1 (tw &&& 7) with
          | some pos2 => find_field_lazyF fuel data target_tag pos2
          | none => none
    else none

/-- See `find_field_lazyF`. -/
def find_field_lazy (data : Bytes) (target_tag : Nat) : Option (Nat × Nat) :=
  find_field_lazyF (data.length + 1) data target_tag 0

/-- The element-collection loop shared by all seven lazy iterators
(`ResourceLogsIterator`, `ScopeLogsIterator`, `LogRecordIterator`,
`ResourceAttributeIterator`, `AttributeIterator`, `ArrayValueIterator`,
`KvListIterator`, identical up to the tag they look for): each `next()` call
scans forward to the next field with the iterator's tag and wire type 2 and
yields its length-delimited payload; the full sequence of yields is collected
into a list.  The skip arms for wire types 1 and 5 advance unchecked
(`self.pos + 8` / `self.pos + 4`); an overrun ends the `while` loop at the
next guard check, which the recursion reproduces. -/
def iterPayloadsF : Nat → Bytes → Nat → Nat → List Bytes
  | 0, _, _, _ => []
  | fuel + 1, data, t, pos =>
    if pos < data.length then
      match parse_varint_lazy data pos with
      | none => []
      | some (tw, pos1) =>
        if tagOf tw = t ∧ tw &&& 7 = 2 then
          match parse_length_delimited_lazy data pos1 with
          | some (bytes, endPos) => bytes :: iterPayloadsF fuel data t endPos
          | none => []
        else
          match (match tw &&& 7 with
            | 0 => (parse_varint_lazy data pos1).map Prod.snd
            | 1 => some (pos1 + 8)
            | 2 => (parse_length_delimited_lazy data pos1).map Prod.snd
            | 5 => some (pos1 + 4)
            | _ => none) with
          | some pos2 => iterPayloadsF fuel data t pos2
          | none => []
    else []

/-- See `iterPayloadsF`. -/
def iter_payloads (data : Bytes) (t : Nat) : List Bytes :=
  iterPayloadsF (data.length + 1) data t 0

/-- `FieldCache` of `otlp_bytes_lazy.rs`: the memoized
`(wire_type, position)` of each known singular tag of a `LogRecord`, plus the
list of positions of the repeated `attributes` field (tag 6). -/
structure FieldCacheE where
  time_unix_nano : Option (Nat × Nat) := none
  observed_time_unix_nano : Option (Nat × Nat) := none
  severity_number : Option (Nat × Nat) := none
  severity_text : Option (Nat × Nat) := none
  body : Option (Nat × Nat) := none
  attributes : List (Nat × Nat) := []
  dropped_attributes_count : Option (Nat × Nat) := none
  flags : Option (Nat × Nat) := none
  trace_id : Option (Nat × Nat) := none
  span_id : Option (Nat × Nat) := none
  event_name : Option (Nat × Nat) := none

/-- One cache assignment of `LogRecordParser::get_cache`: the `match tag`
arms, each overwriting the slot of a singular tag (so a later occurrence wins)
or pushing onto the attribute list. -/
def cacheUpdate (c : FieldCacheE) (tag wire pos1 : Nat) : FieldCacheE :=
  match tag with
  | 1 => { c with time_unix_nano := some (wire, pos1) }
  | 2 => { c with severity_number := some (wire, pos1) }
  | 3 => { c with severity_text := some (wire, pos1) }
  | 5 => { c with body := some (wire, pos1) }
  | 6 => { c with attributes := c.attributes ++ [(wire, pos1)] }
  | 7 => { c with dropped_attributes_count := some (wire, pos1) }
  | 8 => { c with flags := some (wire, pos1) }
  | 9 => { c with trace_id := some (wire, pos1) }
  | 10 => { c with span_id := some (wire, pos1) }
  | 11 => { c with observed_time_unix_nano := some (wire, pos1) }
  | 12 => { c with event_name := some (wire, pos1) }
  | _ => c

/-- The scanning loop of `LogRecordParser::get_cache` in `otlp_bytes_lazy.rs`:
one linear pass recording `(wire_type, position)` for every known tag,
breaking on a truncated field or unsupported wire type (after recording the
current field). -/
def getCacheF : Nat → Bytes → Nat → FieldCacheE → FieldCacheE
  | 0, _, _, c => c
  | fuel + 1, data, pos, c =>
    if pos < data.length then
      match parse_varint_lazy data pos with
      | none => c
      | some (tw, pos1) =>
        match skipPos parse_varint_lazy data pos1 (tw &&& 7) with
        | some pos2 =>
          getCacheF fuel data pos2 (cacheUpdate c (tagOf tw) (tw &&& 7) pos1)
        | none => cacheUpdate c (tagOf tw) (tw &&& 7) pos1
    else c

/-- `LogRecordParser::get_cache`: the one-time scan over the record's bytes
(performed lazily on first access; the computed value depends only on the
bytes, so the memoization itself carries no observable state). -/
def get_cache (data : Bytes) : FieldCacheE :=
  getCacheF (data.length + 1) data 0 {}

end Otel

namespace Otel

/-! ## Each scanning loop as an operation over the canonical field list -/

theorem fieldScanF_succ (pv : Bytes → Nat → Option (Nat × Nat)) (fuel : Nat)
    (data : Bytes) (pos : Nat) :
    fieldScanF pv (fuel + 1) data pos =
      if pos < data.length then
        match pv data pos with
        | none => []
        | some (tw, pos1) =>
          (tagOf tw, tw &&& 7, pos1) ::
            (match skipPos pv data pos1 (tw &&& 7) with
            | some pos2 => fieldScanF pv fuel data pos2
            | none => [])
      else [] := rfl

theorem parse_all_fieldsF_succ (fuel : Nat) (data : Bytes) (target_tag pos : Nat) :
    parse_all_fieldsF (fuel + 1) data target_tag pos =
      if pos < data.length then
        match parse_varint_bytes data pos with
        | none => []
        | some (tw, pos1) =>
          if tagOf tw = target_tag then
            (tw &&& 7, pos1) ::
              (match skipPos parse_varint_bytes data pos1 (tw &&& 7) with
              | some pos2 => parse_all_fieldsF fuel data target_tag pos2
              | none => [])
          else
            match skipPos parse_varint_bytes data pos1 (tw &&& 7) with
            | some pos2 => parse_all_fieldsF fuel data target_tag pos2
            | none => []
      else [] := rfl

theorem find_field_lazyF_succ (fuel : Nat) (data : Bytes) (target_tag pos : Nat) :
    find_field_lazyF (fuel + 1) data target_tag pos =
      if pos < data.length then
        match parse_varint_lazy data pos with
        | none => none
        | some (tw, pos1) =>
          if tagOf tw = target_tag then some (tw &&& 7, pos1)
          else
            match skipPos parse_varint_lazy data pos1 (tw &&& 7) with
            | some pos2 => find_field_lazyF fuel data target_tag pos2
            | none => none
      else none := rfl

theorem getCacheF_succ (fuel : Nat) (data : Bytes) (pos : Nat) (c : FieldCacheE) :
    getCacheF (fuel + 1) data pos c =
      if pos < data.length then
        match parse_varint_lazy data pos with
        | none => c
        | some (tw, pos1) =>
          match skipPos parse_varint_lazy data pos1 (tw &&& 7) with
          | some pos2 =>
            getCacheF fuel data pos2 (cacheUpdate c (tagOf tw) (tw &&& 7) pos1)
          | none => cacheUpdate c (tagOf tw) (tw &&& 7) pos1
      else c := rfl

theorem iterPayloadsF_succ (fuel : Nat) (data : Bytes) (t pos : Nat) :
    iterPayloadsF (fuel + 1) data t pos =
      if pos < data.length then
        match parse_varint_lazy data pos with
        | none => []
        | some (tw, pos1) =>
          if tagOf tw = t ∧ tw &&& 7 = 2 then
            match parse_length_delimited_lazy data pos1 with
            | some (bytes, endPos) => bytes :: iterPayloadsF fuel data t endPos
            | none => []
          else
            match (match tw &&& 7 with
              | 0 => (parse_varint_lazy data pos1).map Prod.snd
              | 1 => some (pos1 + 8)
              | 2 => (parse_length_delimited_lazy data pos1).map Prod.snd
              | 5 => some (pos1 + 4)
              | _ => none) with
            | some pos2 => iterPayloadsF fuel data t pos2
            | none => []
      else [] := rfl

/-- `parse_all_fields` collects exactly the canonical field-list entries that
match the target tag. -/
theorem parse_all_fieldsF_eq_scan (fuel : Nat) (data : Bytes) (t : Nat) :
    ∀ pos, parse_all_fieldsF fuel data t pos =
      ((fieldScanF parse_varint_bytes fuel data pos).filter (fun e => e.1 == t)).map
        (fun e => e.2) := by
  induction fuel with
  | zero => intro pos; rfl
  | succ fuel ih =>
    intro pos
    rw [parse_all_fieldsF_succ, fieldScanF_succ]
    by_cases hp : pos < data.length
    · rw [if_pos hp, if_pos hp]
      cases hv : parse_varint_bytes data pos with
      | none => rfl
      | some v =>
        obtain ⟨tw, pos1⟩ := v
        simp only []
        by_cases ht : tagOf tw = t
        · rw [if_pos ht]
          cases hs : skipPos parse_varint_bytes data pos1 (tw &&& 7) with
          | none => simp [List.filter, ht]
          | some pos2 => simp [List.filter, ht, ih pos2]
        · rw [if_neg ht]
          have hbf : (tagOf tw == t) = false := beq_eq_false_iff_ne.2 ht
          cases hs : skipPos parse_varint_bytes data pos1 (tw &&& 7) with
          | none => simp [List.filter, hbf]
          | some pos2 => simp [List.filter, hbf, ih pos2]
    · rw [if_neg hp, if_neg hp]
      rfl

/-- `find_field` of the lazy module returns the first canonical entry with the
target tag. -/
theorem find_field_lazyF_eq_scan (fuel : Nat) (data : Bytes) (t : Nat) :
    ∀ pos, find_field_lazyF fuel data t pos =
      ((fieldScanF parse_varint_lazy fuel data pos).find? (fun e => e.1 == t)).map
        (fun e => e.2) := by
  induction fuel with
  | zero => intro pos; rfl
  | succ fuel ih =>
    intro pos
    rw [find_field_lazyF_succ, fieldScanF_succ]
    by_cases hp : pos < data.length
    · rw [if_pos hp, if_pos hp]
      cases hv : parse_varint_lazy data pos with
      | none => rfl
      | some v =>
        obtain ⟨tw, pos1⟩ := v
        simp only []
        by_cases ht : tagOf tw = t
        · rw [if_pos ht]
          cases hs : skipPos parse_varint_lazy data pos1 (tw &&& 7) with
          | none => simp [List.find?, ht]
          | some pos2 => simp [List.find?, ht]
        · rw [if_neg ht]
          have hbf : (tagOf tw == t) = false := beq_eq_false_iff_ne.2 ht
          cases hs : skipPos parse_varint_lazy data pos1 (tw &&& 7) with
          | none => simp [List.find?, hbf]
          | some pos2 => simp [List.find?, hbf, ih pos2]
    · rw [if_neg hp, if_neg hp]
      rfl

/-- `get_cache` folds the cache-update step over the canonical field list. -/
theorem getCacheF_eq_scan (fuel : Nat) (data : Bytes) :
    ∀ pos c, getCacheF fuel data pos c =
      (fieldScanF parse_varint_lazy fuel data pos).foldl
        (fun c e => cacheUpdate c e.1 e.2.1 e.2.2) c := by
  induction fuel with
  | zero => intro pos c; rfl
  | succ fuel ih =>
    intro pos c
    rw [getCacheF_succ, fieldScanF_succ]
    by_cases hp : pos < data.length
    · rw [if_pos hp, if_pos hp]
      cases hv : parse_varint_lazy data pos with
      | none => rfl
      | some v =>
        obtain ⟨tw, pos1⟩ := v
        simp only []
        cases hs : skipPos parse_varint_lazy data pos1 (tw &&& 7) with
        | none => rfl
        | some pos2 => simp [ih pos2]
    · rw [if_neg hp, if_neg hp]
      rfl

end Otel

namespace Otel

/-! ## Claim C8: scanning stops at an unsupported wire type -/

theorem skipPos_none_of_unsupported (pv : Bytes → Nat → Option (Nat × Nat))
    (data : Bytes) (pos1 w : Nat) (h0 : w ≠ 0) (h1 : w ≠ 1) (h2 : w ≠ 2) (h5 : w ≠ 5) :
    skipPos pv data pos1 w = none := by
  rcases w with - | - | - | - | - | - | w
  · exact absurd rfl h0
  · exact absurd rfl h1
  · exact absurd rfl h2
  · rfl
  · rfl
  · exact absurd rfl h5
  · rfl

/-- Nothing is ever scanned past a field with an unsupported wire type: such
an entry is always the last of the canonical field list. -/
theorem fieldScanF_bad_wire_last (pv : Bytes → Nat → Option (Nat × Nat))
    (fuel : Nat) (data : Bytes) :
    ∀ pos pre e post, fieldScanF pv fuel data pos = pre ++ e :: post →
      e.2.1 ≠ 0 → e.2.1 ≠ 1 → e.2.1 ≠ 2 → e.2.1 ≠ 5 → post = [] := by
  induction fuel with
  | zero =>
    intro pos pre e post h
    rw [show fieldScanF pv 0 data pos = [] from rfl] at h
    simp at h
  | succ fuel ih =>
    intro pos pre e post h h0 h1 h2 h5
    rw [fieldScanF_succ] at h
    by_cases hp : pos < data.length
    · rw [if_pos hp] at h
      cases hv : pv data pos with
      | none =>
        rw [hv] at h
        simp at h
      | some v =>
        obtain ⟨tw, pos1⟩ := v
        rw [hv] at h
        dsimp only at h
        split at h
        next pos2 hs =>
          cases pre with
          | nil =>
            simp only [List.nil_append, List.cons.injEq] at h
            obtain ⟨he, hrest⟩ := h
            have hnone : skipPos pv data pos1 (tw &&& 7) = none :=
              skipPos_none_of_unsupported pv data pos1 (tw &&& 7)
                (by rw [show tw &&& 7 = e.2.1 from by rw [← he]]; exact h0)
                (by rw [show tw &&& 7 = e.2.1 from by rw [← he]]; exact h1)
                (by rw [show tw &&& 7 = e.2.1 from by rw [← he]]; exact h2)
                (by rw [show tw &&& 7 = e.2.1 from by rw [← he]]; exact h5)
            rw [hnone] at hs
            cases hs
          | cons p pre =>
            simp only [List.cons_append, List.cons.injEq] at h
            exact ih pos2 pre e post h.2 h0 h1 h2 h5
        next hs =>
          cases pre with
          | nil =>
            simp only [List.nil_append, List.cons.injEq] at h
            exact h.2.symm
          | cons p pre =>
            simp only [List.cons_append, List.cons.injEq] at h
            exact absurd h.2 (by simp)
    · rw [if_neg hp] at h
      simp at h

/-- **C8 (amended).** `parse_all_fields` returns exactly the matching entries
of the canonical scan of the message — the matches located before an
unsupported-wire-type field, plus that field itself when its own tag matches
(it is pushed before the failed skip) — and the scan stops silently there: an
unsupported-wire-type entry is always the last one scanned, so matching fields
occurring after that point are never returned. -/
theorem c8_parse_all_fields_stops (data : Bytes) (t : Nat) :
    parse_all_fields data t =
      ((fieldScan_bytes data).filter (fun e => e.1 == t)).map (fun e => e.2) ∧
    (∀ pre e post, fieldScan_bytes data = pre ++ e :: post →
      e.2.1 ≠ 0 → e.2.1 ≠ 1 → e.2.1 ≠ 2 → e.2.1 ≠ 5 → post = []) := by
  constructor
  · rw [parse_all_fields, fieldScan_bytes]
    exact parse_all_fieldsF_eq_scan _ data t 0
  · intro pre e post h
    exact fieldScanF_bad_wire_last parse_varint_bytes _ data 0 pre e post h

theorem c8_parse_all_fields_stops_witness :
    fieldScan_bytes [11] = [] ++ (1, 3, 1) :: [] ∧ ([] : List (Nat × Nat × Nat)) = [] :=
  ⟨by decide, (c8_parse_all_fields_stops [11] 1).2 [] (1, 3, 1) []
    (by decide) (by decide) (by decide) (by decide) (by decide)⟩

/-- **C8 (counterexample).** In the one-field message `[0x0B]` (tag 1, wire
type 3 — unsupported), there are no matches located before the unsupported
field, so the claim as stated predicts an empty result; `parse_all_fields`
nevertheless returns the unsupported field itself, which was pushed before the
skip failed. -/
theorem c8_counterexample :
    parse_all_fields [11] 1 = [(3, 1)] ∧ ([(3, 1)] : List (Nat × Nat)) ≠ [] :=
  ⟨by decide, by decide⟩

end Otel

namespace Otel

/-! ## The lazy LogRecordParser accessors (`otlp_bytes_lazy.rs`) -/

/-- `LogRecordParser::time_unix_nano`: cached lookup of tag 1; with wire
type 1, read a fixed64 at the cached position; default 0 on absence,
wire-type mismatch or failed read. -/
def lazy_time_unix_nano (data : Bytes) : Nat :=
  match (get_cache data).time_unix_nano with
  | some (wire, pos) =>
    if wire = 1 then ((parse_fixed64 data pos).map Prod.fst).getD 0 else 0
  | none => 0

/-- `LogRecordParser::observed_time_unix_nano`: cached lookup of tag 11,
fixed64, default 0. -/
def lazy_observed_time_unix_nano (data : Bytes) : Nat :=
  match (get_cache data).observed_time_unix_nano with
  | some (wire, pos) =>
    if wire = 1 then ((parse_fixed64 data pos).map Prod.fst).getD 0 else 0
  | none => 0

/-- `LogRecordParser::severity_number`: cached lookup of tag 2, varint read
as `i32`, default 0. -/
def lazy_severity_number (data : Bytes) : Int :=
  match (get_cache data).severity_number with
  | some (wire, pos) =>
    if wire = 0 then ((parse_varint_lazy data pos).map (fun v => toI32 v.1)).getD 0 else 0
  | none => 0

/-- `LogRecordParser::severity_text`: cached lookup of tag 3, length-delimited
UTF-8 string. -/
def lazy_severity_text (data : Bytes) : Option Bytes :=
  match (get_cache data).severity_text with
  | some (wire, pos) =>
    if wire = 2 then (parse_length_delimited_lazy data pos).bind (fun b => from_utf8 b.1)
    else none
  | none => none

/-- `LogRecordParser::body`: cached lookup of tag 5, raw length-delimited
bytes. -/
def lazy_body (data : Bytes) : Option Bytes :=
  match (get_cache data).body with
  | some (wire, pos) =>
    if wire = 2 then (parse_length_delimited_lazy data pos).map Prod.fst else none
  | none => none

/-- `LogRecordParser::dropped_attributes_count`: cached lookup of tag 7,
varint read as `u32`. -/
def lazy_dropped_attributes_count (data : Bytes) : Option Nat :=
  match (get_cache data).dropped_attributes_count with
  | some (wire, pos) =>
    if wire = 0 then (parse_varint_lazy data pos).map (fun v => toU32 v.1) else none
  | none => none

/-- `LogRecordParser::flags`: cached lookup of tag 8, fixed32. -/
def lazy_flags (data : Bytes) : Option Nat :=
  match (get_cache data).flags with
  | some (wire, pos) =>
    if wire = 5 then (parse_fixed32 data pos).map Prod.fst else none
  | none => none

/-- `LogRecordParser::trace_id`: cached lookup of tag 9, raw bytes. -/
def lazy_trace_id (data : Bytes) : Option Bytes :=
  match (get_cache data).trace_id with
  | some (wire, pos) =>
    if wire = 2 then (parse_length_delimited_lazy data pos).map Prod.fst else none
  | none => none

/-- `LogRecordParser::span_id`: cached lookup of tag 10, raw bytes. -/
def lazy_span_id (data : Bytes) : Option Bytes :=
  match (get_cache data).span_id with
  | some (wire, pos) =>
    if wire = 2 then (parse_length_delimited_lazy data pos).map Prod.fst else none
  | none => none

/-- `LogRecordParser::event_name`: cached lookup of tag 12, length-delimited
UTF-8 string. -/
def lazy_event_name (data : Bytes) : Option Bytes :=
  match (get_cache data).event_name with
  | some (wire, pos) =>
    if wire = 2 then (parse_length_delimited_lazy data pos).bind (fun b => from_utf8 b.1)
    else none
  | none => none

/-! The claim's comparison point: the same accessors computed through a direct
`find_field` (first-occurrence) scan of the record's byte range instead of the
memoized cache — exactly the shape of the accessors of `Untitled-1.rs`'s
`LogRecordParser`, with the lazy module's default-0 wrappers. -/

/-- Find-first variant of `lazy_time_unix_nano` (see the comment above). -/
def direct_time_unix_nano (data : Bytes) : Nat :=
  match find_field_lazy data 1 with
  | some (wire, pos) =>
    if wire = 1 then ((parse_fixed64 data pos).map Prod.fst).getD 0 else 0
  | none => 0

/-- Find-first variant of `lazy_observed_time_unix_nano`. -/
def direct_observed_time_unix_nano (data : Bytes) : Nat :=
  match find_field_lazy data 11 with
  | some (wire, pos) =>
    if wire = 1 then ((parse_fixed64 data pos).map Prod.fst).getD 0 else 0
  | none => 0

/-- Find-first variant of `lazy_severity_number`. -/
def direct_severity_number (data : Bytes) : Int :=
  match find_field_lazy data 2 with
  | some (wire, pos) =>
    if wire = 0 then ((parse_varint_lazy data pos).map (fun v => toI32 v.1)).getD 0 else 0
  | none => 0

/-- Find-first variant of `lazy_severity_text`. -/
def direct_severity_text (data : Bytes) : Option Bytes :=
  match find_field_lazy data 3 with
  | some (wire, pos) =>
    if wire = 2 then (parse_length_delimited_lazy data pos).bind (fun b => from_utf8 b.1)
    else none
  | none => none

/-- Find-first variant of `lazy_body`. -/
def direct_body (data : Bytes) : Option Bytes :=
  match find_field_lazy data 5 with
  | some (wire, pos) =>
    if wire = 2 then (parse_length_delimited_lazy data pos).map Prod.fst else none
  | none => none

/-- Find-first variant of `lazy_dropped_attributes_count`. -/
def direct_dropped_attributes_count (data : Bytes) : Option Nat :=
  match find_field_lazy data 7 with
  | some (wire, pos) =>
    if wire = 0 then (parse_varint_lazy data pos).map (fun v => toU32 v.1) else none
  | none => none

/-- Find-first variant of `lazy_flags`. -/
def direct_flags (data : Bytes) : Option Nat :=
  match find_field_lazy data 8 with
  | some (wire, pos) =>
    if wire = 5 then (parse_fixed32 data pos).map Prod.fst else none
  | none => none

/-- Find-first variant of `lazy_trace_id`. -/
def direct_trace_id (data : Bytes) : Option Bytes :=
  match find_field_lazy data 9 with
  | some (wire, pos) =>
    if wire = 2 then (parse_length_delimited_lazy data pos).map Prod.fst else none
  | none => none

/-- Find-first variant of `lazy_span_id`. -/
def direct_span_id (data : Bytes) : Option Bytes :=
  match find_field_lazy data 10 with
  | some (wire, pos) =>
    if wire = 2 then (parse_length_delimited_lazy data pos).map Prod.fst else none
  | none => none

/-- Find-first variant of `lazy_event_name`. -/
def direct_event_name (data : Bytes) : Option Bytes :=
  match find_field_lazy data 12 with
  | some (wire, pos) =>
    if wire = 2 then (parse_length_delimited_lazy data pos).bind (fun b => from_utf8 b.1)
    else none
  | none => none

end Otel

namespace Otel

/-! ## The cache holds the last occurrence of each singular tag -/

/-- The cache slot associated with a singular known tag. -/
def cacheSlot (c : FieldCacheE) : Nat → Option (Nat × Nat)
  | 1 => c.time_unix_nano
  | 2 => c.severity_number
  | 3 => c.severity_text
  | 5 => c.body
  | 7 => c.dropped_attributes_count
  | 8 => c.flags
  | 9 => c.trace_id
  | 10 => c.span_id
  | 11 => c.observed_time_unix_nano
  | 12 => c.event_name
  | _ => none

/-- Abbreviation for the ten singular known tags of a `LogRecord`. -/
def singularTag (t : Nat) : Prop :=
  t = 1 ∨ t = 2 ∨ t = 3 ∨ t = 5 ∨ t = 7 ∨ t = 8 ∨ t = 9 ∨ t = 10 ∨ t = 11 ∨ t = 12

theorem cacheSlot_update (c : FieldCacheE) (tp w p t : Nat) (ht : singularTag t) :
    cacheSlot (cacheUpdate c tp w p) t = if tp = t then some (w, p) else cacheSlot c t := by
  rcases tp with - | - | - | - | - | - | - | - | - | - | - | - | - | tp <;>
    rcases ht with rfl | rfl | rfl | rfl | rfl | rfl | rfl | rfl | rfl | rfl <;>
    simp [cacheUpdate, cacheSlot] <;>
    try rw [if_neg (by omega)]

theorem cacheSlot_foldl (t : Nat) (ht : singularTag t) (es : List (Nat × Nat × Nat)) :
    ∀ c, cacheSlot (es.foldl (fun c e => cacheUpdate c e.1 e.2.1 e.2.2) c) t =
      es.foldl (fun acc e => if e.1 = t then some e.2 else acc) (cacheSlot c t) := by
  induction es with
  | nil => intro c; rfl
  | cons a es ih =>
    intro c
    rw [List.foldl_cons, List.foldl_cons, ih, cacheSlot_update _ _ _ _ _ ht]

theorem foldl_lastMatch_no_match {t : Nat} {es : List (Nat × Nat × Nat)}
    (h : ∀ e ∈ es, ¬ e.1 = t) (acc : Option (Nat × Nat)) :
    es.foldl (fun acc e => if e.1 = t then some e.2 else acc) acc = acc := by
  induction es generalizing acc with
  | nil => rfl
  | cons a es ih =>
    rw [List.foldl_cons, if_neg (h a (by simp))]
    exact ih (fun e he => h e (by simp [he])) acc

/-- With at most one occurrence of a tag, last-wins and first-wins coincide. -/
theorem foldl_lastMatch_eq_find? (t : Nat) (es : List (Nat × Nat × Nat))
    (hdup : es.countP (fun e => e.1 == t) ≤ 1) :
    es.foldl (fun acc e => if e.1 = t then some e.2 else acc) none =
      (es.find? (fun e => e.1 == t)).map (fun e => e.2) := by
  induction es with
  | nil => rfl
  | cons a es ih =>
    rw [List.foldl_cons, List.find?_cons]
    by_cases ha : a.1 = t
    · have hb : (a.1 == t) = true := beq_iff_eq.2 ha
      rw [if_pos ha, hb]
      have hzero : ∀ e ∈ es, ¬ e.1 = t := by
        rw [List.countP_cons] at hdup
        simp [hb] at hdup
        intro e he
        exact hdup e.1 e.2.1 e.2.2 (by simpa using he)
      rw [foldl_lastMatch_no_match hzero]
      rfl
    · have hb : (a.1 == t) = false := beq_eq_false_iff_ne.2 ha
      rw [if_neg ha, hb]
      apply ih
      rw [List.countP_cons] at hdup
      simp [hb] at hdup
      exact hdup

/-- The memoized cache's slot for a singular tag equals the result of a
direct first-occurrence `find_field` scan whenever the tag occurs at most
once in the scanned field sequence. -/
theorem cacheSlot_eq_find_field (data : Bytes) (t : Nat) (ht : singularTag t)
    (hdup : (fieldScan_lazy data).countP (fun e => e.1 == t) ≤ 1) :
    cacheSlot (get_cache data) t = find_field_lazy data t := by
  have hinit : cacheSlot {} t = none := by
    rcases ht with rfl | rfl | rfl | rfl | rfl | rfl | rfl | rfl | rfl | rfl <;> rfl
  rw [get_cache, getCacheF_eq_scan, cacheSlot_foldl t ht, hinit,
    show fieldScanF parse_varint_lazy (data.length + 1) data 0 = fieldScan_lazy data from rfl,
    foldl_lastMatch_eq_find? t _ hdup, find_field_lazy, find_field_lazyF_eq_scan,
    show fieldScanF parse_varint_lazy (data.length + 1) data 0 = fieldScan_lazy data from rfl]

end Otel

namespace Otel

/-! ## Claim C2: memoized accessors versus a direct find-first scan -/

theorem cacheSlot_none_of_absent (data : Bytes) (t : Nat) (ht : singularTag t)
    (habs : ∀ e ∈ fieldScan_lazy data, ¬ e.1 = t) :
    cacheSlot (get_cache data) t = none := by
  have hinit : cacheSlot {} t = none := by
    rcases ht with rfl | rfl | rfl | rfl | rfl | rfl | rfl | rfl | rfl | rfl <;> rfl
  rw [get_cache, getCacheF_eq_scan, cacheSlot_foldl t ht, hinit,
    show fieldScanF parse_varint_lazy (data.length + 1) data 0 = fieldScan_lazy data from rfl,
    foldl_lastMatch_no_match habs]

/-- **C2 (amended).** For every log-record byte range in which each known
singular tag (1, 2, 3, 5, 7, 8, 9, 10, 11, 12) occurs at most once in the
scanned field sequence — in particular on every well-formed record — each
accessor of the lazy `LogRecordParser` computed through the one-time memoized
`(tag, wire_type, position)` cache returns the same value as a direct
`find_field` (first-occurrence) scan of that same range: the memoization
changes speed only, never results.  (When a singular tag occurs more than
once, the cache keeps the last occurrence while `find_field` returns the
first, and results can differ — see the counterexample.) -/
theorem c2_cached_accessors_eq_find_first (data : Bytes)
    (hdup : ∀ t ∈ ([1, 2, 3, 5, 7, 8, 9, 10, 11, 12] : List Nat),
      (fieldScan_lazy data).countP (fun e => e.1 == t) ≤ 1) :
    lazy_time_unix_nano data = direct_time_unix_nano data ∧
    lazy_severity_number data = direct_severity_number data ∧
    lazy_severity_text data = direct_severity_text data ∧
    lazy_body data = direct_body data ∧
    lazy_dropped_attributes_count data = direct_dropped_attributes_count data ∧
    lazy_flags data = direct_flags data ∧
    lazy_trace_id data = direct_trace_id data ∧
    lazy_span_id data = direct_span_id data ∧
    lazy_observed_time_unix_nano data = direct_observed_time_unix_nano data ∧
    lazy_event_name data = direct_event_name data := by
  refine ⟨?_, ?_, ?_, ?_, ?_, ?_, ?_, ?_, ?_, ?_⟩
  · simp only [lazy_time_unix_nano, direct_time_unix_nano]
    rw [show (get_cache data).time_unix_nano = cacheSlot (get_cache data) 1 from rfl,
      cacheSlot_eq_find_field data 1 (by unfold singularTag; omega) (hdup 1 (by decide))]
  · simp only [lazy_severity_number, direct_severity_number]
    rw [show (get_cache data).severity_number = cacheSlot (get_cache data) 2 from rfl,
      cacheSlot_eq_find_field data 2 (by unfold singularTag; omega) (hdup 2 (by decide))]
  · simp only [lazy_severity_text, direct_severity_text]
    rw [show (get_cache data).severity_text = cacheSlot (get_cache data) 3 from rfl,
      cacheSlot_eq_find_field data 3 (by unfold singularTag; omega) (hdup 3 (by decide))]
  · simp only [lazy_body, direct_body]
    rw [show (get_cache data).body = cacheSlot (get_cache data) 5 from rfl,
      cacheSlot_eq_find_field data 5 (by unfold singularTag; omega) (hdup 5 (by decide))]
  · simp only [lazy_dropped_attributes_count, direct_dropped_attributes_count]
    rw [show (get_cache data).dropped_attributes_count = cacheSlot (get_cache data) 7 from rfl,
      cacheSlot_eq_find_field data 7 (by unfold singularTag; omega) (hdup 7 (by decide))]
  · simp only [lazy_flags, direct_flags]
    rw [show (get_cache data).flags = cacheSlot (get_cache data) 8 from rfl,
      cacheSlot_eq_find_field data 8 (by unfold singularTag; omega) (hdup 8 (by decide))]
  · simp only [lazy_trace_id, direct_trace_id]
    rw [show (get_cache data).trace_id = cacheSlot (get_cache data) 9 from rfl,
      cacheSlot_eq_find_field data 9 (by unfold singularTag; omega) (hdup 9 (by decide))]
  · simp only [lazy_span_id, direct_span_id]
    rw [show (get_cache data).span_id = cacheSlot (get_cache data) 10 from rfl,
      cacheSlot_eq_find_field data 10 (by unfold singularTag; omega) (hdup 10 (by decide))]
  · simp only [lazy_observed_time_unix_nano, direct_observed_time_unix_nano]
    rw [show (get_cache data).observed_time_unix_nano = cacheSlot (get_cache data) 11 from rfl,
      cacheSlot_eq_find_field data 11 (by unfold singularTag; omega) (hdup 11 (by decide))]
  · simp only [lazy_event_name, direct_event_name]
    rw [show (get_cache data).event_name = cacheSlot (get_cache data) 12 from rfl,
      cacheSlot_eq_find_field data 12 (by unfold singularTag; omega) (hdup 12 (by decide))]

theorem c2_cached_accessors_eq_find_first_witness :
    (∀ t ∈ ([1, 2, 3, 5, 7, 8, 9, 10, 11, 12] : List Nat),
      (fieldScan_lazy [9, 5, 0, 0, 0, 0, 0, 0, 0, 16, 9]).countP (fun e => e.1 == t) ≤ 1) ∧
    lazy_time_unix_nano [9, 5, 0, 0, 0, 0, 0, 0, 0, 16, 9] =
      direct_time_unix_nano [9, 5, 0, 0, 0, 0, 0, 0, 0, 16, 9] :=
  ⟨by decide, (c2_cached_accessors_eq_find_first _ (by decide)).1⟩

/-- **C2 (counterexample).** A record range with two tag-1 fixed64 fields
(values 1 and 2): the cached accessor returns the last occurrence (2), a
direct find-first scan of the same range returns the first (1), so the
memoization does change results on such a range. -/
theorem c2_counterexample :
    lazy_time_unix_nano [9, 1, 0, 0, 0, 0, 0, 0, 0, 9, 2, 0, 0, 0, 0, 0, 0, 0] = 2 ∧
    direct_time_unix_nano [9, 1, 0, 0, 0, 0, 0, 0, 0, 9, 2, 0, 0, 0, 0, 0, 0, 0] = 1 ∧
    lazy_time_unix_nano [9, 1, 0, 0, 0, 0, 0, 0, 0, 9, 2, 0, 0, 0, 0, 0, 0, 0] ≠
      direct_time_unix_nano [9, 1, 0, 0, 0, 0, 0, 0, 0, 9, 2, 0, 0, 0, 0, 0, 0, 0] :=
  ⟨by decide, by decide, by decide⟩

/-! ## Claim C10: the lazy numeric accessors are total with default 0 -/

/-- **C10.** The lazy `LogRecordParser` numeric accessors `time_unix_nano`,
`observed_time_unix_nano` and `severity_number` are total — they return plain
numbers, never an absent/`Option` result — and yield the concrete default 0
when the corresponding tag (1, 11, 2) is absent from the scanned fields, when
the cached entry has a mismatched wire type, and when the value itself fails
to parse. -/
theorem c10_lazy_numeric_accessors_total (data : Bytes) :
    ((∀ e ∈ fieldScan_lazy data, ¬ e.1 = 1) → lazy_time_unix_nano data = 0) ∧
    (∀ w p, (get_cache data).time_unix_nano = some (w, p) → w ≠ 1 →
      lazy_time_unix_nano data = 0) ∧
    (∀ p, (get_cache data).time_unix_nano = some (1, p) → parse_fixed64 data p = none →
      lazy_time_unix_nano data = 0) ∧
    ((∀ e ∈ fieldScan_lazy data, ¬ e.1 = 11) → lazy_observed_time_unix_nano data = 0) ∧
    (∀ w p, (get_cache data).observed_time_unix_nano = some (w, p) → w ≠ 1 →
      lazy_observed_time_unix_nano data = 0) ∧
    (∀ p, (get_cache data).observed_time_unix_nano = some (1, p) →
      parse_fixed64 data p = none → lazy_observed_time_unix_nano data = 0) ∧
    ((∀ e ∈ fieldScan_lazy data, ¬ e.1 = 2) → lazy_severity_number data = 0) ∧
    (∀ w p, (get_cache data).severity_number = some (w, p) → w ≠ 0 →
      lazy_severity_number data = 0) ∧
    (∀ p, (get_cache data).severity_number = some (0, p) →
      parse_varint_lazy data p = none → lazy_severity_number data = 0) := by
  refine ⟨?_, ?_, ?_, ?_, ?_, ?_, ?_, ?_, ?_⟩
  · intro habs
    have h := cacheSlot_none_of_absent data 1 (by unfold singularTag; omega) habs
    simp only [lazy_time_unix_nano]
    rw [show (get_cache data).time_unix_nano = cacheSlot (get_cache data) 1 from rfl, h]
  · intro w p h hw
    simp [lazy_time_unix_nano, h, hw]
  · intro p h hf
    simp [lazy_time_unix_nano, h, hf]
  · intro habs
    have h := cacheSlot_none_of_absent data 11 (by unfold singularTag; omega) habs
    simp only [lazy_observed_time_unix_nano]
    rw [show (get_cache data).observed_time_unix_nano = cacheSlot (get_cache data) 11 from rfl, h]
  · intro w p h hw
    simp [lazy_observed_time_unix_nano, h, hw]
  · intro p h hf
    simp [lazy_observed_time_unix_nano, h, hf]
  · intro habs
    have h := cacheSlot_none_of_absent data 2 (by unfold singularTag; omega) habs
    simp only [lazy_severity_number]
    rw [show (get_cache data).severity_number = cacheSlot (get_cache data) 2 from rfl, h]
  · intro w p h hw
    simp [lazy_severity_number, h, hw]
  · intro p h hf
    simp [lazy_severity_number, h, hf]

theorem c10_lazy_numeric_accessors_total_witness :
    (∀ e ∈ fieldScan_lazy [], ¬ e.1 = 1) ∧ lazy_time_unix_nano [] = 0 :=
  ⟨by decide, (c10_lazy_numeric_accessors_total []).1 (by decide)⟩

end Otel

namespace Otel

/-! ## The eager AnyValue / KeyValue parsers (`otlp_bytes.rs`) -/

/-- `AnyValueData` of `otlp_bytes.rs`, which is also the observable value of a
parsed eager `AnyValue` (the `AnyValue` struct is a plain wrapper around it).
A `double` holds the raw `f64` bit pattern: `f64::from_bits` is a bijection on
bit patterns and the decoder performs no floating-point arithmetic, so the
bits are a faithful model.  A `kvlist` element is a `KeyValue`:
`(key bytes, optional value)`. -/
inductive AnyValueE : Type where
  | str (s : Bytes)
  | boolv (b : Bool)
  | intv (i : Int)
  | double (bits : Nat)
  | array (vs : List AnyValueE)
  | kvlist (kvs : List (Bytes × Option AnyValueE))
  | bytes (bs : Bytes)

/-- `KeyValue` of `otlp_bytes.rs`: the key (a `&str`, modelled by its UTF-8
bytes) and the optional value. -/
abbrev KeyValueE := Bytes × Option AnyValueE

/-- The tag-1 block of `AnyValue::parse`: a present tag 1 with wire type 2, a
valid span and valid UTF-8 yields the `String` branch; otherwise fall
through. -/
def tryString (data : Bytes) : Option AnyValueE :=
  match find_field_bytes data 1 with
  | some (wire, pos) =>
    if wire = 2 then
      match parse_length_delimited_bytes data pos with
      | some (bytes, _) => (from_utf8 bytes).map AnyValueE.str
      | none => none
    else none
  | none => none

/-- The tag-2 block of `AnyValue::parse`: wire type 0, varint, `Bool(v != 0)`. -/
def tryBool (data : Bytes) : Option AnyValueE :=
  match find_field_bytes data 2 with
  | some (wire, pos) =>
    if wire = 0 then
      (parse_varint_bytes data pos).map (fun v => AnyValueE.boolv (v.1 ≠ 0))
    else none
  | none => none

/-- The tag-3 block of `AnyValue::parse`: wire type 0, varint, `Int(v as i64)`. -/
def tryInt (data : Bytes) : Option AnyValueE :=
  match find_field_bytes data 3 with
  | some (wire, pos) =>
    if wire = 0 then
      (parse_varint_bytes data pos).map (fun v => AnyValueE.intv (toI64 v.1))
    else none
  | none => none

/-- The tag-4 block of `AnyValue::parse`: wire type 1, fixed64,
`Double(f64::from_bits v)`. -/
def tryDouble (data : Bytes) : Option AnyValueE :=
  match find_field_bytes data 4 with
  | some (wire, pos) =>
    if wire = 1 then
      (parse_fixed64 data pos).map (fun v => AnyValueE.double v.1)
    else none
  | none => none

/-- The tag-7 block of `AnyValue::parse`: wire type 2, raw bytes. -/
def tryBytes (data : Bytes) : Option AnyValueE :=
  match find_field_bytes data 7 with
  | some (wire, pos) =>
    if wire = 2 then
      (parse_length_delimited_bytes data pos).map (fun b => AnyValueE.bytes b.1)
    else none
  | none => none

mutual

/-- `AnyValue::parse` of `otlp_bytes.rs`: probe the branches in tag order
1 (String), 2 (Bool), 3 (Int), 4 (Double), 5 (Array — chosen whenever tag 5
is present at all, collecting the elements that parse), 6 (KvList — likewise),
7 (Bytes); return the first that fires, or `none` (Rust `false`, the cleared
node is then discarded by the caller).  Fuel: every recursive call descends
into a length-delimited payload lying strictly inside `data` (its position is
preceded by at least one tag byte), so `data.length + 1` dominates the
recursion depth and fuel exhaustion is unreachable from the wrapper. -/
def anyValueParseF : Nat → Bytes → Option AnyValueE
  | 0, _ => none
  | fuel + 1, data =>
    match tryString data with
    | some v => some v
    | none =>
    match tryBool data with
    | some v => some v
    | none =>
    match tryInt data with
    | some v => some v
    | none =>
    match tryDouble data with
    | some v => some v
    | none =>
    if (find_field_bytes data 5).isSome then
      some (.array ((parse_all_fields data 5).filterMap (fun f =>
        if f.1 = 2 then
          match parse_length_delimited_bytes data f.2 with
          | some (bytes, _) => anyValueParseF fuel bytes
          | none => none
        else none)))
    else if (find_field_bytes data 6).isSome then
      some (.kvlist ((parse_all_fields data 6).filterMap (fun f =>
        if f.1 = 2 then
          match parse_length_delimited_bytes data f.2 with
          | some (bytes, _) =>
            match keyValueParseFullF fuel bytes with
            | (kv, true) => some kv
            | (_, false) => none
          | none => none
        else none)))
    else
    match tryBytes data with
    | some v => some v
    | none => none

/-- `KeyValue::parse` of `otlp_bytes.rs`, including the state left behind on
failure: clear (`key = ""`, `value = None`), decode the key from tag 1
(empty on absence, wire mismatch, truncation or invalid UTF-8); an empty key
returns `false` with the cleared state; otherwise decode the optional value
from tag 2 and return `true`. -/
def keyValueParseFullF : Nat → Bytes → KeyValueE × Bool
  | 0, _ => (([], none), false)
  | fuel + 1, data =>
    let key : Bytes :=
      match find_field_bytes data 1 with
      | some (wire, pos) =>
        if wire = 2 then
          match parse_length_delimited_bytes data pos with
          | some (bytes, _) => (from_utf8 bytes).getD []
          | none => []
        else []
      | none => []
    if key = [] then (([], none), false)
    else
      let value : Option AnyValueE :=
        match find_field_bytes data 2 with
        | some (wire, pos) =>
          if wire = 2 then
            match parse_length_delimited_bytes data pos with
            | some (bytes, _) => anyValueParseF fuel bytes
            | none => none
          else none
        | none => none
      ((key, value), true)

end

/-- `AnyValue::parse` on a fresh node: `some` of the parsed value, or `none`
when the Rust method returns `false` and the caller discards the node. -/
def AnyValue_parse (data : Bytes) : Option AnyValueE :=
  anyValueParseF (data.length + 1) data

/-- `KeyValue::parse` on a (re)used node: the post-parse state and the
returned flag. -/
def KeyValue_parse (data : Bytes) : KeyValueE × Bool :=
  keyValueParseFullF (data.length + 1) data

/-- `AnyValueType` of `otlp_bytes_lazy.rs` (the lazy strategy's value-type
enum, which unlike the eager one has an `Unknown` case). -/
inductive AnyValueTypeL : Type where
  | str
  | boolv
  | intv
  | double
  | array
  | kvlist
  | bytes
  | unknown
deriving DecidableEq

/-- `AnyValueParser::value_type` of `otlp_bytes_lazy.rs`: probe tags 1-7 in
order and report the first present; `Unknown` when none is present. -/
def lazy_value_type (data : Bytes) : AnyValueTypeL :=
  if (find_field_lazy data 1).isSome then .str
  else if (find_field_lazy data 2).isSome then .boolv
  else if (find_field_lazy data 3).isSome then .intv
  else if (find_field_lazy data 4).isSome then .double
  else if (find_field_lazy data 5).isSome then .array
  else if (find_field_lazy data 6).isSome then .kvlist
  else if (find_field_lazy data 7).isSome then .bytes
  else .unknown

end Otel

namespace Otel

/-- A present field in the lazy scan: some scanned entry carries the tag. -/
theorem find_field_lazy_isSome_iff (data : Bytes) (t : Nat) :
    (find_field_lazy data t).isSome = true ↔ ∃ e ∈ fieldScan_lazy data, e.1 = t := by
  rw [find_field_lazy, find_field_lazyF_eq_scan]
  simp [fieldScan_lazy, List.find?_isSome]

/-- Replacing a boolean `if` condition by an equivalent proposition. -/
theorem ite_bool_to_prop {α : Type} (b : Bool) (p : Prop) [Decidable p]
    (h : b = true ↔ p) (x y : α) : (if b then x else y) = (if p then x else y) := by
  by_cases hp : p
  · rw [if_pos (h.2 hp), if_pos hp]
  · rw [if_neg (fun hb => hp (h.1 hb)), if_neg hp]

/-- C5: under the lazy strategy, `value_type` reports the first present tag
among 1..7 in the order String, Bool, Int, Double, Array, KvList, Bytes, and
reports `Unknown` — it does not fail — when none is present.  Under the eager
strategy, `AnyValue::parse` probes the same branches in the same order, but
it fails (returns `false`, whereupon the caller discards the value) exactly
when no branch qualifies: in particular, on a value byte range with no
populated tag 1-7 the eager strategy fails rather than reporting an
unknown/unset type, so the claim's "under every strategy" clause does not
hold for the eager decoder. -/
theorem c5_value_type_first_populated (data : Bytes) :
    (lazy_value_type data =
      if ∃ e ∈ fieldScan_lazy data, e.1 = 1 then .str
      else if ∃ e ∈ fieldScan_lazy data, e.1 = 2 then .boolv
      else if ∃ e ∈ fieldScan_lazy data, e.1 = 3 then .intv
      else if ∃ e ∈ fieldScan_lazy data, e.1 = 4 then .double
      else if ∃ e ∈ fieldScan_lazy data, e.1 = 5 then .array
      else if ∃ e ∈ fieldScan_lazy data, e.1 = 6 then .kvlist
      else if ∃ e ∈ fieldScan_lazy data, e.1 = 7 then .bytes
      else .unknown) ∧
    (AnyValue_parse data = none ↔
      tryString data = none ∧ tryBool data = none ∧ tryInt data = none ∧
      tryDouble data = none ∧ find_field_bytes data 5 = none ∧
      find_field_bytes data 6 = none ∧ tryBytes data = none) := by
  constructor
  · rw [lazy_value_type,
      ite_bool_to_prop _ _ (find_field_lazy_isSome_iff data 1),
      ite_bool_to_prop _ _ (find_field_lazy_isSome_iff data 2),
      ite_bool_to_prop _ _ (find_field_lazy_isSome_iff data 3),
      ite_bool_to_prop _ _ (find_field_lazy_isSome_iff data 4),
      ite_bool_to_prop _ _ (find_field_lazy_isSome_iff data 5),
      ite_bool_to_prop _ _ (find_field_lazy_isSome_iff data 6),
      ite_bool_to_prop _ _ (find_field_lazy_isSome_iff data 7)]
  · rw [AnyValue_parse]
    cases hs : tryString data <;> cases hb : tryBool data <;>
      cases hi : tryInt data <;> cases hd : tryDouble data <;>
      cases h5 : find_field_bytes data 5 <;> cases h6 : find_field_bytes data 6 <;>
      cases h7 : tryBytes data <;>
      simp [anyValueParseF, hs, hb, hi, hd, h5, h6, h7]

/-- On a value byte range with no populated tag, the lazy strategy reports
`Unknown` while the eager strategy's parse fails. -/
theorem c5_counterexample :
    lazy_value_type [] = AnyValueTypeL.unknown ∧ AnyValue_parse [] = none :=
  ⟨rfl, rfl⟩

end Otel

namespace Otel

/-! ## The eager reusable tree (`otlp_bytes.rs`)

Each struct keeps its `Vec` pool of child nodes together with a `*_used`
counter; `clear` only resets the counter (and the singular fields), so stale
children stay in the pool past the used prefix.  The observable state of a
node — what the `*View` trait impls expose — is projected out separately
below. -/

/-- The helper shape `find_field(t)` + wire type 2 + `parse_length_delimited`
+ `from_utf8`, used verbatim for every eager string field (`severity_text`,
`event_name`, `schema_url`, scope `name`/`version`). -/
def strField (data : Bytes) (t : Nat) : Option Bytes :=
  (find_field_bytes data t).bind (fun f =>
    if f.1 = 2 then
      (parse_length_delimited_bytes data f.2).bind (fun b => from_utf8 b.1)
    else none)

/-- The helper shape `find_field(t)` + wire type 2 + `parse_length_delimited`,
used verbatim for every eager raw-bytes field (`trace_id`, `span_id`, and the
payload extraction of the singular sub-messages). -/
def bytesField (data : Bytes) (t : Nat) : Option Bytes :=
  (find_field_bytes data t).bind (fun f =>
    if f.1 = 2 then (parse_length_delimited_bytes data f.2).map Prod.fst
    else none)

/-- The helper shape `find_field(t)` + wire type 0 + `parse_varint` + `as u32`
(`dropped_attributes_count` fields). -/
def varintU32Field (data : Bytes) (t : Nat) : Option Nat :=
  (find_field_bytes data t).bind (fun f =>
    if f.1 = 0 then (parse_varint_bytes data f.2).map (fun v => toU32 v.1)
    else none)

/-- The helper shape `find_field(t)` + wire type 1 + `parse_fixed64`
(`time_unix_nano`, `observed_time_unix_nano`). -/
def fixed64Field (data : Bytes) (t : Nat) : Option Nat :=
  (find_field_bytes data t).bind (fun f =>
    if f.1 = 1 then (parse_fixed64 data f.2).map Prod.fst else none)

/-- The helper shape `find_field(t)` + wire type 5 + `parse_fixed32`
(`flags`). -/
def fixed32Field (data : Bytes) (t : Nat) : Option Nat :=
  (find_field_bytes data t).bind (fun f =>
    if f.1 = 5 then (parse_fixed32 data f.2).map Prod.fst else none)

/-- The payload list a repeated-field loop runs over: for every occurrence of
the tag (in `parse_all_fields` order), the entries with wire type 2 whose
length-delimited payload extraction succeeds; other entries are skipped
without touching the pool. -/
def kvItems (data : Bytes) (t : Nat) : List Bytes :=
  (parse_all_fields data t).filterMap (fun f =>
    if f.1 = 2 then (parse_length_delimited_bytes data f.2).map Prod.fst
    else none)

/-- The pooled repeated-field loop shared by every eager `parse` (resource
logs excepted, whose inline loop is `logsDataLoopF` below, proven equal to
this): for each payload, reuse the pool slot at index `used` when one exists
(else push a fresh node), parse into it, and advance `used` only on success —
a failed child stays in the pool as a dead slot that the next payload
overwrites. -/
def parseRepeated {σ : Type} (parseOne : σ → Bytes → σ × Bool) (newOne : σ) :
    List Bytes → List σ → Nat → List σ × Nat
  | [], pool, used => (pool, used)
  | b :: rest, pool, used =>
    parseRepeated parseOne newOne rest
      (if used < pool.length
        then pool.set used
          (parseOne (if used < pool.length then pool.getD used newOne else newOne) b).1
        else pool ++
          [(parseOne (if used < pool.length then pool.getD used newOne else newOne) b).1])
      (if (parseOne (if used < pool.length then pool.getD used newOne else newOne) b).2
        then used + 1 else used)

/-- `Resource` of `otlp_bytes.rs`. -/
structure ResourceE where
  attributes : List KeyValueE := []
  attributes_used : Nat := 0
  dropped_attributes_count : Option Nat := none

/-- `Resource::new`. -/
def Resource_new : ResourceE := {}

/-- `Resource::parse` (which first runs `clear`): attributes from tag 1
through the pooled loop — `KeyValue::parse` rebuilds a node from scratch, so
the slot argument is ignored — then `dropped_attributes_count` from tag 2;
always returns `true`. -/
def Resource_parse (s : ResourceE) (data : Bytes) : ResourceE × Bool :=
  let r := parseRepeated (fun _ b => KeyValue_parse b) ([], none)
    (kvItems data 1) s.attributes 0
  ({ attributes := r.1, attributes_used := r.2,
     dropped_attributes_count := varintU32Field data 2 }, true)

/-- `InstrumentationScope` of `otlp_bytes.rs`. -/
structure InstrumentationScopeE where
  name : Option Bytes := none
  version : Option Bytes := none
  attributes : List KeyValueE := []
  attributes_used : Nat := 0
  dropped_attributes_count : Option Nat := none

/-- `InstrumentationScope::new`. -/
def InstrumentationScope_new : InstrumentationScopeE := {}

/-- `InstrumentationScope::parse`: `name` (tag 1), `version` (tag 2),
attributes (tag 3, pooled loop), `dropped_attributes_count` (tag 4); always
returns `true`. -/
def InstrumentationScope_parse (s : InstrumentationScopeE) (data : Bytes) :
    InstrumentationScopeE × Bool :=
  let r := parseRepeated (fun _ b => KeyValue_parse b) ([], none)
    (kvItems data 3) s.attributes 0
  ({ name := strField data 1, version := strField data 2,
     attributes := r.1, attributes_used := r.2,
     dropped_attributes_count := varintU32Field data 4 }, true)

/-- `LogRecord` of `otlp_bytes.rs`. -/
structure LogRecordE where
  time_unix_nano : Option Nat := none
  observed_time_unix_nano : Nat := 0
  severity_number : Int := 0
  severity_text : Option Bytes := none
  body : Option AnyValueE := none
  attributes : List KeyValueE := []
  attributes_used : Nat := 0
  dropped_attributes_count : Option Nat := none
  flags : Option Nat := none
  trace_id : Option Bytes := none
  span_id : Option Bytes := none
  event_name : Option Bytes := none

/-- `LogRecord::new`. -/
def LogRecord_new : LogRecordE := {}

/-- `LogRecord::parse`: every singular field through its `find_field` shape
(`observed_time_unix_nano` and `severity_number` defaulted to 0 when absent
or failing), `body` through a fresh `AnyValue` parse, attributes (tag 6)
through the pooled loop; always returns `true`. -/
def LogRecord_parse (s : LogRecordE) (data : Bytes) : LogRecordE × Bool :=
  let r := parseRepeated (fun _ b => KeyValue_parse b) ([], none)
    (kvItems data 6) s.attributes 0
  ({ time_unix_nano := fixed64Field data 1,
     observed_time_unix_nano := (fixed64Field data 11).getD 0,
     severity_number :=
       (((find_field_bytes data 2).bind (fun f =>
           if f.1 = 0 then (parse_varint_bytes data f.2).map (fun v => toI32 v.1)
           else none)).getD 0),
     severity_text := strField data 3,
     body := (bytesField data 5).bind AnyValue_parse,
     attributes := r.1, attributes_used := r.2,
     dropped_attributes_count := varintU32Field data 7,
     flags := fixed32Field data 8,
     trace_id := bytesField data 9,
     span_id := bytesField data 10,
     event_name := strField data 12 }, true)

/-- `ScopeLogs` of `otlp_bytes.rs`. -/
structure ScopeLogsE where
  scope : Option InstrumentationScopeE := none
  log_records : List LogRecordE := []
  log_records_used : Nat := 0
  schema_url : Option Bytes := none

/-- `ScopeLogs::new`. -/
def ScopeLogs_new : ScopeLogsE := {}

/-- `ScopeLogs::parse`: `scope` through a fresh `InstrumentationScope` parse
(kept only on success), log records (tag 2) through the pooled loop,
`schema_url` (tag 3); always returns `true`. -/
def ScopeLogs_parse (s : ScopeLogsE) (data : Bytes) : ScopeLogsE × Bool :=
  let r := parseRepeated LogRecord_parse LogRecord_new
    (kvItems data 2) s.log_records 0
  ({ scope := (bytesField data 1).bind (fun b =>
       let p := InstrumentationScope_parse InstrumentationScope_new b
       if p.2 then some p.1 else none),
     log_records := r.1, log_records_used := r.2,
     schema_url := strField data 3 }, true)

/-- `ResourceLogs` of `otlp_bytes.rs`. -/
structure ResourceLogsE where
  resource : Option ResourceE := none
  scope_logs : List ScopeLogsE := []
  scope_logs_used : Nat := 0
  schema_url : Option Bytes := none

/-- `ResourceLogs::new`. -/
def ResourceLogs_new : ResourceLogsE := {}

/-- `ResourceLogs::parse`: `resource` through a fresh `Resource` parse (kept
only on success), scope logs (tag 2) through the pooled loop, `schema_url`
(tag 3); always returns `true`. -/
def ResourceLogs_parse (s : ResourceLogsE) (data : Bytes) : ResourceLogsE × Bool :=
  let r := parseRepeated ScopeLogs_parse ScopeLogs_new
    (kvItems data 2) s.scope_logs 0
  ({ resource := (bytesField data 1).bind (fun b =>
       let p := Resource_parse Resource_new b
       if p.2 then some p.1 else none),
     scope_logs := r.1, scope_logs_used := r.2,
     schema_url := strField data 3 }, true)

/-- `LogsData` of `otlp_bytes.rs`. -/
structure LogsDataE where
  resource_logs : List ResourceLogsE := []
  used_count : Nat := 0

/-- `LogsData::new`. -/
def LogsData_new : LogsDataE := {}

/-- The inline `while` loop of `LogsData::parse`: walk the buffer field by
field; on tag 1 / wire type 2 extract the payload and run the pooled-slot
parse of a `ResourceLogs`; skip other fields by wire type, with a failed
varint or length in a skip arm sending `pos` to `data.len()`
(`unwrap_or(data.len())`, ending the loop) and an unsupported wire type or a
failure in the main arm breaking out.  `pos` strictly increases while it
stays below `data.length`, so fuel `data.length + 1` dominates the
iteration count. -/
def logsDataLoopF : Nat → Bytes → Nat → List ResourceLogsE → Nat →
    List ResourceLogsE × Nat
  | 0, _, _, pool, used => (pool, used)
  | fuel + 1, data, pos, pool, used =>
    if pos < data.length then
      match parse_varint_bytes data pos with
      | none => (pool, used)
      | some (tw, pos1) =>
        if tagOf tw = 1 ∧ tw &&& 7 = 2 then
          match parse_length_delimited_bytes data pos1 with
          | some (bytes, endPos) =>
            let slot := if used < pool.length then pool.getD used ResourceLogs_new
              else ResourceLogs_new
            let r := ResourceLogs_parse slot bytes
            let pool2 := if used < pool.length then pool.set used r.1
              else pool ++ [r.1]
            logsDataLoopF fuel data endPos pool2 (if r.2 then used + 1 else used)
          | none => (pool, used)
        else
          match tw &&& 7 with
          | 0 => logsDataLoopF fuel data
              (((parse_varint_bytes data pos1).map Prod.snd).getD data.length)
              pool used
          | 1 => logsDataLoopF fuel data (pos1 + 8) pool used
          | 2 => logsDataLoopF fuel data
              (((parse_length_delimited_bytes data pos1).map Prod.snd).getD data.length)
              pool used
          | 5 => logsDataLoopF fuel data (pos1 + 4) pool used
          | _ => (pool, used)
    else (pool, used)

/-- `LogsData::parse` (which first runs `clear`, resetting only
`used_count`): the inline loop over the buffer, then `used_count > 0` as the
return flag. -/
def LogsData_parse (s : LogsDataE) (data : Bytes) : LogsDataE × Bool :=
  let r := logsDataLoopF (data.length + 1) data 0 s.resource_logs 0
  ({ resource_logs := r.1, used_count := r.2 }, decide (0 < r.2))

/-- The top-level payload scan of `LogsData::parse` taken on its own: the
tag-1 / wire-2 payloads the loop parses, in order.  `logsDataLoopF` is proven
below to be `parseRepeated` over this list. -/
def logsItemsF : Nat → Bytes → Nat → List Bytes
  | 0, _, _ => []
  | fuel + 1, data, pos =>
    if pos < data.length then
      match parse_varint_bytes data pos with
      | none => []
      | some (tw, pos1) =>
        if tagOf tw = 1 ∧ tw &&& 7 = 2 then
          match parse_length_delimited_bytes data pos1 with
          | some (bytes, endPos) => bytes :: logsItemsF fuel data endPos
          | none => []
        else
          match tw &&& 7 with
          | 0 => logsItemsF fuel data
              (((parse_varint_bytes data pos1).map Prod.snd).getD data.length)
          | 1 => logsItemsF fuel data (pos1 + 8)
          | 2 => logsItemsF fuel data
              (((parse_length_delimited_bytes data pos1).map Prod.snd).getD data.length)
          | 5 => logsItemsF fuel data (pos1 + 4)
          | _ => []
    else []

/-- See `logsItemsF`. -/
def logs_items (data : Bytes) : List Bytes :=
  logsItemsF (data.length + 1) data 0

end Otel

namespace Otel

/-! ## Observable state of the eager tree

What the `*View` trait impls of `otlp_bytes.rs` expose: every singular field,
and the children iterated over `[0, used)` (`UsedSliceIter` /
`attributes[..attributes_used]`).  Pool entries past the used prefix are not
reachable through any view method. -/

/-- Observable state of a `Resource`: used attributes and the dropped
count. -/
def ResourceE.obs (s : ResourceE) : List KeyValueE × Option Nat :=
  (s.attributes.take s.attributes_used, s.dropped_attributes_count)

/-- Observable state of an `InstrumentationScope`. -/
def InstrumentationScopeE.obs (s : InstrumentationScopeE) :
    Option Bytes × Option Bytes × List KeyValueE × Option Nat :=
  (s.name, s.version, s.attributes.take s.attributes_used,
   s.dropped_attributes_count)

/-- Observable state of a `LogRecord`. -/
def LogRecordE.obs (s : LogRecordE) :
    Option Nat × Nat × Int × Option Bytes × Option AnyValueE × List KeyValueE ×
      Option Nat × Option Nat × Option Bytes × Option Bytes × Option Bytes :=
  (s.time_unix_nano, s.observed_time_unix_nano, s.severity_number,
   s.severity_text, s.body, s.attributes.take s.attributes_used,
   s.dropped_attributes_count, s.flags, s.trace_id, s.span_id, s.event_name)

/-- Observable state of a `ScopeLogs`. -/
def ScopeLogsE.obs (s : ScopeLogsE) :
    Option (Option Bytes × Option Bytes × List KeyValueE × Option Nat) ×
      List (Option Nat × Nat × Int × Option Bytes × Option AnyValueE ×
        List KeyValueE × Option Nat × Option Nat × Option Bytes × Option Bytes ×
        Option Bytes) × Option Bytes :=
  (s.scope.map InstrumentationScopeE.obs,
   (s.log_records.take s.log_records_used).map LogRecordE.obs,
   s.schema_url)

/-- Observable state of a `ResourceLogs`. -/
def ResourceLogsE.obs (s : ResourceLogsE) :=
  (s.resource.map ResourceE.obs,
   (s.scope_logs.take s.scope_logs_used).map ScopeLogsE.obs,
   s.schema_url)

/-- Observable state of a `LogsData`: the observable states of the used
resource-log prefix. -/
def LogsDataE.obs (s : LogsDataE) :=
  (s.resource_logs.take s.used_count).map ResourceLogsE.obs

/-- Setting a slot and then taking up to and including it appends the new
element to the unchanged prefix. -/
theorem take_succ_set {α : Type} (l : List α) (n : Nat) (x : α)
    (h : n < l.length) : (l.set n x).take (n + 1) = l.take n ++ [x] := by
  induction l generalizing n with
  | nil => simp at h
  | cons a l ih =>
    cases n with
    | zero => simp
    | succ n =>
      simp only [List.set, List.take, List.cons_append, List.cons.injEq]
      exact ⟨trivial, ih n (by simpa using h)⟩

/-- Setting a slot at or past the taken prefix leaves the prefix unchanged. -/
theorem take_set_ge {α : Type} (l : List α) (n m : Nat) (x : α) (h : n ≤ m) :
    (l.set m x).take n = l.take n := by
  induction l generalizing n m with
  | nil => simp
  | cons a l ih =>
    cases m with
    | zero => cases n with
      | zero => simp
      | succ n => omega
    | succ m =>
      cases n with
      | zero => simp
      | succ n =>
        simp only [List.set, List.take, List.cons.injEq]
        exact ⟨trivial, ih n m (by omega)⟩

/-- Taking at most the length of the left part of an append ignores the
right part. -/
theorem take_append_le {α : Type} (l l' : List α) (n : Nat)
    (h : n ≤ l.length) : (l ++ l').take n = l.take n := by
  induction l generalizing n with
  | nil =>
    have hn : n = 0 := by simpa using h
    subst hn
    simp
  | cons a l ih =>
    cases n with
    | zero => simp
    | succ n =>
      simp only [List.cons_append, List.take, List.cons.injEq]
      exact ⟨trivial, ih n (by simpa using h)⟩

/-- One pooled step leaves room for the advanced used counter. -/
theorem repStep_len {σ : Type} (pool : List σ) (used : Nat) (x : σ)
    (h : used ≤ pool.length) :
    used + 1 ≤ (if used < pool.length then pool.set used x else pool ++ [x]).length := by
  by_cases hc : used < pool.length <;> simp [hc] <;> omega

/-- One pooled step followed by taking through the written slot appends the
new element to the unchanged used prefix. -/
theorem repStep_take {σ : Type} (pool : List σ) (used : Nat) (x : σ)
    (h : used ≤ pool.length) :
    (if used < pool.length then pool.set used x else pool ++ [x]).take (used + 1) =
      pool.take used ++ [x] := by
  by_cases hc : used < pool.length
  · rw [if_pos hc, take_succ_set pool used x hc]
  · have he : used = pool.length := by omega
    subst he
    rw [if_neg hc, List.take_length]
    have hlen : (pool ++ [x]).length = pool.length + 1 := by simp
    calc (pool ++ [x]).take (pool.length + 1)
        = (pool ++ [x]).take ((pool ++ [x]).length) := by rw [hlen]
      _ = pool ++ [x] := List.take_length _

/-- One pooled step does not change the pool below the written slot. -/
theorem repStep_take_same {σ : Type} (pool : List σ) (used : Nat) (x : σ)
    (h : used ≤ pool.length) :
    (if used < pool.length then pool.set used x else pool ++ [x]).take used =
      pool.take used := by
  by_cases hc : used < pool.length
  · rw [if_pos hc, take_set_ge pool used used x (Nat.le_refl used)]
  · rw [if_neg hc, take_append_le pool [x] used h]

/-- The pooled repeated-field loop, projected to observable state: if one
parse step's observable result and success flag do not depend on the slot it
was given, then the whole loop's used count and used-prefix observables do
not depend on the initial pool contents (only on the payload list), provided
the initial used prefixes already agree observably. -/
theorem parseRepeated_obs {σ τ : Type} (parseOne : σ → Bytes → σ × Bool)
    (newOne : σ) (obsF : σ → τ)
    (hObs : ∀ s1 s2 b, obsF (parseOne s1 b).1 = obsF (parseOne s2 b).1 ∧
        (parseOne s1 b).2 = (parseOne s2 b).2) :
    ∀ (items : List Bytes) (pool1 pool2 : List σ) (used : Nat),
      used ≤ pool1.length → used ≤ pool2.length →
      (pool1.take used).map obsF = (pool2.take used).map obsF →
      (parseRepeated parseOne newOne items pool1 used).2 =
        (parseRepeated parseOne newOne items pool2 used).2 ∧
      ((parseRepeated parseOne newOne items pool1 used).1.take
          (parseRepeated parseOne newOne items pool1 used).2).map obsF =
        ((parseRepeated parseOne newOne items pool2 used).1.take
          (parseRepeated parseOne newOne items pool2 used).2).map obsF := by
  intro items
  induction items with
  | nil =>
    intro pool1 pool2 used h1 h2 hpre
    exact ⟨rfl, hpre⟩
  | cons b rest ih =>
    intro pool1 pool2 used h1 h2 hpre
    simp only [parseRepeated]
    have hx : obsF (parseOne (if used < pool1.length then pool1.getD used newOne else newOne) b).1 =
        obsF (parseOne (if used < pool2.length then pool2.getD used newOne else newOne) b).1 :=
      (hObs _ _ b).1
    have hf : (parseOne (if used < pool1.length then pool1.getD used newOne else newOne) b).2 =
        (parseOne (if used < pool2.length then pool2.getD used newOne else newOne) b).2 :=
      (hObs _ _ b).2
    rw [hf]
    by_cases hok :
        (parseOne (if used < pool2.length then pool2.getD used newOne else newOne) b).2 = true
    · rw [if_pos hok]
      apply ih _ _ (used + 1) (repStep_len pool1 used _ h1) (repStep_len pool2 used _ h2)
      rw [repStep_take pool1 used _ h1, repStep_take pool2 used _ h2,
        List.map_append, List.map_append, hpre]
      simp only [List.map_cons, List.map_nil]
      rw [hx]
    · rw [if_neg hok]
      apply ih _ _ used
        (Nat.le_trans (Nat.le_succ used) (repStep_len pool1 used _ h1))
        (Nat.le_trans (Nat.le_succ used) (repStep_len pool2 used _ h2))
      rw [repStep_take_same pool1 used _ h1, repStep_take_same pool2 used _ h2]
      exact hpre

end Otel

namespace Otel

/-- `Resource::parse` lands in the same observable state (and returns the
same flag) from any starting state. -/
theorem Resource_parse_obs (s1 s2 : ResourceE) (data : Bytes) :
    ((Resource_parse s1 data).1).obs = ((Resource_parse s2 data).1).obs ∧
    (Resource_parse s1 data).2 = (Resource_parse s2 data).2 := by
  refine ⟨?_, rfl⟩
  simp only [Resource_parse, ResourceE.obs]
  have h := parseRepeated_obs (fun _ b => KeyValue_parse b) ([], none) id
    (fun _ _ _ => ⟨rfl, rfl⟩) (kvItems data 1) s1.attributes s2.attributes 0
    (Nat.zero_le _) (Nat.zero_le _) rfl
  have h2 := h.2
  rw [List.map_id, List.map_id] at h2
  rw [h2]

/-- `InstrumentationScope::parse` lands in the same observable state (and
returns the same flag) from any starting state. -/
theorem InstrumentationScope_parse_obs (s1 s2 : InstrumentationScopeE) (data : Bytes) :
    ((InstrumentationScope_parse s1 data).1).obs =
      ((InstrumentationScope_parse s2 data).1).obs ∧
    (InstrumentationScope_parse s1 data).2 = (InstrumentationScope_parse s2 data).2 := by
  refine ⟨?_, rfl⟩
  simp only [InstrumentationScope_parse, InstrumentationScopeE.obs]
  have h := parseRepeated_obs (fun _ b => KeyValue_parse b) ([], none) id
    (fun _ _ _ => ⟨rfl, rfl⟩) (kvItems data 3) s1.attributes s2.attributes 0
    (Nat.zero_le _) (Nat.zero_le _) rfl
  have h2 := h.2
  rw [List.map_id, List.map_id] at h2
  rw [h2]

/-- `LogRecord::parse` lands in the same observable state (and returns the
same flag) from any starting state. -/
theorem LogRecord_parse_obs (s1 s2 : LogRecordE) (data : Bytes) :
    ((LogRecord_parse s1 data).1).obs = ((LogRecord_parse s2 data).1).obs ∧
    (LogRecord_parse s1 data).2 = (LogRecord_parse s2 data).2 := by
  refine ⟨?_, rfl⟩
  simp only [LogRecord_parse, LogRecordE.obs]
  have h := parseRepeated_obs (fun _ b => KeyValue_parse b) ([], none) id
    (fun _ _ _ => ⟨rfl, rfl⟩) (kvItems data 6) s1.attributes s2.attributes 0
    (Nat.zero_le _) (Nat.zero_le _) rfl
  have h2 := h.2
  rw [List.map_id, List.map_id] at h2
  rw [h2]

/-- `ScopeLogs::parse` lands in the same observable state (and returns the
same flag) from any starting state. -/
theorem ScopeLogs_parse_obs (s1 s2 : ScopeLogsE) (data : Bytes) :
    ((ScopeLogs_parse s1 data).1).obs = ((ScopeLogs_parse s2 data).1).obs ∧
    (ScopeLogs_parse s1 data).2 = (ScopeLogs_parse s2 data).2 := by
  refine ⟨?_, rfl⟩
  simp only [ScopeLogs_parse, ScopeLogsE.obs]
  have h := parseRepeated_obs LogRecord_parse LogRecord_new LogRecordE.obs
    LogRecord_parse_obs (kvItems data 2) s1.log_records s2.log_records 0
    (Nat.zero_le _) (Nat.zero_le _) rfl
  rw [h.2]

/-- `ResourceLogs::parse` lands in the same observable state (and returns the
same flag) from any starting state. -/
theorem ResourceLogs_parse_obs (s1 s2 : ResourceLogsE) (data : Bytes) :
    ((ResourceLogs_parse s1 data).1).obs = ((ResourceLogs_parse s2 data).1).obs ∧
    (ResourceLogs_parse s1 data).2 = (ResourceLogs_parse s2 data).2 := by
  refine ⟨?_, rfl⟩
  simp only [ResourceLogs_parse, ResourceLogsE.obs]
  have h := parseRepeated_obs ScopeLogs_parse ScopeLogs_new ScopeLogsE.obs
    ScopeLogs_parse_obs (kvItems data 2) s1.scope_logs s2.scope_logs 0
    (Nat.zero_le _) (Nat.zero_le _) rfl
  rw [h.2]

/-- The inline loop of `LogsData::parse` is the pooled repeated-field loop
run over the tag-1 / wire-2 payload list. -/
theorem logsDataLoopF_eq (fuel : Nat) (data : Bytes) :
    ∀ (pos : Nat) (pool : List ResourceLogsE) (used : Nat),
      logsDataLoopF fuel data pos pool used =
        parseRepeated ResourceLogs_parse ResourceLogs_new
          (logsItemsF fuel data pos) pool used := by
  induction fuel with
  | zero => intro pos pool used; rfl
  | succ fuel ih =>
    intro pos pool used
    by_cases hp : pos < data.length
    · cases hv : parse_varint_bytes data pos with
      | none => simp [logsDataLoopF, logsItemsF, hp, hv, parseRepeated]
      | some v =>
        obtain ⟨tw, pos1⟩ := v
        by_cases ht : tagOf tw = 1 ∧ tw &&& 7 = 2
        · cases hld : parse_length_delimited_bytes data pos1 with
          | none => simp [logsDataLoopF, logsItemsF, hp, hv, ht, hld, parseRepeated]
          | some bp =>
            obtain ⟨bytes, endPos⟩ := bp
            simp only [logsDataLoopF, logsItemsF, hp, if_pos hp, hv, ht, if_pos ht, hld]
            rw [ih]
            simp [parseRepeated]
        · simp only [logsDataLoopF, logsItemsF, if_pos hp, hv, if_neg ht]
          rcases hw : tw &&& 7 with _ | _ | _ | _ | _ | _ | w <;>
            simp only [hw] <;>
            first
              | rw [ih]
              | simp [parseRepeated]
    · simp [logsDataLoopF, logsItemsF, hp, parseRepeated]

/-- `LogsData::parse` lands in the same observable state (and returns the
same flag) from any starting state. -/
theorem LogsData_parse_obs (s1 s2 : LogsDataE) (data : Bytes) :
    ((LogsData_parse s1 data).1).obs = ((LogsData_parse s2 data).1).obs ∧
    (LogsData_parse s1 data).2 = (LogsData_parse s2 data).2 := by
  have h := parseRepeated_obs ResourceLogs_parse ResourceLogs_new ResourceLogsE.obs
    ResourceLogs_parse_obs (logsItemsF (data.length + 1) data 0)
    s1.resource_logs s2.resource_logs 0 (Nat.zero_le _) (Nat.zero_le _) rfl
  rw [← logsDataLoopF_eq, ← logsDataLoopF_eq] at h
  simp only [LogsData_parse, LogsDataE.obs]
  exact ⟨h.2, by rw [h.1]⟩

end Otel

namespace Otel

/-- C4: for every eager-tree node (of each reusable node type) and any two
byte inputs `b1` and `b2`, parsing `b1` and then `b2` into the same node
leaves an observable state — singular fields plus the children iterated
within `[0, used)` — equal to that of a freshly constructed node after
parsing `b2` alone, and the parse flag agrees too; pooled capacity left by
the first parse never leaks into view.  (`KeyValue` and `AnyValue` rebuild
their whole state on every parse, so for them the property is definitional
and they carry no pool.)  In particular, parsing a buffer holding three
resource groups and then one holding a single resource group into the same
`LogsData` exposes exactly one resource group. -/
theorem c4_reparse_matches_fresh (s : LogsDataE) (r : ResourceLogsE)
    (sc : ScopeLogsE) (lr : LogRecordE) (rs : ResourceE)
    (is : InstrumentationScopeE) (b1 b2 : Bytes) :
    ((LogsData_parse (LogsData_parse s b1).1 b2).1.obs =
        (LogsData_parse LogsData_new b2).1.obs ∧
      (LogsData_parse (LogsData_parse s b1).1 b2).2 =
        (LogsData_parse LogsData_new b2).2) ∧
    (ResourceLogs_parse (ResourceLogs_parse r b1).1 b2).1.obs =
      (ResourceLogs_parse ResourceLogs_new b2).1.obs ∧
    (ScopeLogs_parse (ScopeLogs_parse sc b1).1 b2).1.obs =
      (ScopeLogs_parse ScopeLogs_new b2).1.obs ∧
    (LogRecord_parse (LogRecord_parse lr b1).1 b2).1.obs =
      (LogRecord_parse LogRecord_new b2).1.obs ∧
    (Resource_parse (Resource_parse rs b1).1 b2).1.obs =
      (Resource_parse Resource_new b2).1.obs ∧
    (InstrumentationScope_parse (InstrumentationScope_parse is b1).1 b2).1.obs =
      (InstrumentationScope_parse InstrumentationScope_new b2).1.obs ∧
    ((LogsData_parse (LogsData_parse LogsData_new
        [10, 0, 10, 0, 10, 0]).1 [10, 0]).1.used_count = 1 ∧
      (LogsData_parse (LogsData_parse LogsData_new
        [10, 0, 10, 0, 10, 0]).1 [10, 0]).1.obs.length = 1) :=
  ⟨⟨(LogsData_parse_obs _ _ b2).1, (LogsData_parse_obs _ _ b2).2⟩,
   (ResourceLogs_parse_obs _ _ b2).1,
   (ScopeLogs_parse_obs _ _ b2).1,
   (LogRecord_parse_obs _ _ b2).1,
   (Resource_parse_obs _ _ b2).1,
   (InstrumentationScope_parse_obs _ _ b2).1,
   by decide, by decide⟩

end Otel

namespace Otel

/-- A pooled repeated-field loop whose step ignores its slot (as the
`KeyValue` loops do: `KeyValue::parse` rebuilds the node from scratch)
exposes, as its used prefix, exactly the successfully parsed payloads in
order — failed payloads are dropped. -/
theorem parseRepeated_stateless {σ : Type} (p : Bytes → σ × Bool) (newOne : σ) :
    ∀ (items : List Bytes) (pool : List σ) (used : Nat), used ≤ pool.length →
      ((parseRepeated (fun _ b => p b) newOne items pool used).1.take
          (parseRepeated (fun _ b => p b) newOne items pool used).2) =
        pool.take used ++ items.filterMap (fun b =>
          if (p b).2 then some (p b).1 else none) := by
  intro items
  induction items with
  | nil =>
    intro pool used h
    simp [parseRepeated]
  | cons b rest ih =>
    intro pool used h
    simp only [parseRepeated, List.filterMap_cons]
    by_cases hok : (p b).2 = true
    · rw [if_pos hok, if_pos hok,
        ih _ (used + 1) (repStep_len pool used _ h),
        repStep_take pool used _ h]
      simp
    · rw [if_neg hok, if_neg hok,
        ih _ used (Nat.le_trans (Nat.le_succ used) (repStep_len pool used _ h)),
        repStep_take_same pool used _ h]

/-- A tag absent from the canonical field list is never found by the eager
`find_field`. -/
theorem find_field_bytes_none_of_absent (data : Bytes) (t : Nat)
    (h : ∀ e ∈ fieldScan_bytes data, e.1 ≠ t) :
    find_field_bytes data t = none := by
  rw [find_field_bytes, parse_all_fields, parse_all_fieldsF_eq_scan]
  rw [show fieldScanF parse_varint_bytes (data.length + 1) data 0 =
    fieldScan_bytes data from rfl]
  have hnil : (fieldScan_bytes data).filter (fun e => e.1 == t) = [] := by
    rw [List.filter_eq_nil_iff]
    intro e he
    simpa using h e he
  rw [hnil]
  rfl

end Otel

namespace Otel

/-- `KeyValue::parse` case split: an empty decoded key leaves the cleared
node and `false`; a nonempty key yields `true`. -/
theorem KeyValue_parse_cases (data : Bytes) :
    if (strField data 1).getD [] = [] then KeyValue_parse data = (([], none), false)
    else (KeyValue_parse data).2 = true := by
  simp only [KeyValue_parse, keyValueParseFullF]
  unfold strField
  cases hf : find_field_bytes data 1 with
  | none => simp [hf]
  | some f =>
    obtain ⟨w, p⟩ := f
    by_cases hw : w = 2
    · subst hw
      cases hld : parse_length_delimited_bytes data p with
      | none => simp [hf, hld]
      | some bp =>
        obtain ⟨bs, q⟩ := bp
        by_cases hv : utf8Valid bs = true
        · have hu : from_utf8 bs = some bs := by rw [from_utf8, if_pos hv]
          by_cases hbs : bs = ([] : Bytes)
          · subst hbs
            simp [hf, hld, hu]
          · simp [hf, hld, hu, hbs]
        · have hu : from_utf8 bs = none := by rw [from_utf8, if_neg hv]
          simp [hf, hld, hu]
    · simp [hf, hw]

/-- The decoded key of a `KeyValue` is empty exactly when tag 1 is absent,
carries a non-string wire type, is truncated, holds invalid UTF-8, or holds
the empty string. -/
theorem strField_getD_nil_iff (data : Bytes) (t : Nat) :
    (strField data t).getD [] = [] ↔
      find_field_bytes data t = none ∨
      (∃ w p, find_field_bytes data t = some (w, p) ∧ w ≠ 2) ∨
      (∃ p, find_field_bytes data t = some (2, p) ∧
        parse_length_delimited_bytes data p = none) ∨
      (∃ p bs q, find_field_bytes data t = some (2, p) ∧
        parse_length_delimited_bytes data p = some (bs, q) ∧
        from_utf8 bs = none) ∨
      (∃ p q, find_field_bytes data t = some (2, p) ∧
        parse_length_delimited_bytes data p = some ([], q)) := by
  unfold strField
  cases hf : find_field_bytes data t with
  | none => simp [hf]
  | some f =>
    obtain ⟨w, p⟩ := f
    by_cases hw : w = 2
    · subst hw
      cases hld : parse_length_delimited_bytes data p with
      | none =>
        apply iff_of_true
        · simp [hld]
        · exact Or.inr (Or.inr (Or.inl ⟨p, rfl, hld⟩))
      | some bp =>
        obtain ⟨bs, q⟩ := bp
        by_cases hv : utf8Valid bs = true
        · have hu : from_utf8 bs = some bs := by rw [from_utf8, if_pos hv]
          by_cases hbs : bs = ([] : Bytes)
          · subst hbs
            apply iff_of_true
            · simp [hld, hu]
            · exact Or.inr (Or.inr (Or.inr (Or.inr ⟨p, q, rfl, hld⟩)))
          · apply iff_of_false
            · simp [hld, hu, hbs]
            · rintro (h | ⟨w2, p2, hp2, hw2⟩ | ⟨p2, hp2, hld2⟩ |
                ⟨p2, bs2, q2, hp2, hld2, hu2⟩ | ⟨p2, q2, hp2, hld2⟩)
              · simp at h
              · simp at hp2
                exact hw2 hp2.1.symm
              · simp at hp2
                rw [← hp2] at hld2
                rw [hld] at hld2
                simp at hld2
              · simp at hp2
                rw [← hp2] at hld2
                rw [hld] at hld2
                simp at hld2
                rw [← hld2.1] at hu2
                rw [hu] at hu2
                simp at hu2
              · simp at hp2
                rw [← hp2] at hld2
                rw [hld] at hld2
                simp at hld2
                exact hbs hld2.1
        · have hu : from_utf8 bs = none := by rw [from_utf8, if_neg hv]
          apply iff_of_true
          · simp [hld, hu]
          · exact Or.inr (Or.inr (Or.inr (Or.inl ⟨p, bs, q, rfl, hld, hu⟩)))
    · apply iff_of_true
      · simp [hw]
      · exact Or.inr (Or.inl ⟨w, p, rfl, hw⟩)

/-- C6: the eager `KeyValue::parse` fails exactly when the key it decodes is
empty — the tag-1 field being absent, carrying a non-string wire type, being
truncated, holding invalid UTF-8, or holding the empty string; on failure the
node is left cleared.  Consequently a log record's pooled attribute loop
drops exactly those entries: the attribute collection the record exposes is
the list of successfully parsed key-values, in order, with every failed one
absent. -/
theorem c6_empty_key_attribute_dropped (data : Bytes) (s : LogRecordE) :
    ((KeyValue_parse data).2 = false ↔
      find_field_bytes data 1 = none ∨
      (∃ w p, find_field_bytes data 1 = some (w, p) ∧ w ≠ 2) ∨
      (∃ p, find_field_bytes data 1 = some (2, p) ∧
        parse_length_delimited_bytes data p = none) ∨
      (∃ p bs q, find_field_bytes data 1 = some (2, p) ∧
        parse_length_delimited_bytes data p = some (bs, q) ∧
        from_utf8 bs = none) ∨
      (∃ p q, find_field_bytes data 1 = some (2, p) ∧
        parse_length_delimited_bytes data p = some ([], q))) ∧
    ((KeyValue_parse data).2 = false → KeyValue_parse data = (([], none), false)) ∧
    ((LogRecord_parse s data).1.attributes.take
        (LogRecord_parse s data).1.attributes_used =
      (kvItems data 6).filterMap (fun b =>
        if (KeyValue_parse b).2 then some (KeyValue_parse b).1 else none)) := by
  have hc := KeyValue_parse_cases data
  refine ⟨?_, ?_, ?_⟩
  · rw [← strField_getD_nil_iff data 1]
    by_cases hk : (strField data 1).getD [] = []
    · rw [if_pos hk] at hc
      exact iff_of_true (by rw [hc]) hk
    · rw [if_neg hk] at hc
      apply iff_of_false
      · rw [hc]
        simp
      · exact hk
  · intro hfl
    by_cases hk : (strField data 1).getD [] = []
    · rw [if_pos hk] at hc
      exact hc
    · rw [if_neg hk] at hc
      rw [hc] at hfl
      simp at hfl
  · simp only [LogRecord_parse]
    exact parseRepeated_stateless KeyValue_parse ([], none)
      (kvItems data 6) s.attributes 0 (Nat.zero_le _)

end Otel

namespace Otel

/-- Witness: on an empty `KeyValue` byte range the key is absent, the parse
fails, and the node is left cleared. -/
theorem c6_empty_key_attribute_dropped_witness :
    (KeyValue_parse ([] : Bytes)).2 = false ∧
    KeyValue_parse ([] : Bytes) = (([], none), false) := by
  have h := c6_empty_key_attribute_dropped ([] : Bytes) LogRecord_new
  have hfl : (KeyValue_parse ([] : Bytes)).2 = false := h.1.mpr (Or.inl (by decide))
  exact ⟨hfl, h.2.1 hfl⟩

/-- `LogRecordView::timestamp` for the eager `LogRecord` of `otlp_bytes.rs`:
`time_unix_nano`, falling back to `observed_time_unix_nano` when that is
nonzero. -/
def timestampE (s : LogRecordE) : Option Nat :=
  s.time_unix_nano.orElse (fun _ =>
    if s.observed_time_unix_nano ≠ 0 then some s.observed_time_unix_nano
    else none)

/-- C7: after an eager `LogRecord::parse`, `observed_time_unix_nano` always
holds a concrete value, defaulting to 0 when tag 11 is absent;
`time_unix_nano` is optional and is `None` when tag 1 is absent; and the
record's `timestamp` resolution uses `time_unix_nano` when present and
otherwise falls back to `observed_time_unix_nano` (as a present value when
nonzero). -/
theorem c7_observed_time_default_and_timestamp_fallback (s : LogRecordE)
    (data : Bytes) :
    ((∀ e ∈ fieldScan_bytes data, e.1 ≠ 11) →
      (LogRecord_parse s data).1.observed_time_unix_nano = 0) ∧
    ((∀ e ∈ fieldScan_bytes data, e.1 ≠ 1) →
      (LogRecord_parse s data).1.time_unix_nano = none) ∧
    ((LogRecord_parse s data).1.time_unix_nano = none →
      timestampE (LogRecord_parse s data).1 =
        (if (LogRecord_parse s data).1.observed_time_unix_nano ≠ 0 then
          some (LogRecord_parse s data).1.observed_time_unix_nano
         else none)) ∧
    (∀ t, (LogRecord_parse s data).1.time_unix_nano = some t →
      timestampE (LogRecord_parse s data).1 = some t) := by
  refine ⟨?_, ?_, ?_, ?_⟩
  · intro h
    simp [LogRecord_parse, fixed64Field, find_field_bytes_none_of_absent data 11 h]
  · intro h
    simp [LogRecord_parse, fixed64Field, find_field_bytes_none_of_absent data 1 h]
  · intro h
    rw [timestampE, h]
    rfl
  · intro t h
    rw [timestampE, h]
    rfl

/-- Witness: parsing the empty record gives `observed_time_unix_nano = 0`, an
absent `time_unix_nano`, and an absent resolved timestamp. -/
theorem c7_observed_time_default_and_timestamp_fallback_witness :
    (LogRecord_parse LogRecord_new []).1.observed_time_unix_nano = 0 ∧
    (LogRecord_parse LogRecord_new []).1.time_unix_nano = none ∧
    timestampE (LogRecord_parse LogRecord_new []).1 = none := by
  have h := c7_observed_time_default_and_timestamp_fallback LogRecord_new []
  have h1 := h.1 (by decide)
  have h2 := h.2.1 (by decide)
  refine ⟨h1, h2, ?_⟩
  rw [h.2.2.1 h2, h1]
  simp

end Otel

namespace Otel

/-! ## Spec-modelled protobuf encoder

The baseline of C1 is the prost-generated object tree and prost-encoded
buffers; that code is generated outside this repository's sources.  Modelled
from the spec: the protobuf wire format it describes — little-endian base-128
varints with continuation bit `0x80`, and length-delimited fields
`varint(tag << 3 | 2) ++ varint(len) ++ payload` concatenated in order.  The
decode lemmas below relate the repository's parsers to these encodings. -/

/-- Modelled from the spec: the varint encoding of `v`, little-endian
base-128, continuation bit `0x80`.  `v / 128` strictly shrinks, so fuel 10
covers every `v < 128 ^ 10` (in particular every `u64`). -/
def encVarintF : Nat → Nat → Bytes
  | 0, _ => []
  | fuel + 1, v => if v < 128 then [v] else (v % 128 + 128) :: encVarintF fuel (v / 128)

/-- See `encVarintF`. -/
def encVarint (v : Nat) : Bytes := encVarintF 10 v

/-- Modelled from the spec: one length-delimited field — tag-and-wire varint
(wire type 2), length varint, payload. -/
def encField2 (t : Nat) (payload : Bytes) : Bytes :=
  encVarint (t * 8 + 2) ++ (encVarint payload.length ++ payload)

/-- Modelled from the spec: a message body is its fields concatenated in
order. -/
def encFields : List (Nat × Bytes) → Bytes
  | [] => []
  | (t, p) :: fs => encField2 t p ++ encFields fs

theorem and7_eq_mod (b : Nat) : b &&& 7 = b % 8 := by
  have h := Nat.and_pow_two_sub_one_eq_mod b 3
  norm_num at h
  exact h

/-- Varint encodings consist of bytes. -/
theorem encVarintF_lt_256 : ∀ (f v : Nat), ∀ b ∈ encVarintF f v, b < 256 := by
  intro f
  induction f with
  | zero => intro v b hb; simp [encVarintF] at hb
  | succ f ih =>
    intro v b hb
    rw [encVarintF] at hb
    by_cases hs : v < 128
    · rw [if_pos hs] at hb
      simp at hb
      omega
    · rw [if_neg hs] at hb
      rcases List.mem_cons.1 hb with h | h
      · omega
      · exact ih (v / 128) b h

/-- Varint encodings are nonempty. -/
theorem encVarintF_ne_nil (f v : Nat) : encVarintF (f + 1) v ≠ [] := by
  rw [encVarintF]
  by_cases hs : v < 128 <;> simp [hs]

/-- The byte at the join point of an append. -/
theorem getD_append_at (pre : Bytes) (b : Nat) (tail : Bytes) :
    (pre ++ b :: tail).getD pre.length 0 = b := by
  induction pre with
  | nil => rfl
  | cons a l ih => simpa using ih

/-- The ideal varint decoder inverts the encoder at any position of a
buffer. -/
theorem varintIdealF_enc : ∀ (f g v : Nat) (pre rest : Bytes),
    0 < f → v < 128 ^ f → f ≤ g →
    varintIdealF g (pre ++ (encVarintF f v ++ rest)) pre.length =
      some (v, pre.length + (encVarintF f v).length) := by
  intro f
  induction f with
  | zero => intro g v pre rest h0; omega
  | succ f ih =>
    intro g v pre rest h0 hv hfg
    obtain ⟨g', rfl⟩ : ∃ g', g = g' + 1 := ⟨g - 1, by omega⟩
    rw [encVarintF]
    by_cases hs : v < 128
    · rw [if_pos hs, varintIdealF_succ]
      have hpos : pre.length < (pre ++ ([v] ++ rest)).length := by
        simp
      rw [if_pos hpos]
      have hbyte : (pre ++ ([v] ++ rest)).getD pre.length 0 = v := getD_append_at pre v rest
      rw [hbyte]
      have hz : v &&& 128 = 0 := (and128_eq_zero_iff (by omega)).2 hs
      rw [if_pos hz, and127_eq_mod, Nat.mod_eq_of_lt hs]
      simp
    · rw [if_neg hs, varintIdealF_succ]
      have hpos : pre.length <
          (pre ++ (((v % 128 + 128) :: encVarintF f (v / 128)) ++ rest)).length := by
        simp
      rw [if_pos hpos]
      have hbyte : (pre ++ (((v % 128 + 128) :: encVarintF f (v / 128)) ++ rest)).getD
          pre.length 0 = v % 128 + 128 :=
        getD_append_at pre _ _
      rw [hbyte]
      have hnz : ¬(v % 128 + 128 &&& 128 = 0) := by
        rw [and128_eq_zero_iff (by omega)]
        omega
      rw [if_neg hnz]
      have hf0 : 0 < f := by
        rcases Nat.eq_zero_or_pos f with h | h
        · subst h
          simp at hv
          omega
        · exact h
      have hv2 : v / 128 < 128 ^ f := by
        rw [Nat.div_lt_iff_lt_mul (by norm_num)]
        calc v < 128 ^ (f + 1) := hv
          _ = 128 ^ f * 128 := by rw [pow_succ]
      have hih := ih g' (v / 128) (pre ++ [v % 128 + 128]) rest hf0 hv2 (by omega)
      have hdata : (pre ++ [v % 128 + 128]) ++ (encVarintF f (v / 128) ++ rest) =
          pre ++ (((v % 128 + 128) :: encVarintF f (v / 128)) ++ rest) := by
        simp
      rw [hdata] at hih
      have hlen : (pre ++ [v % 128 + 128]).length = pre.length + 1 := by simp
      rw [hlen] at hih
      rw [hih]
      rw [and127_eq_mod, Nat.add_mod_right, Nat.mod_mod_of_dvd v (dvd_refl 128)]
      dsimp only
      rw [Nat.mod_add_div]
      have hfin : pre.length + 1 + (encVarintF f (v / 128)).length =
          pre.length + ((v % 128 + 128) :: encVarintF f (v / 128)).length := by
        simp
        try omega
      rw [hfin]

/-- The lazy varint parser inverts the encoder for 64-bit values. -/
theorem parse_varint_lazy_enc (pre rest : Bytes) (v : Nat) (hv : v < 2 ^ 64) :
    parse_varint_lazy (pre ++ (encVarint v ++ rest)) pre.length =
      some (v, pre.length + (encVarint v).length) := by
  rw [parse_varint_lazy_eq_ideal, varintIdeal, encVarint]
  rw [varintIdealF_enc 10 10 v pre rest (by norm_num)
    (by calc v < 2 ^ 64 := hv
          _ < 128 ^ 10 := by norm_num) (Nat.le_refl 10)]
  simp [u64Mod_small hv, encVarint]

/-- The lazy length-delimited parser inverts the encoder. -/
theorem parse_length_delimited_lazy_enc (pre payload rest : Bytes)
    (hlen : payload.length < 2 ^ 64) :
    parse_length_delimited_lazy (pre ++ (encVarint payload.length ++ (payload ++ rest)))
        pre.length =
      some (payload, pre.length + (encVarint payload.length).length + payload.length) := by
  rw [parse_length_delimited_lazy, parse_length_delimited]
  rw [parse_varint_lazy_enc pre (payload ++ rest) payload.length hlen]
  dsimp only
  have hle : pre.length + (encVarint payload.length).length + payload.length ≤
      (pre ++ (encVarint payload.length ++ (payload ++ rest))).length := by
    simp
    omega
  rw [if_pos hle]
  have hdrop : (pre ++ (encVarint payload.length ++ (payload ++ rest))).drop
      (pre.length + (encVarint payload.length).length) = payload ++ rest := by
    have hassoc : pre ++ (encVarint payload.length ++ (payload ++ rest)) =
        (pre ++ encVarint payload.length) ++ (payload ++ rest) := by
      simp
    have hlen2 : pre.length + (encVarint payload.length).length =
        (pre ++ encVarint payload.length).length := by
      simp
    rw [hassoc, hlen2, List.drop_left]
  rw [hdrop, List.take_left]

end Otel

namespace Otel

/-- On byte-valued data the eager varint parser agrees with the lazy one. -/
theorem parse_varint_bytes_eq_lazy (data : Bytes) (hb : ∀ x ∈ data, x < 256)
    (pos : Nat) : parse_varint_bytes data pos = parse_varint_lazy data pos := by
  rw [parse_varint_bytes_eq_untitled data pos hb, parse_varint_lazy_eq_untitled]

/-- On byte-valued data the eager length-delimited parser agrees with the
lazy one. -/
theorem parse_length_delimited_pv_eq (data : Bytes) (hb : ∀ x ∈ data, x < 256)
    (pos : Nat) :
    parse_length_delimited parse_varint_bytes data pos =
      parse_length_delimited parse_varint_lazy data pos := by
  rw [parse_length_delimited, parse_length_delimited,
    parse_varint_bytes_eq_lazy data hb pos]

/-- On byte-valued data the eager field skip agrees with the lazy one. -/
theorem skipPos_bytes_eq_lazy (data : Bytes) (hb : ∀ x ∈ data, x < 256)
    (pos1 wire : Nat) :
    skipPos parse_varint_bytes data pos1 wire =
      skipPos parse_varint_lazy data pos1 wire := by
  rcases wire with _ | _ | _ | _ | _ | _ | w <;>
    simp [skipPos, parse_varint_bytes_eq_lazy data hb,
      parse_length_delimited_pv_eq data hb]

/-- Decoding one encoded field: the tag-and-wire varint, its tag and wire
type, and the length-delimited payload, each with the position they leave the
parser at. -/
theorem encField_step (pre rest payload : Bytes) (t : Nat)
    (ht : t < 2 ^ 29) (hp : payload.length < 2 ^ 64) :
    parse_varint_lazy (pre ++ (encField2 t payload ++ rest)) pre.length =
      some (t * 8 + 2, pre.length + (encVarint (t * 8 + 2)).length) ∧
    tagOf (t * 8 + 2) = t ∧
    (t * 8 + 2) &&& 7 = 2 ∧
    parse_length_delimited_lazy (pre ++ (encField2 t payload ++ rest))
        (pre.length + (encVarint (t * 8 + 2)).length) =
      some (payload, pre.length + (encField2 t payload).length) := by
  have htw : t * 8 + 2 < 2 ^ 64 := by
    have h1 : (2 : Nat) ^ 29 * 8 ≤ 2 ^ 64 := by norm_num
    omega
  refine ⟨?_, ?_, ?_, ?_⟩
  · rw [show pre ++ (encField2 t payload ++ rest) =
      pre ++ (encVarint (t * 8 + 2) ++
        (encVarint payload.length ++ (payload ++ rest))) from by simp [encField2]]
    exact parse_varint_lazy_enc pre _ _ htw
  · rw [tagOf, Nat.shiftRight_eq_div_pow]
    have h8 : (t * 8 + 2) / 2 ^ 3 = t := by
      norm_num
      omega
    rw [h8]
    have h32 : t < 2 ^ 32 := by
      have h2 : (2 : Nat) ^ 29 ≤ 2 ^ 32 := by norm_num
      omega
    exact Nat.mod_eq_of_lt h32
  · rw [and7_eq_mod]
    omega
  · rw [show pre ++ (encField2 t payload ++ rest) =
      (pre ++ encVarint (t * 8 + 2)) ++
        (encVarint payload.length ++ (payload ++ rest)) from by simp [encField2]]
    have h := parse_length_delimited_lazy_enc (pre ++ encVarint (t * 8 + 2))
      payload rest hp
    rw [show (pre ++ encVarint (t * 8 + 2)).length =
      pre.length + (encVarint (t * 8 + 2)).length from by simp] at h
    rw [h]
    rw [show pre.length + (encVarint (t * 8 + 2)).length +
        (encVarint payload.length).length + payload.length =
      pre.length + (encField2 t payload).length from by
        simp [encField2]
        try omega]

end Otel

namespace Otel

theorem encVarint_length_pos (v : Nat) : 0 < (encVarint v).length :=
  List.length_pos.2 (encVarintF_ne_nil 9 v)

theorem encField2_length_pos (t : Nat) (p : Bytes) : 0 < (encField2 t p).length := by
  have h := encVarint_length_pos (t * 8 + 2)
  simp [encField2]
  omega

/-- A message never has more fields than bytes. -/
theorem encFields_length_ge : ∀ fs : List (Nat × Bytes),
    fs.length ≤ (encFields fs).length := by
  intro fs
  induction fs with
  | nil => simp [encFields]
  | cons f fs ih =>
    obtain ⟨t, p⟩ := f
    have h := encField2_length_pos t p
    simp only [encFields, List.length_append, List.length_cons]
    omega

/-- Per-field side conditions for the decode lemmas: a protobuf-range tag and
a 64-bit payload length. -/
def fieldsOK (fs : List (Nat × Bytes)) : Prop :=
  ∀ f ∈ fs, f.1 < 2 ^ 29 ∧ f.2.length < 2 ^ 64

/-- An encoded message consists of bytes whenever its payloads do. -/
theorem encFields_bytes_lt : ∀ fs : List (Nat × Bytes),
    (∀ f ∈ fs, ∀ b ∈ f.2, b < 256) → ∀ b ∈ encFields fs, b < 256 := by
  intro fs
  induction fs with
  | nil => intro _ b hb; simp [encFields] at hb
  | cons f fs ih =>
    intro hf b hb
    obtain ⟨t, p⟩ := f
    simp only [encFields, encField2, List.append_assoc, List.mem_append] at hb
    rcases hb with h | h | h | h
    · exact encVarintF_lt_256 10 _ b h
    · exact encVarintF_lt_256 10 _ b h
    · exact hf (t, p) (List.mem_cons_self _ _) b h
    · exact ih (fun g hg => hf g (List.mem_cons_of_mem _ hg)) b h

/-- All decode facts about the first field of the remaining message, phrased
on the fixed full buffer `data`. -/
theorem encField_facts (data pre rest payload : Bytes) (t : Nat)
    (hdata : data = pre ++ (encField2 t payload ++ rest))
    (hb : ∀ x ∈ data, x < 256)
    (ht : t < 2 ^ 29) (hp : payload.length < 2 ^ 64) :
    pre.length < data.length ∧
    parse_varint_bytes data pre.length =
      some (t * 8 + 2, pre.length + (encVarint (t * 8 + 2)).length) ∧
    parse_varint_lazy data pre.length =
      some (t * 8 + 2, pre.length + (encVarint (t * 8 + 2)).length) ∧
    tagOf (t * 8 + 2) = t ∧
    (t * 8 + 2) &&& 7 = 2 ∧
    parse_length_delimited_lazy data (pre.length + (encVarint (t * 8 + 2)).length) =
      some (payload, (pre ++ encField2 t payload).length) ∧
    parse_length_delimited parse_varint_bytes data
        (pre.length + (encVarint (t * 8 + 2)).length) =
      some (payload, (pre ++ encField2 t payload).length) ∧
    skipPos parse_varint_lazy data
        (pre.length + (encVarint (t * 8 + 2)).length) 2 =
      some ((pre ++ encField2 t payload).length) ∧
    skipPos parse_varint_bytes data
        (pre.length + (encVarint (t * 8 + 2)).length) 2 =
      some ((pre ++ encField2 t payload).length) := by
  have hstep := encField_step pre rest payload t ht hp
  have hguard : pre.length < data.length := by
    rw [hdata]
    have h := encField2_length_pos t payload
    simp
    omega
  have hlazyv : parse_varint_lazy data pre.length =
      some (t * 8 + 2, pre.length + (encVarint (t * 8 + 2)).length) := by
    rw [hdata]; exact hstep.1
  have hlazyld : parse_length_delimited_lazy data
      (pre.length + (encVarint (t * 8 + 2)).length) =
      some (payload, (pre ++ encField2 t payload).length) := by
    rw [hdata]
    rw [hstep.2.2.2]
    rw [show pre.length + (encField2 t payload).length =
      (pre ++ encField2 t payload).length from by simp]
  have hbytesld : parse_length_delimited parse_varint_bytes data
      (pre.length + (encVarint (t * 8 + 2)).length) =
      some (payload, (pre ++ encField2 t payload).length) := by
    rw [parse_length_delimited_pv_eq data hb]
    exact hlazyld
  have hlazyskip : skipPos parse_varint_lazy data
      (pre.length + (encVarint (t * 8 + 2)).length) 2 =
      some ((pre ++ encField2 t payload).length) := by
    rw [show skipPos parse_varint_lazy data
        (pre.length + (encVarint (t * 8 + 2)).length) 2 =
      (parse_length_delimited parse_varint_lazy data
        (pre.length + (encVarint (t * 8 + 2)).length)).map Prod.snd from rfl]
    rw [show parse_length_delimited parse_varint_lazy data
        (pre.length + (encVarint (t * 8 + 2)).length) =
      parse_length_delimited_lazy data
        (pre.length + (encVarint (t * 8 + 2)).length) from rfl]
    rw [hlazyld]
    rfl
  refine ⟨hguard, ?_, hlazyv, hstep.2.1, hstep.2.2.1, hlazyld, hbytesld, hlazyskip, ?_⟩
  · rw [parse_varint_bytes_eq_lazy data hb]
    exact hlazyv
  · rw [show skipPos parse_varint_bytes data
        (pre.length + (encVarint (t * 8 + 2)).length) 2 =
      (parse_length_delimited parse_varint_bytes data
        (pre.length + (encVarint (t * 8 + 2)).length)).map Prod.snd from rfl]
    rw [hbytesld]
    rfl

end Otel

namespace Otel

/-- The eager repeated-payload extraction (`parse_all_fields` + wire-type
check + `parse_length_delimited`, i.e. `kvItems`) run over an encoded message
returns exactly the payloads of its target-tagged fields, in order. -/
theorem kvItems_enc_go (t0 : Nat) (data : Bytes) (hb : ∀ x ∈ data, x < 256) :
    ∀ (fs : List (Nat × Bytes)) (fuel : Nat) (pre : Bytes),
      data = pre ++ encFields fs →
      fs.length + 1 ≤ fuel →
      fieldsOK fs →
      (parse_all_fieldsF fuel data t0 pre.length).filterMap (fun f =>
          if f.1 = 2 then (parse_length_delimited_bytes data f.2).map Prod.fst
          else none) =
        (fs.filter (fun f => f.1 == t0)).map Prod.snd := by
  intro fs
  induction fs with
  | nil =>
    intro fuel pre hdata hfuel hok
    obtain ⟨fuel2, rfl⟩ : ∃ g, fuel = g + 1 := ⟨fuel - 1, by omega⟩
    have hlen : data.length = pre.length := by
      rw [hdata]
      simp [encFields]
    rw [parse_all_fieldsF_succ, if_neg (by omega)]
    simp
  | cons f fs ih =>
    intro fuel pre hdata hfuel hok
    obtain ⟨t, p⟩ := f
    obtain ⟨fuel2, rfl⟩ : ∃ g, fuel = g + 1 := ⟨fuel - 1, by omega⟩
    have hdata2 : data = pre ++ (encField2 t p ++ encFields fs) := by
      rw [hdata]
      simp [encFields]
    have hokf := hok (t, p) (List.mem_cons_self _ _)
    obtain ⟨hguard, hbv, hlv, htag, hwire, hlld, hbld, hlskip, hbskip⟩ :=
      encField_facts data pre (encFields fs) p t hdata2 hb hokf.1 hokf.2
    have hdata3 : data = (pre ++ encField2 t p) ++ encFields fs := by
      rw [hdata2]
      simp
    have hok2 : fieldsOK fs := fun g hg => hok g (List.mem_cons_of_mem _ hg)
    have hih := ih fuel2 (pre ++ encField2 t p) hdata3 (by
      simp only [List.length_cons] at hfuel
      omega) hok2
    rw [parse_all_fieldsF_succ, if_pos hguard, hbv]
    dsimp only
    rw [htag]
    by_cases htt : t = t0
    · rw [if_pos htt, hwire, hbskip]
      try dsimp only
      rw [List.filterMap_cons]
      try dsimp only
      rw [if_pos rfl]
      rw [show parse_length_delimited_bytes data
          (pre.length + (encVarint (t * 8 + 2)).length) =
        some (p, (pre ++ encField2 t p).length) from hbld]
      rw [Option.map_some']
      try dsimp only
      rw [hih, List.filter_cons]
      simp [htt]
    · rw [if_neg htt, hwire, hbskip]
      try dsimp only
      rw [hih, List.filter_cons]
      simp [htt]

/-- See `kvItems_enc_go`: `kvItems` over an encoded message. -/
theorem kvItems_enc (fs : List (Nat × Bytes)) (t0 : Nat)
    (hb : ∀ x ∈ encFields fs, x < 256) (hok : fieldsOK fs) :
    kvItems (encFields fs) t0 = (fs.filter (fun f => f.1 == t0)).map Prod.snd := by
  rw [kvItems, parse_all_fields]
  have h := kvItems_enc_go t0 (encFields fs) hb fs ((encFields fs).length + 1) []
    (by simp) (by have := encFields_length_ge fs; omega) hok
  simpa using h

end Otel

namespace Otel

/-- Unfolding equation for one iteration of the top-level `LogsData::parse`
payload scan. -/
theorem logsItemsF_succ (fuel : Nat) (data : Bytes) (pos : Nat) :
    logsItemsF (fuel + 1) data pos =
      if pos < data.length then
        match parse_varint_bytes data pos with
        | none => []
        | some (tw, pos1) =>
          if tagOf tw = 1 ∧ tw &&& 7 = 2 then
            match parse_length_delimited_bytes data pos1 with
            | some (bytes, endPos) => bytes :: logsItemsF fuel data endPos
            | none => []
          else
            match tw &&& 7 with
            | 0 => logsItemsF fuel data
                (((parse_varint_bytes data pos1).map Prod.snd).getD data.length)
            | 1 => logsItemsF fuel data (pos1 + 8)
            | 2 => logsItemsF fuel data
                (((parse_length_delimited_bytes data pos1).map Prod.snd).getD data.length)
            | 5 => logsItemsF fuel data (pos1 + 4)
            | _ => []
      else [] := rfl

/-- The lazy repeated-message iterators, run over an encoded message, yield
exactly the payloads of the target-tagged fields, in order. -/
theorem iterPayloads_enc_go (t0 : Nat) (data : Bytes) (hb : ∀ x ∈ data, x < 256) :
    ∀ (fs : List (Nat × Bytes)) (fuel : Nat) (pre : Bytes),
      data = pre ++ encFields fs →
      fs.length + 1 ≤ fuel →
      fieldsOK fs →
      iterPayloadsF fuel data t0 pre.length =
        (fs.filter (fun f => f.1 == t0)).map Prod.snd := by
  intro fs
  induction fs with
  | nil =>
    intro fuel pre hdata hfuel hok
    obtain ⟨fuel2, rfl⟩ : ∃ g, fuel = g + 1 := ⟨fuel - 1, by omega⟩
    have hlen : data.length = pre.length := by
      rw [hdata]
      simp [encFields]
    rw [iterPayloadsF_succ, if_neg (by omega)]
    simp
  | cons f fs ih =>
    intro fuel pre hdata hfuel hok
    obtain ⟨t, p⟩ := f
    obtain ⟨fuel2, rfl⟩ : ∃ g, fuel = g + 1 := ⟨fuel - 1, by omega⟩
    have hdata2 : data = pre ++ (encField2 t p ++ encFields fs) := by
      rw [hdata]
      simp [encFields]
    have hokf := hok (t, p) (List.mem_cons_self _ _)
    obtain ⟨hguard, hbv, hlv, htag, hwire, hlld, hbld, hlskip, hbskip⟩ :=
      encField_facts data pre (encFields fs) p t hdata2 hb hokf.1 hokf.2
    have hdata3 : data = (pre ++ encField2 t p) ++ encFields fs := by
      rw [hdata2]
      simp
    have hok2 : fieldsOK fs := fun g hg => hok g (List.mem_cons_of_mem _ hg)
    have hih := ih fuel2 (pre ++ encField2 t p) hdata3 (by
      simp only [List.length_cons] at hfuel
      omega) hok2
    rw [iterPayloadsF_succ, if_pos hguard, hlv]
    dsimp only
    rw [htag, hwire]
    by_cases htt : t = t0
    · rw [if_pos (by exact ⟨htt, rfl⟩), hlld]
      try dsimp only
      rw [hih, List.filter_cons]
      simp [htt]
    · rw [if_neg (by
        rintro ⟨h1, -⟩
        exact htt h1)]
      rw [hlld, Option.map_some']
      try dsimp only
      rw [hih, List.filter_cons]
      simp [htt]

/-- See `iterPayloads_enc_go`. -/
theorem iterPayloads_enc (fs : List (Nat × Bytes)) (t0 : Nat)
    (hb : ∀ x ∈ encFields fs, x < 256) (hok : fieldsOK fs) :
    iter_payloads (encFields fs) t0 =
      (fs.filter (fun f => f.1 == t0)).map Prod.snd := by
  rw [iter_payloads]
  have h := iterPayloads_enc_go t0 (encFields fs) hb fs ((encFields fs).length + 1) []
    (by simp) (by have := encFields_length_ge fs; omega) hok
  simpa using h

/-- The top-level payload scan of the eager `LogsData::parse`, run over an
encoded buffer, yields exactly the payloads of the tag-1 fields, in order. -/
theorem logsItems_enc_go (data : Bytes) (hb : ∀ x ∈ data, x < 256) :
    ∀ (fs : List (Nat × Bytes)) (fuel : Nat) (pre : Bytes),
      data = pre ++ encFields fs →
      fs.length + 1 ≤ fuel →
      fieldsOK fs →
      logsItemsF fuel data pre.length =
        (fs.filter (fun f => f.1 == 1)).map Prod.snd := by
  intro fs
  induction fs with
  | nil =>
    intro fuel pre hdata hfuel hok
    obtain ⟨fuel2, rfl⟩ : ∃ g, fuel = g + 1 := ⟨fuel - 1, by omega⟩
    have hlen : data.length = pre.length := by
      rw [hdata]
      simp [encFields]
    rw [logsItemsF_succ, if_neg (by omega)]
    simp
  | cons f fs ih =>
    intro fuel pre hdata hfuel hok
    obtain ⟨t, p⟩ := f
    obtain ⟨fuel2, rfl⟩ : ∃ g, fuel = g + 1 := ⟨fuel - 1, by omega⟩
    have hdata2 : data = pre ++ (encField2 t p ++ encFields fs) := by
      rw [hdata]
      simp [encFields]
    have hokf := hok (t, p) (List.mem_cons_self _ _)
    obtain ⟨hguard, hbv, hlv, htag, hwire, hlld, hbld, hlskip, hbskip⟩ :=
      encField_facts data pre (encFields fs) p t hdata2 hb hokf.1 hokf.2
    have hdata3 : data = (pre ++ encField2 t p) ++ encFields fs := by
      rw [hdata2]
      simp
    have hok2 : fieldsOK fs := fun g hg => hok g (List.mem_cons_of_mem _ hg)
    have hih := ih fuel2 (pre ++ encField2 t p) hdata3 (by
      simp only [List.length_cons] at hfuel
      omega) hok2
    rw [logsItemsF_succ, if_pos hguard, hbv]
    dsimp only
    rw [htag, hwire]
    by_cases htt : t = 1
    · rw [if_pos (by exact ⟨htt, rfl⟩)]
      rw [show parse_length_delimited_bytes data
          (pre.length + (encVarint (t * 8 + 2)).length) =
        some (p, (pre ++ encField2 t p).length) from hbld]
      try dsimp only
      rw [hih, List.filter_cons]
      simp [htt]
    · rw [if_neg (by
        rintro ⟨h1, -⟩
        exact htt h1)]
      try dsimp only
      rw [show parse_length_delimited_bytes data
          (pre.length + (encVarint (t * 8 + 2)).length) =
        some (p, (pre ++ encField2 t p).length) from hbld]
      try dsimp only
      rw [Option.map_some']
      try dsimp only
      rw [Option.getD_some]
      rw [hih, List.filter_cons]
      simp [htt]

/-- See `logsItems_enc_go`. -/
theorem logsItems_enc (fs : List (Nat × Bytes))
    (hb : ∀ x ∈ encFields fs, x < 256) (hok : fieldsOK fs) :
    logs_items (encFields fs) = (fs.filter (fun f => f.1 == 1)).map Prod.snd := by
  rw [logs_items]
  have h := logsItems_enc_go (encFields fs) hb fs ((encFields fs).length + 1) []
    (by simp) (by have := encFields_length_ge fs; omega) hok
  simpa using h

end Otel

namespace Otel

/-- The eager singular length-delimited field extraction (`find_field` +
wire-type check + `parse_length_delimited`, i.e. `bytesField`) over an
encoded message returns the payload of the first target-tagged field. -/
theorem findPayload_enc_go (t0 : Nat) (data : Bytes) (hb : ∀ x ∈ data, x < 256) :
    ∀ (fs : List (Nat × Bytes)) (fuel : Nat) (pre : Bytes),
      data = pre ++ encFields fs →
      fs.length + 1 ≤ fuel →
      fieldsOK fs →
      ((parse_all_fieldsF fuel data t0 pre.length).head?).bind (fun f =>
          if f.1 = 2 then (parse_length_delimited_bytes data f.2).map Prod.fst
          else none) =
        (fs.find? (fun f => f.1 == t0)).map Prod.snd := by
  intro fs
  induction fs with
  | nil =>
    intro fuel pre hdata hfuel hok
    obtain ⟨fuel2, rfl⟩ : ∃ g, fuel = g + 1 := ⟨fuel - 1, by omega⟩
    have hlen : data.length = pre.length := by
      rw [hdata]
      simp [encFields]
    rw [parse_all_fieldsF_succ, if_neg (by omega)]
    simp
  | cons f fs ih =>
    intro fuel pre hdata hfuel hok
    obtain ⟨t, p⟩ := f
    obtain ⟨fuel2, rfl⟩ : ∃ g, fuel = g + 1 := ⟨fuel - 1, by omega⟩
    have hdata2 : data = pre ++ (encField2 t p ++ encFields fs) := by
      rw [hdata]
      simp [encFields]
    have hokf := hok (t, p) (List.mem_cons_self _ _)
    obtain ⟨hguard, hbv, hlv, htag, hwire, hlld, hbld, hlskip, hbskip⟩ :=
      encField_facts data pre (encFields fs) p t hdata2 hb hokf.1 hokf.2
    have hdata3 : data = (pre ++ encField2 t p) ++ encFields fs := by
      rw [hdata2]
      simp
    have hok2 : fieldsOK fs := fun g hg => hok g (List.mem_cons_of_mem _ hg)
    have hih := ih fuel2 (pre ++ encField2 t p) hdata3 (by
      simp only [List.length_cons] at hfuel
      omega) hok2
    rw [parse_all_fieldsF_succ, if_pos hguard, hbv]
    dsimp only
    rw [htag]
    rw [List.find?_cons]
    by_cases htt : t = t0
    · rw [if_pos htt, hwire, hbskip]
      try dsimp only
      rw [List.head?_cons]
      rw [show (t == t0) = true from by simp [htt]]
      try dsimp only
      rw [Option.some_bind]
      rw [if_pos rfl]
      rw [show parse_length_delimited_bytes data
          (pre.length + (encVarint (t * 8 + 2)).length) =
        some (p, (pre ++ encField2 t p).length) from hbld]
      rfl
    · rw [if_neg htt, hwire, hbskip]
      try dsimp only
      rw [show (t == t0) = false from by simp [htt]]
      try dsimp only
      exact hih

/-- See `findPayload_enc_go`: `bytesField` over an encoded message. -/
theorem bytesField_enc (fs : List (Nat × Bytes)) (t0 : Nat)
    (hb : ∀ x ∈ encFields fs, x < 256) (hok : fieldsOK fs) :
    bytesField (encFields fs) t0 = (fs.find? (fun f => f.1 == t0)).map Prod.snd := by
  rw [bytesField, find_field_bytes, parse_all_fields]
  have h := findPayload_enc_go t0 (encFields fs) hb fs ((encFields fs).length + 1) []
    (by simp) (by have := encFields_length_ge fs; omega) hok
  simpa using h

/-- `strField` is `bytesField` followed by UTF-8 validation. -/
theorem strField_eq_bytesField (data : Bytes) (t : Nat) :
    strField data t = (bytesField data t).bind from_utf8 := by
  rw [strField, bytesField]
  cases hf : find_field_bytes data t with
  | none => rfl
  | some f =>
    obtain ⟨w, pos⟩ := f
    by_cases hw : w = 2
    · subst hw
      rw [Option.some_bind, Option.some_bind, if_pos rfl, if_pos rfl]
      cases hld : parse_length_delimited_bytes data pos with
      | none => rfl
      | some bp => rfl
    · rw [Option.some_bind, Option.some_bind, if_neg hw, if_neg hw]
      rfl

end Otel

namespace Otel

/-- `CachedAttributeIterator` of `otlp_bytes_lazy.rs`, collected into a list:
walk the cached `(wire_type, position)` entries in order; an entry with wire
type 2 whose length-delimited payload extraction succeeds yields that
payload, and any other entry ends the iteration (`next` returns `None`). -/
def cachedAttrsGo : List (Nat × Nat) → Bytes → List Bytes
  | [], _ => []
  | (w, pos) :: rest, data =>
    if w = 2 then
      match parse_length_delimited_lazy data pos with
      | some (bytes, _) => bytes :: cachedAttrsGo rest data
      | none => []
    else []

/-- The attribute payloads a lazy `LogRecordParser` iterates: the cached
tag-6 entries fed to `CachedAttributeIterator`. -/
def lazy_record_attrs (data : Bytes) : List Bytes :=
  cachedAttrsGo (get_cache data).attributes data

/-- Only a tag-6 assignment touches the cached attribute list, appending. -/
theorem cacheUpdate_attributes (c : FieldCacheE) (tag w pos : Nat) :
    (cacheUpdate c tag w pos).attributes =
      if tag = 6 then c.attributes ++ [(w, pos)] else c.attributes := by
  rcases tag with _ | _ | _ | _ | _ | _ | _ | _ | _ | _ | _ | _ | _ | t <;>
    simp [cacheUpdate]

/-- The cached tag-6 entries of an encoded message: wire type 2 with the
position right after each tag-6 field's tag varint. -/
def attrEntries : Bytes → List (Nat × Bytes) → List (Nat × Nat)
  | _, [] => []
  | pre, (t, p) :: fs =>
    (if t = 6 then [(2, pre.length + (encVarint (t * 8 + 2)).length)] else []) ++
      attrEntries (pre ++ encField2 t p) fs

/-- The `get_cache` scan over an encoded message collects exactly the tag-6
entries into the attribute list. -/
theorem getCacheF_attrs_enc_go (data : Bytes) (hb : ∀ x ∈ data, x < 256) :
    ∀ (fs : List (Nat × Bytes)) (fuel : Nat) (pre : Bytes) (c : FieldCacheE),
      data = pre ++ encFields fs →
      fs.length + 1 ≤ fuel →
      fieldsOK fs →
      (getCacheF fuel data pre.length c).attributes =
        c.attributes ++ attrEntries pre fs := by
  intro fs
  induction fs with
  | nil =>
    intro fuel pre c hdata hfuel hok
    obtain ⟨fuel2, rfl⟩ : ∃ g, fuel = g + 1 := ⟨fuel - 1, by omega⟩
    have hlen : data.length = pre.length := by
      rw [hdata]
      simp [encFields]
    rw [getCacheF_succ, if_neg (by omega)]
    simp [attrEntries]
  | cons f fs ih =>
    intro fuel pre c hdata hfuel hok
    obtain ⟨t, p⟩ := f
    obtain ⟨fuel2, rfl⟩ : ∃ g, fuel = g + 1 := ⟨fuel - 1, by omega⟩
    have hdata2 : data = pre ++ (encField2 t p ++ encFields fs) := by
      rw [hdata]
      simp [encFields]
    have hokf := hok (t, p) (List.mem_cons_self _ _)
    obtain ⟨hguard, hbv, hlv, htag, hwire, hlld, hbld, hlskip, hbskip⟩ :=
      encField_facts data pre (encFields fs) p t hdata2 hb hokf.1 hokf.2
    have hdata3 : data = (pre ++ encField2 t p) ++ encFields fs := by
      rw [hdata2]
      simp
    have hok2 : fieldsOK fs := fun g hg => hok g (List.mem_cons_of_mem _ hg)
    rw [getCacheF_succ, if_pos hguard, hlv]
    dsimp only
    rw [hwire, hlskip]
    try dsimp only
    rw [htag]
    have hih := ih fuel2 (pre ++ encField2 t p) (cacheUpdate c t 2
      (pre.length + (encVarint (t * 8 + 2)).length)) hdata3 (by
        simp only [List.length_cons] at hfuel
        omega) hok2
    rw [hih, cacheUpdate_attributes]
    rw [show attrEntries pre ((t, p) :: fs) =
      (if t = 6 then [(2, pre.length + (encVarint (t * 8 + 2)).length)] else []) ++
        attrEntries (pre ++ encField2 t p) fs from rfl]
    by_cases h6 : t = 6
    · rw [if_pos h6, if_pos h6, List.append_assoc]
    · rw [if_neg h6, if_neg h6, List.nil_append]

/-- The cached attribute iterator over the cached entries of an encoded
message yields exactly the tag-6 payloads. -/
theorem cachedAttrsGo_enc (data : Bytes) (hb : ∀ x ∈ data, x < 256) :
    ∀ (fs : List (Nat × Bytes)) (pre : Bytes),
      data = pre ++ encFields fs →
      fieldsOK fs →
      cachedAttrsGo (attrEntries pre fs) data =
        (fs.filter (fun f => f.1 == 6)).map Prod.snd := by
  intro fs
  induction fs with
  | nil =>
    intro pre hdata hok
    simp [attrEntries, cachedAttrsGo]
  | cons f fs ih =>
    intro pre hdata hok
    obtain ⟨t, p⟩ := f
    have hdata2 : data = pre ++ (encField2 t p ++ encFields fs) := by
      rw [hdata]
      simp [encFields]
    have hokf := hok (t, p) (List.mem_cons_self _ _)
    obtain ⟨hguard, hbv, hlv, htag, hwire, hlld, hbld, hlskip, hbskip⟩ :=
      encField_facts data pre (encFields fs) p t hdata2 hb hokf.1 hokf.2
    have hdata3 : data = (pre ++ encField2 t p) ++ encFields fs := by
      rw [hdata2]
      simp
    have hok2 : fieldsOK fs := fun g hg => hok g (List.mem_cons_of_mem _ hg)
    have hih := ih (pre ++ encField2 t p) hdata3 hok2
    rw [show attrEntries pre ((t, p) :: fs) =
      (if t = 6 then [(2, pre.length + (encVarint (t * 8 + 2)).length)] else []) ++
        attrEntries (pre ++ encField2 t p) fs from rfl]
    rw [List.filter_cons]
    by_cases h6 : t = 6
    · rw [if_pos h6]
      rw [show ((2, pre.length + (encVarint (t * 8 + 2)).length) :: []) ++
          attrEntries (pre ++ encField2 t p) fs =
        (2, pre.length + (encVarint (t * 8 + 2)).length) ::
          attrEntries (pre ++ encField2 t p) fs from rfl]
      rw [cachedAttrsGo, if_pos rfl, hlld]
      try dsimp only
      rw [hih]
      simp [h6]
    · rw [if_neg h6, List.nil_append, hih]
      simp [h6]

/-- See `getCacheF_attrs_enc_go` and `cachedAttrsGo_enc`: the lazy record
attribute payloads of an encoded message. -/
theorem lazy_record_attrs_enc (fs : List (Nat × Bytes))
    (hb : ∀ x ∈ encFields fs, x < 256) (hok : fieldsOK fs) :
    lazy_record_attrs (encFields fs) =
      (fs.filter (fun f => f.1 == 6)).map Prod.snd := by
  rw [lazy_record_attrs, get_cache]
  have h := getCacheF_attrs_enc_go (encFields fs) hb fs ((encFields fs).length + 1)
    [] {} (by simp) (by have := encFields_length_ge fs; omega) hok
  rw [show (([] : Bytes)).length = 0 from rfl] at h
  rw [h]
  rw [show ({} : FieldCacheE).attributes = [] from rfl, List.nil_append]
  exact cachedAttrsGo_enc (encFields fs) hb fs [] (by simp) hok

end Otel

namespace Otel

/-- Bytes of one encoded wire-type-2 field are in range when its payload's
are. -/
theorem encField2_bytes_lt (t : Nat) (p : Bytes) (hp : ∀ b ∈ p, b < 256) :
    ∀ b ∈ encField2 t p, b < 256 := by
  intro b hb
  simp only [encField2, List.mem_append] at hb
  rcases hb with h | h | h
  · exact encVarintF_lt_256 10 _ b h
  · exact encVarintF_lt_256 10 _ b h
  · exact hp b h

/-- Filtering a constant-tag field list for that tag keeps everything. -/
theorem filter_map_const_tag {α : Type} (t : Nat) (g : α → Bytes) (l : List α) :
    ((l.map (fun a => (t, g a))).filter (fun f => f.1 == t)).map Prod.snd =
      l.map g := by
  induction l with
  | nil => rfl
  | cons a l ih => simp [ih]

/-- A pooled loop whose step always succeeds, started with the pool exactly
used up, appends one freshly parsed node per payload. -/
theorem parseRepeated_fresh {σ : Type} (p : σ → Bytes → σ × Bool) (newOne : σ)
    (hT : ∀ s b, (p s b).2 = true) :
    ∀ (items : List Bytes) (pool : List σ),
      (parseRepeated p newOne items pool pool.length).1 =
        pool ++ items.map (fun b => (p newOne b).1) ∧
      (parseRepeated p newOne items pool pool.length).2 =
        pool.length + items.length := by
  intro items
  induction items with
  | nil =>
    intro pool
    simp [parseRepeated]
  | cons b rest ih =>
    intro pool
    have hnl : ¬(pool.length < pool.length) := Nat.lt_irrefl _
    simp only [parseRepeated, if_neg hnl, hT, eq_self_iff_true, if_true]
    have hlen : pool.length + 1 = (pool ++ [(p newOne b).1]).length := by simp
    rw [hlen]
    have hih := ih (pool ++ [(p newOne b).1])
    rw [hih.1, hih.2]
    constructor
    · simp
    · simp
      omega

/-- Taking a mapped list up to the source length keeps all of it. -/
theorem take_map_full {α β : Type} (xs : List α) (f : α → β) :
    (xs.map f).take (0 + xs.length) = xs.map f := by
  rw [Nat.zero_add, ← List.length_map xs f, List.take_length]

/-! ## Spec-modelled wire format, all four wire types

Modelled from the spec: the little-endian fixed-width encodings and the
general field encoding `varint(tag << 3 | wire)` followed by the wire-typed
body, for wire types 0 (varint), 1 (fixed64), 2 (length-delimited) and
5 (fixed32). -/

/-- Modelled from the spec: the little-endian 4-byte fixed32 encoding. -/
def encFixed32 (v : Nat) : Bytes :=
  [v % 256, v / 256 % 256, v / 256 ^ 2 % 256, v / 256 ^ 3 % 256]

/-- Modelled from the spec: the little-endian 8-byte fixed64 encoding. -/
def encFixed64 (v : Nat) : Bytes :=
  [v % 256, v / 256 % 256, v / 256 ^ 2 % 256, v / 256 ^ 3 % 256,
   v / 256 ^ 4 % 256, v / 256 ^ 5 % 256, v / 256 ^ 6 % 256, v / 256 ^ 7 % 256]

/-- Modelled from the spec: one field of a message, by wire type — a varint
field (wire 0), a fixed64 field (wire 1), a length-delimited field (wire 2)
or a fixed32 field (wire 5). -/
inductive EField : Type where
  | v0 (t v : Nat)
  | f64 (t v : Nat)
  | ld (t : Nat) (p : Bytes)
  | f32 (t v : Nat)

/-- The field's tag. -/
def efTag : EField → Nat
  | .v0 t _ => t
  | .f64 t _ => t
  | .ld t _ => t
  | .f32 t _ => t

/-- The field's wire type. -/
def efWire : EField → Nat
  | .v0 _ _ => 0
  | .f64 _ _ => 1
  | .ld _ _ => 2
  | .f32 _ _ => 5

/-- Modelled from the spec: the encoding of one field. -/
def encEF : EField → Bytes
  | .v0 t v => encVarint (t * 8 + 0) ++ encVarint v
  | .f64 t v => encVarint (t * 8 + 1) ++ encFixed64 v
  | .ld t p => encField2 t p
  | .f32 t v => encVarint (t * 8 + 5) ++ encFixed32 v

/-- Modelled from the spec: a message body is its fields concatenated in
order. -/
def encMsg : List EField → Bytes
  | [] => []
  | ef :: efs => encEF ef ++ encMsg efs

/-- Side conditions under which the decode lemmas hold: protobuf-range tags,
64-bit varint values and payload lengths. -/
def efOK : EField → Prop
  | .v0 t v => t < 2 ^ 29 ∧ v < 2 ^ 64
  | .f64 t _ => t < 2 ^ 29
  | .ld t p => t < 2 ^ 29 ∧ p.length < 2 ^ 64
  | .f32 t _ => t < 2 ^ 29

/-- Byte-range condition of a field: only a length-delimited payload can
carry out-of-range entries. -/
def efBytesOK : EField → Prop
  | .ld _ p => ∀ b ∈ p, b < 256
  | _ => True

/-- The payloads of the length-delimited fields with the given tag, in
order — what the repeated-message extractions return. -/
def ldPayloads (efs : List EField) (t : Nat) : List Bytes :=
  efs.filterMap (fun ef => match ef with
    | .ld t2 p => if t2 = t then some p else none
    | _ => none)

theorem encFixed32_lt_256 (v : Nat) : ∀ b ∈ encFixed32 v, b < 256 := by
  intro b hb
  simp [encFixed32] at hb
  rcases hb with h | h | h | h <;> omega

theorem encFixed64_lt_256 (v : Nat) : ∀ b ∈ encFixed64 v, b < 256 := by
  intro b hb
  simp [encFixed64] at hb
  rcases hb with h | h | h | h | h | h | h | h <;> omega

theorem encEF_length_pos (ef : EField) : 0 < (encEF ef).length := by
  cases ef <;>
    simp [encEF, encFixed64, encFixed32] <;>
    first
      | exact Or.inl (encVarint_length_pos _)
      | exact encField2_length_pos _ _

/-- A message never has more fields than bytes. -/
theorem encMsg_length_ge : ∀ efs : List EField,
    efs.length ≤ (encMsg efs).length := by
  intro efs
  induction efs with
  | nil => simp [encMsg]
  | cons ef efs ih =>
    have h := encEF_length_pos ef
    simp only [encMsg, List.length_append, List.length_cons]
    omega

/-- An encoded message consists of bytes whenever its payloads do. -/
theorem encMsg_bytes_lt : ∀ efs : List EField,
    (∀ ef ∈ efs, efBytesOK ef) → ∀ b ∈ encMsg efs, b < 256 := by
  intro efs
  induction efs with
  | nil => intro _ b hb; simp [encMsg] at hb
  | cons ef efs ih =>
    intro hf b hb
    simp only [encMsg, List.mem_append] at hb
    rcases hb with h | h
    · have hef := hf ef (List.mem_cons_self _ _)
      cases ef with
      | v0 t v =>
        simp only [encEF, List.mem_append] at h
        rcases h with h | h <;> exact encVarintF_lt_256 10 _ b h
      | f64 t v =>
        simp only [encEF, List.mem_append] at h
        rcases h with h | h
        · exact encVarintF_lt_256 10 _ b h
        · exact encFixed64_lt_256 v b h
      | ld t p =>
        exact encField2_bytes_lt t p hef b h
      | f32 t v =>
        simp only [encEF, List.mem_append] at h
        rcases h with h | h
        · exact encVarintF_lt_256 10 _ b h
        · exact encFixed32_lt_256 v b h
    · exact ih (fun g hg => hf g (List.mem_cons_of_mem _ hg)) b h

end Otel

namespace Otel

/-- Tag-and-wire arithmetic of a field key `tag * 8 + wire`. -/
theorem tagwire (t w : Nat) (ht : t < 2 ^ 29) (hw : w < 8) :
    tagOf (t * 8 + w) = t ∧ (t * 8 + w) &&& 7 = w ∧ t * 8 + w < 2 ^ 64 := by
  have htw : t * 8 + w < 2 ^ 64 := by
    have h1 : (2 : Nat) ^ 29 * 8 ≤ 2 ^ 64 := by norm_num
    omega
  refine ⟨?_, ?_, htw⟩
  · rw [tagOf, Nat.shiftRight_eq_div_pow]
    have h8 : (t * 8 + w) / 2 ^ 3 = t := by
      norm_num
      omega
    rw [h8]
    have h32 : t < 2 ^ 32 := by
      have h2 : (2 : Nat) ^ 29 ≤ 2 ^ 32 := by norm_num
      omega
    exact Nat.mod_eq_of_lt h32
  · rw [and7_eq_mod]
    omega

/-- All decode facts about one encoded field at the head of the remaining
message, for every wire type, phrased on the fixed full buffer `data`:
the tag-and-wire varint, its tag and wire projections, the skip of the
field's body under both parser families, the payload extraction for a
length-delimited field, and the value varint for a wire-0 field. -/
theorem encEF_facts (data pre rest : Bytes) (ef : EField)
    (hdata : data = pre ++ (encEF ef ++ rest))
    (hb : ∀ x ∈ data, x < 256)
    (hok : efOK ef) :
    pre.length < data.length ∧
    parse_varint_bytes data pre.length =
      some (efTag ef * 8 + efWire ef,
        pre.length + (encVarint (efTag ef * 8 + efWire ef)).length) ∧
    parse_varint_lazy data pre.length =
      some (efTag ef * 8 + efWire ef,
        pre.length + (encVarint (efTag ef * 8 + efWire ef)).length) ∧
    tagOf (efTag ef * 8 + efWire ef) = efTag ef ∧
    (efTag ef * 8 + efWire ef) &&& 7 = efWire ef ∧
    skipPos parse_varint_lazy data
        (pre.length + (encVarint (efTag ef * 8 + efWire ef)).length) (efWire ef) =
      some ((pre ++ encEF ef).length) ∧
    skipPos parse_varint_bytes data
        (pre.length + (encVarint (efTag ef * 8 + efWire ef)).length) (efWire ef) =
      some ((pre ++ encEF ef).length) ∧
    (∀ p, ef = .ld (efTag ef) p →
      parse_length_delimited_lazy data
          (pre.length + (encVarint (efTag ef * 8 + efWire ef)).length) =
        some (p, (pre ++ encEF ef).length) ∧
      parse_length_delimited parse_varint_bytes data
          (pre.length + (encVarint (efTag ef * 8 + efWire ef)).length) =
        some (p, (pre ++ encEF ef).length)) := by
  cases ef with
  | ld t p =>
    obtain ⟨hguard, hbv, hlv, htag, hwire, hlld, hbld, hlskip, hbskip⟩ :=
      encField_facts data pre rest p t hdata hb hok.1 hok.2
    refine ⟨hguard, hbv, hlv, htag, hwire, hlskip, hbskip, ?_⟩
    intro p2 hp2
    have hpp : p = p2 := by
      injection hp2
    subst hpp
    exact ⟨hlld, hbld⟩
  | v0 t v =>
    obtain ⟨htag, hwire, htw⟩ := tagwire t 0 hok.1 (by omega)
    have hguard : pre.length < data.length := by
      rw [hdata]
      have h := encVarint_length_pos (t * 8 + 0)
      simp only [encEF, List.length_append]
      omega
    have hlv : parse_varint_lazy data pre.length =
        some (t * 8 + 0, pre.length + (encVarint (t * 8 + 0)).length) := by
      rw [hdata, show encEF (EField.v0 t v) = encVarint (t * 8 + 0) ++ encVarint v from rfl,
        show pre ++ ((encVarint (t * 8 + 0) ++ encVarint v) ++ rest) =
        pre ++ (encVarint (t * 8 + 0) ++ (encVarint v ++ rest)) from by simp]
      exact parse_varint_lazy_enc pre _ _ htw
    have hlv2 : parse_varint_lazy data
        (pre.length + (encVarint (t * 8 + 0)).length) =
        some (v, (pre ++ encEF (.v0 t v)).length) := by
      rw [hdata, show encEF (EField.v0 t v) = encVarint (t * 8 + 0) ++ encVarint v from rfl,
        show pre ++ ((encVarint (t * 8 + 0) ++ encVarint v) ++ rest) =
        (pre ++ encVarint (t * 8 + 0)) ++ (encVarint v ++ rest) from by simp]
      have h := parse_varint_lazy_enc (pre ++ encVarint (t * 8 + 0)) rest v hok.2
      rw [show (pre ++ encVarint (t * 8 + 0)).length =
        pre.length + (encVarint (t * 8 + 0)).length from by simp] at h
      rw [h]
      rw [show pre.length + (encVarint (t * 8 + 0)).length + (encVarint v).length =
        (pre ++ encEF (.v0 t v)).length from by
          simp [encEF]
          try omega]
      rw [show encEF (EField.v0 t v) = encVarint (t * 8 + 0) ++ encVarint v from rfl]
    have hlskip : skipPos parse_varint_lazy data
        (pre.length + (encVarint (t * 8 + 0)).length) 0 =
        some ((pre ++ encEF (.v0 t v)).length) := by
      rw [show skipPos parse_varint_lazy data
          (pre.length + (encVarint (t * 8 + 0)).length) 0 =
        (parse_varint_lazy data
          (pre.length + (encVarint (t * 8 + 0)).length)).map Prod.snd from rfl]
      rw [hlv2]
      rfl
    refine ⟨hguard, ?_, hlv, htag, hwire, hlskip, ?_, ?_⟩
    · rw [parse_varint_bytes_eq_lazy data hb]
      exact hlv
    · rw [skipPos_bytes_eq_lazy data hb]
      exact hlskip
    · intro p2 hp2
      exact EField.noConfusion hp2
  | f64 t v =>
    obtain ⟨htag, hwire, htw⟩ := tagwire t 1 hok (by omega)
    have hlen8 : (encFixed64 v).length = 8 := rfl
    have hguard : pre.length < data.length := by
      rw [hdata]
      simp only [encEF, List.length_append, hlen8]
      omega
    have hlv : parse_varint_lazy data pre.length =
        some (t * 8 + 1, pre.length + (encVarint (t * 8 + 1)).length) := by
      rw [hdata, show encEF (EField.f64 t v) = encVarint (t * 8 + 1) ++ encFixed64 v from rfl,
        show pre ++ ((encVarint (t * 8 + 1) ++ encFixed64 v) ++ rest) =
        pre ++ (encVarint (t * 8 + 1) ++ (encFixed64 v ++ rest)) from by simp]
      exact parse_varint_lazy_enc pre _ _ htw
    have hend : pre.length + (encVarint (t * 8 + 1)).length + 8 =
        (pre ++ encEF (.f64 t v)).length := by
      simp [encEF, hlen8]
      try omega
    have hle : pre.length + (encVarint (t * 8 + 1)).length + 8 ≤ data.length := by
      rw [hdata]
      simp only [encEF, List.length_append, hlen8]
      omega
    have hlskip : skipPos parse_varint_lazy data
        (pre.length + (encVarint (t * 8 + 1)).length) 1 =
        some ((pre ++ encEF (.f64 t v)).length) := by
      rw [show skipPos parse_varint_lazy data
          (pre.length + (encVarint (t * 8 + 1)).length) 1 =
        (if pre.length + (encVarint (t * 8 + 1)).length + 8 ≤ data.length then
          some (pre.length + (encVarint (t * 8 + 1)).length + 8) else none) from rfl]
      rw [if_pos hle, hend]
    refine ⟨hguard, ?_, hlv, htag, hwire, hlskip, ?_, ?_⟩
    · rw [parse_varint_bytes_eq_lazy data hb]
      exact hlv
    · rw [skipPos_bytes_eq_lazy data hb]
      exact hlskip
    · intro p2 hp2
      exact EField.noConfusion hp2
  | f32 t v =>
    obtain ⟨htag, hwire, htw⟩ := tagwire t 5 hok (by omega)
    have hlen4 : (encFixed32 v).length = 4 := rfl
    have hguard : pre.length < data.length := by
      rw [hdata]
      simp only [encEF, List.length_append, hlen4]
      omega
    have hlv : parse_varint_lazy data pre.length =
        some (t * 8 + 5, pre.length + (encVarint (t * 8 + 5)).length) := by
      rw [hdata, show encEF (EField.f32 t v) = encVarint (t * 8 + 5) ++ encFixed32 v from rfl,
        show pre ++ ((encVarint (t * 8 + 5) ++ encFixed32 v) ++ rest) =
        pre ++ (encVarint (t * 8 + 5) ++ (encFixed32 v ++ rest)) from by simp]
      exact parse_varint_lazy_enc pre _ _ htw
    have hend : pre.length + (encVarint (t * 8 + 5)).length + 4 =
        (pre ++ encEF (.f32 t v)).length := by
      simp [encEF, hlen4]
      try omega
    have hle : pre.length + (encVarint (t * 8 + 5)).length + 4 ≤ data.length := by
      rw [hdata]
      simp only [encEF, List.length_append, hlen4]
      omega
    have hlskip : skipPos parse_varint_lazy data
        (pre.length + (encVarint (t * 8 + 5)).length) 5 =
        some ((pre ++ encEF (.f32 t v)).length) := by
      rw [show skipPos parse_varint_lazy data
          (pre.length + (encVarint (t * 8 + 5)).length) 5 =
        (if pre.length + (encVarint (t * 8 + 5)).length + 4 ≤ data.length then
          some (pre.length + (encVarint (t * 8 + 5)).length + 4) else none) from rfl]
      rw [if_pos hle, hend]
    refine ⟨hguard, ?_, hlv, htag, hwire, hlskip, ?_, ?_⟩
    · rw [parse_varint_bytes_eq_lazy data hb]
      exact hlv
    · rw [skipPos_bytes_eq_lazy data hb]
      exact hlskip
    · intro p2 hp2
      exact EField.noConfusion hp2

end Otel

namespace Otel

/-- Wire type 2 pins down the field constructor. -/
theorem efWire_eq_two_iff (ef : EField) :
    efWire ef = 2 ↔ ∃ p, ef = .ld (efTag ef) p := by
  cases ef <;> simp [efWire, efTag]

theorem ldPayloads_nil (t0 : Nat) : ldPayloads [] t0 = [] := rfl

theorem ldPayloads_cons_ld (t : Nat) (p : Bytes) (efs : List EField) (t0 : Nat) :
    ldPayloads (.ld t p :: efs) t0 =
      if t = t0 then p :: ldPayloads efs t0 else ldPayloads efs t0 := by
  by_cases h : t = t0 <;> simp [ldPayloads, List.filterMap_cons, h]

theorem ldPayloads_cons_nonld (ef : EField) (efs : List EField) (t0 : Nat)
    (h : ¬efWire ef = 2) : ldPayloads (ef :: efs) t0 = ldPayloads efs t0 := by
  cases ef with
  | ld t p => exact absurd rfl h
  | v0 t v => simp [ldPayloads, List.filterMap_cons]
  | f64 t v => simp [ldPayloads, List.filterMap_cons]
  | f32 t v => simp [ldPayloads, List.filterMap_cons]

theorem ldPayloads_cons_netag (ef : EField) (efs : List EField) (t0 : Nat)
    (h : ¬efTag ef = t0) : ldPayloads (ef :: efs) t0 = ldPayloads efs t0 := by
  cases ef with
  | ld t p =>
    rw [ldPayloads_cons_ld, if_neg (by simpa [efTag] using h)]
  | v0 t v => simp [ldPayloads, List.filterMap_cons]
  | f64 t v => simp [ldPayloads, List.filterMap_cons]
  | f32 t v => simp [ldPayloads, List.filterMap_cons]

/-- The eager repeated-payload extraction (`parse_all_fields` + wire-type
check + `parse_length_delimited`, i.e. `kvItems`) over an encoded message of
arbitrary wire types returns exactly the payloads of its target-tagged
length-delimited fields, skipping varint, fixed64 and fixed32 fields. -/
theorem kvItemsE_enc_go (t0 : Nat) (data : Bytes) (hb : ∀ x ∈ data, x < 256) :
    ∀ (efs : List EField) (fuel : Nat) (pre : Bytes),
      data = pre ++ encMsg efs →
      efs.length + 1 ≤ fuel →
      (∀ ef ∈ efs, efOK ef) →
      (parse_all_fieldsF fuel data t0 pre.length).filterMap (fun f =>
          if f.1 = 2 then (parse_length_delimited_bytes data f.2).map Prod.fst
          else none) =
        ldPayloads efs t0 := by
  intro efs
  induction efs with
  | nil =>
    intro fuel pre hdata hfuel hok
    obtain ⟨fuel2, rfl⟩ : ∃ g, fuel = g + 1 := ⟨fuel - 1, by omega⟩
    have hlen : data.length = pre.length := by
      rw [hdata]
      simp [encMsg]
    rw [parse_all_fieldsF_succ, if_neg (by omega)]
    simp [ldPayloads]
  | cons ef efs ih =>
    intro fuel pre hdata hfuel hok
    obtain ⟨fuel2, rfl⟩ : ∃ g, fuel = g + 1 := ⟨fuel - 1, by omega⟩
    have hdata2 : data = pre ++ (encEF ef ++ encMsg efs) := by
      rw [hdata]
      simp [encMsg]
    have hokf := hok ef (List.mem_cons_self _ _)
    obtain ⟨hguard, hbv, hlv, htag, hwire, hlskip, hbskip, hld⟩ :=
      encEF_facts data pre (encMsg efs) ef hdata2 hb hokf
    have hdata3 : data = (pre ++ encEF ef) ++ encMsg efs := by
      rw [hdata2]
      simp
    have hok2 : ∀ g ∈ efs, efOK g := fun g hg => hok g (List.mem_cons_of_mem _ hg)
    have hih := ih fuel2 (pre ++ encEF ef) hdata3 (by
      simp only [List.length_cons] at hfuel
      omega) hok2
    rw [parse_all_fieldsF_succ, if_pos hguard, hbv]
    dsimp only
    rw [htag]
    by_cases htt : efTag ef = t0
    · rw [if_pos htt, hwire, hbskip]
      try dsimp only
      rw [List.filterMap_cons]
      by_cases hw2 : efWire ef = 2
      · obtain ⟨p, hp⟩ := (efWire_eq_two_iff ef).1 hw2
        obtain ⟨hlld, hbld⟩ := hld p hp
        dsimp only
        rw [if_pos hw2]
        rw [show parse_length_delimited_bytes data
            (pre.length + (encVarint (efTag ef * 8 + efWire ef)).length) =
          some (p, (pre ++ encEF ef).length) from hbld]
        rw [Option.map_some']
        try dsimp only
        rw [hih]
        conv_rhs => rw [hp]
        rw [ldPayloads_cons_ld, if_pos htt]
      · dsimp only
        rw [if_neg hw2]
        rw [hih, ldPayloads_cons_nonld ef efs t0 hw2]
    · rw [if_neg htt, hwire, hbskip]
      try dsimp only
      rw [hih, ldPayloads_cons_netag ef efs t0 htt]

/-- See `kvItemsE_enc_go`. -/
theorem kvItemsE_enc (efs : List EField) (t0 : Nat)
    (hb : ∀ x ∈ encMsg efs, x < 256) (hok : ∀ ef ∈ efs, efOK ef) :
    kvItems (encMsg efs) t0 = ldPayloads efs t0 := by
  rw [kvItems, parse_all_fields]
  have h := kvItemsE_enc_go t0 (encMsg efs) hb efs ((encMsg efs).length + 1) []
    (by simp) (by have := encMsg_length_ge efs; omega) hok
  simpa using h

/-- The cached tag-6 entries of an encoded message of arbitrary wire types:
`(wire_type, position)` per tag-6 field. -/
def attrEntriesE : Bytes → List EField → List (Nat × Nat)
  | _, [] => []
  | pre, ef :: efs =>
    (if efTag ef = 6 then
      [(efWire ef, pre.length + (encVarint (efTag ef * 8 + efWire ef)).length)]
     else []) ++ attrEntriesE (pre ++ encEF ef) efs

/-- The `get_cache` scan over an encoded message of arbitrary wire types
collects exactly the tag-6 entries into the attribute list, skipping the
other fields by wire type. -/
theorem getCacheE_attrs_enc_go (data : Bytes) (hb : ∀ x ∈ data, x < 256) :
    ∀ (efs : List EField) (fuel : Nat) (pre : Bytes) (c : FieldCacheE),
      data = pre ++ encMsg efs →
      efs.length + 1 ≤ fuel →
      (∀ ef ∈ efs, efOK ef) →
      (getCacheF fuel data pre.length c).attributes =
        c.attributes ++ attrEntriesE pre efs := by
  intro efs
  induction efs with
  | nil =>
    intro fuel pre c hdata hfuel hok
    obtain ⟨fuel2, rfl⟩ : ∃ g, fuel = g + 1 := ⟨fuel - 1, by omega⟩
    have hlen : data.length = pre.length := by
      rw [hdata]
      simp [encMsg]
    rw [getCacheF_succ, if_neg (by omega)]
    simp [attrEntriesE]
  | cons ef efs ih =>
    intro fuel pre c hdata hfuel hok
    obtain ⟨fuel2, rfl⟩ : ∃ g, fuel = g + 1 := ⟨fuel - 1, by omega⟩
    have hdata2 : data = pre ++ (encEF ef ++ encMsg efs) := by
      rw [hdata]
      simp [encMsg]
    have hokf := hok ef (List.mem_cons_self _ _)
    obtain ⟨hguard, hbv, hlv, htag, hwire, hlskip, hbskip, hld⟩ :=
      encEF_facts data pre (encMsg efs) ef hdata2 hb hokf
    have hdata3 : data = (pre ++ encEF ef) ++ encMsg efs := by
      rw [hdata2]
      simp
    have hok2 : ∀ g ∈ efs, efOK g := fun g hg => hok g (List.mem_cons_of_mem _ hg)
    rw [getCacheF_succ, if_pos hguard, hlv]
    dsimp only
    rw [hwire, hlskip]
    try dsimp only
    rw [htag]
    have hih := ih fuel2 (pre ++ encEF ef)
      (cacheUpdate c (efTag ef) (efWire ef)
        (pre.length + (encVarint (efTag ef * 8 + efWire ef)).length))
      hdata3 (by
        simp only [List.length_cons] at hfuel
        omega) hok2
    rw [hih, cacheUpdate_attributes]
    rw [show attrEntriesE pre (ef :: efs) =
      (if efTag ef = 6 then
        [(efWire ef, pre.length + (encVarint (efTag ef * 8 + efWire ef)).length)]
       else []) ++ attrEntriesE (pre ++ encEF ef) efs from rfl]
    by_cases h6 : efTag ef = 6
    · rw [if_pos h6, if_pos h6, List.append_assoc]
    · rw [if_neg h6, if_neg h6, List.nil_append]

/-- The cached attribute iterator over the cached entries of an encoded
message whose tag-6 fields are all length-delimited yields exactly the tag-6
payloads. -/
theorem cachedAttrsGoE_enc (data : Bytes) (hb : ∀ x ∈ data, x < 256) :
    ∀ (efs : List EField) (pre : Bytes),
      data = pre ++ encMsg efs →
      (∀ ef ∈ efs, efOK ef) →
      (∀ ef ∈ efs, efTag ef = 6 → efWire ef = 2) →
      cachedAttrsGo (attrEntriesE pre efs) data = ldPayloads efs 6 := by
  intro efs
  induction efs with
  | nil =>
    intro pre hdata hok h62
    simp [attrEntriesE, cachedAttrsGo, ldPayloads]
  | cons ef efs ih =>
    intro pre hdata hok h62
    have hdata2 : data = pre ++ (encEF ef ++ encMsg efs) := by
      rw [hdata]
      simp [encMsg]
    have hokf := hok ef (List.mem_cons_self _ _)
    obtain ⟨hguard, hbv, hlv, htag, hwire, hlskip, hbskip, hld⟩ :=
      encEF_facts data pre (encMsg efs) ef hdata2 hb hokf
    have hdata3 : data = (pre ++ encEF ef) ++ encMsg efs := by
      rw [hdata2]
      simp
    have hok2 : ∀ g ∈ efs, efOK g := fun g hg => hok g (List.mem_cons_of_mem _ hg)
    have h622 : ∀ g ∈ efs, efTag g = 6 → efWire g = 2 :=
      fun g hg => h62 g (List.mem_cons_of_mem _ hg)
    have hih := ih (pre ++ encEF ef) hdata3 hok2 h622
    rw [show attrEntriesE pre (ef :: efs) =
      (if efTag ef = 6 then
        [(efWire ef, pre.length + (encVarint (efTag ef * 8 + efWire ef)).length)]
       else []) ++ attrEntriesE (pre ++ encEF ef) efs from rfl]
    by_cases h6 : efTag ef = 6
    · have hw2 := h62 ef (List.mem_cons_self _ _) h6
      obtain ⟨p, hp⟩ := (efWire_eq_two_iff ef).1 hw2
      obtain ⟨hlld, hbld⟩ := hld p hp
      rw [if_pos h6, List.singleton_append]
      rw [show cachedAttrsGo
          ((efWire ef, pre.length + (encVarint (efTag ef * 8 + efWire ef)).length) ::
            attrEntriesE (pre ++ encEF ef) efs) data =
        (if efWire ef = 2 then
          match parse_length_delimited_lazy data
              (pre.length + (encVarint (efTag ef * 8 + efWire ef)).length) with
          | some (bytes, _) =>
            bytes :: cachedAttrsGo (attrEntriesE (pre ++ encEF ef) efs) data
          | none => []
         else []) from rfl]
      rw [if_pos hw2, hlld]
      try dsimp only
      rw [hih]
      conv_rhs => rw [hp]
      rw [ldPayloads_cons_ld, if_pos h6]
    · rw [if_neg h6, List.nil_append, hih,
        ldPayloads_cons_netag ef efs 6 h6]

/-- See `getCacheE_attrs_enc_go` and `cachedAttrsGoE_enc`: the lazy record
attribute payloads of an encoded message of arbitrary wire types. -/
theorem lazy_record_attrsE_enc (efs : List EField)
    (hb : ∀ x ∈ encMsg efs, x < 256) (hok : ∀ ef ∈ efs, efOK ef)
    (h62 : ∀ ef ∈ efs, efTag ef = 6 → efWire ef = 2) :
    lazy_record_attrs (encMsg efs) = ldPayloads efs 6 := by
  rw [lazy_record_attrs, get_cache]
  have h := getCacheE_attrs_enc_go (encMsg efs) hb efs ((encMsg efs).length + 1)
    [] {} (by simp) (by have := encMsg_length_ge efs; omega) hok
  rw [show (([] : Bytes)).length = 0 from rfl] at h
  rw [h]
  rw [show ({} : FieldCacheE).attributes = [] from rfl, List.nil_append]
  exact cachedAttrsGoE_enc (encMsg efs) hb efs [] (by simp) hok h62

end Otel

namespace Otel

/-! ## Spec-modelled baseline value tree

Modelled from the spec: the prost `AnyValue` with all seven branches of the
Value table — string (tag 1), bool (tag 2), int (tag 3), double (tag 4),
array (tag 5, repeated `AnyValue`), kvlist (tag 6, repeated `KeyValue`) and
bytes (tag 7) — and the `KeyValue` (key at tag 1, optional value at tag 2).
The mutual recursion is spelled with dedicated list and option types so that
every function on it is plain structural recursion. -/

mutual
/-- Modelled from the spec: a baseline `AnyValue`.  A `double` holds the raw
bit pattern of the `f64`. -/
inductive PAnyValue : Type where
  | str (s : Bytes)
  | boolv (b : Bool)
  | intv (v : Nat)
  | double (v : Nat)
  | array (vs : PAnyValueList)
  | kvlist (kvs : PKeyValueList)
  | bytes (bs : Bytes)

/-- Modelled from the spec: a list of `AnyValue`s (an `ArrayValue`). -/
inductive PAnyValueList : Type where
  | nil
  | cons (v : PAnyValue) (tl : PAnyValueList)

/-- Modelled from the spec: a baseline `KeyValue` — key plus optional
value. -/
inductive PKeyValue : Type where
  | mk (key : Bytes) (value : PValueOpt)

/-- Modelled from the spec: an optional `AnyValue`. -/
inductive PValueOpt : Type where
  | none
  | some (v : PAnyValue)

/-- Modelled from the spec: a list of `KeyValue`s (a `KeyValueList`). -/
inductive PKeyValueList : Type where
  | nil
  | cons (kv : PKeyValue) (tl : PKeyValueList)
end

/-- The key of a baseline attribute. -/
def PKeyValue.key : PKeyValue → Bytes
  | .mk k _ => k

mutual
/-- Modelled from the spec: field list of an encoded `AnyValue`, one field
per populated branch at its tag from the Value table, with the branch's wire
type. -/
def avFields : PAnyValue → List EField
  | .str s => [.ld 1 s]
  | .boolv b => [.v0 2 (if b then 1 else 0)]
  | .intv v => [.v0 3 v]
  | .double v => [.f64 4 v]
  | .array vs => avlFields vs
  | .kvlist kvs => kvlFields kvs
  | .bytes bs => [.ld 7 bs]

/-- Modelled from the spec: the repeated tag-5 fields of an `ArrayValue`. -/
def avlFields : PAnyValueList → List EField
  | .nil => []
  | .cons v tl => .ld 5 (encMsg (avFields v)) :: avlFields tl

/-- Modelled from the spec: the repeated tag-6 fields of a `KeyValueList`. -/
def kvlFields : PKeyValueList → List EField
  | .nil => []
  | .cons kv tl => .ld 6 (encFields (kvFields kv)) :: kvlFields tl

/-- Modelled from the spec: field list of an encoded `KeyValue` — the key at
tag 1, and when the value is set the `AnyValue` message at tag 2 (all fields
length-delimited). -/
def kvFields : PKeyValue → List (Nat × Bytes)
  | .mk key .none => [(1, key)]
  | .mk key (.some v) => [(1, key), (2, encMsg (avFields v))]
end

/-- Modelled from the spec: the encoded `AnyValue`. -/
def encAnyValue (v : PAnyValue) : Bytes := encMsg (avFields v)

/-- Modelled from the spec: the encoded `KeyValue`. -/
def encKeyValue (kv : PKeyValue) : Bytes := encFields (kvFields kv)

/-- Byte-range and 64-bit-size validity of a byte string. -/
def bytesOKb (s : Bytes) : Bool :=
  s.all (fun b => decide (b < 256)) && decide (s.length < 2 ^ 64)

/-- Validity of a string field: in-range bytes forming valid UTF-8. -/
def strOKb (s : Bytes) : Bool := bytesOKb s && utf8Valid s

mutual
/-- Validity of a baseline `AnyValue`: in-range payload bytes and 64-bit
values and sizes throughout. -/
def wfAV : PAnyValue → Bool
  | .str s => strOKb s
  | .boolv _ => true
  | .intv v => decide (v < 2 ^ 64)
  | .double v => decide (v < 2 ^ 64)
  | .array vs => wfAVL vs
  | .kvlist kvs => wfKVL kvs
  | .bytes bs => bytesOKb bs

/-- Validity of an `ArrayValue`'s elements, with each encoded element within
64-bit size. -/
def wfAVL : PAnyValueList → Bool
  | .nil => true
  | .cons v tl =>
    wfAV v && decide ((encMsg (avFields v)).length < 2 ^ 64) && wfAVL tl

/-- Validity of a `KeyValueList`'s elements, with each encoded element
within 64-bit size. -/
def wfKVL : PKeyValueList → Bool
  | .nil => true
  | .cons kv tl =>
    wfKV kv && decide ((encFields (kvFields kv)).length < 2 ^ 64) && wfKVL tl

/-- Validity of a baseline attribute: a nonempty valid-UTF-8 key and a valid
value of 64-bit encoded size. -/
def wfKV : PKeyValue → Bool
  | .mk key .none => decide (key ≠ []) && strOKb key
  | .mk key (.some v) =>
    decide (key ≠ []) && strOKb key && wfAV v &&
      decide ((encMsg (avFields v)).length < 2 ^ 64)
end

theorem bytesOKb_spec (s : Bytes) (h : bytesOKb s = true) :
    (∀ b ∈ s, b < 256) ∧ s.length < 2 ^ 64 := by
  simp [bytesOKb, List.all_eq_true] at h
  exact h

theorem strOKb_spec (s : Bytes) (h : strOKb s = true) :
    (∀ b ∈ s, b < 256) ∧ s.length < 2 ^ 64 ∧ utf8Valid s = true := by
  simp only [strOKb, Bool.and_eq_true] at h
  obtain ⟨hb, hu⟩ := h
  obtain ⟨h1, h2⟩ := bytesOKb_spec s hb
  exact ⟨h1, h2, hu⟩

mutual
/-- Encoded well-formed values consist of in-range payload bytes. -/
theorem avFields_bytesOK : ∀ (v : PAnyValue), wfAV v = true →
    ∀ ef ∈ avFields v, efBytesOK ef
  | .str s, h => by
    intro ef hef
    simp [avFields] at hef
    subst hef
    exact (strOKb_spec s h).1
  | .boolv b, _ => by
    intro ef hef
    simp [avFields] at hef
    subst hef
    exact trivial
  | .intv v, _ => by
    intro ef hef
    simp [avFields] at hef
    subst hef
    exact trivial
  | .double v, _ => by
    intro ef hef
    simp [avFields] at hef
    subst hef
    exact trivial
  | .array vs, h => by
    intro ef hef
    exact avlFields_bytesOK vs h ef hef
  | .kvlist kvs, h => by
    intro ef hef
    exact kvlFields_bytesOK kvs h ef hef
  | .bytes bs, h => by
    intro ef hef
    simp [avFields] at hef
    subst hef
    exact (bytesOKb_spec bs h).1

theorem avlFields_bytesOK : ∀ (vs : PAnyValueList), wfAVL vs = true →
    ∀ ef ∈ avlFields vs, efBytesOK ef
  | .nil, _ => by
    intro ef hef
    simp [avlFields] at hef
  | .cons v tl, h => by
    intro ef hef
    have h2 : (wfAV v && decide ((encMsg (avFields v)).length < 2 ^ 64) &&
        wfAVL tl) = true := h
    simp only [Bool.and_eq_true] at h2
    rcases List.mem_cons.1 hef with he | he
    · subst he
      exact encMsg_bytes_lt (avFields v) (avFields_bytesOK v h2.1.1)
    · exact avlFields_bytesOK tl h2.2 ef he

theorem kvlFields_bytesOK : ∀ (kvs : PKeyValueList), wfKVL kvs = true →
    ∀ ef ∈ kvlFields kvs, efBytesOK ef
  | .nil, _ => by
    intro ef hef
    simp [kvlFields] at hef
  | .cons kv tl, h => by
    intro ef hef
    have h2 : (wfKV kv && decide ((encFields (kvFields kv)).length < 2 ^ 64) &&
        wfKVL tl) = true := h
    simp only [Bool.and_eq_true] at h2
    rcases List.mem_cons.1 hef with he | he
    · subst he
      intro b hb
      exact encFields_bytes_lt (kvFields kv) (kvFields_bytesOK kv h2.1.1) b hb
    · exact kvlFields_bytesOK tl h2.2 ef he

theorem kvFields_bytesOK : ∀ (kv : PKeyValue), wfKV kv = true →
    ∀ f ∈ kvFields kv, ∀ b ∈ f.2, b < 256
  | .mk key .none, h => by
    intro f hf
    simp [kvFields] at hf
    subst hf
    have h2 : (decide (key ≠ []) && strOKb key) = true := h
    simp only [Bool.and_eq_true] at h2
    exact (strOKb_spec key h2.2).1
  | .mk key (.some v), h => by
    intro f hf
    have h2 : (decide (key ≠ []) && strOKb key && wfAV v &&
        decide ((encMsg (avFields v)).length < 2 ^ 64)) = true := h
    simp only [Bool.and_eq_true] at h2
    simp [kvFields] at hf
    rcases hf with he | he
    · subst he
      exact (strOKb_spec key h2.1.1.2).1
    · subst he
      exact encMsg_bytes_lt (avFields v) (avFields_bytesOK v h2.1.2)
end

/-- Per-field side conditions of an encoded well-formed array. -/
theorem avlFields_ok : ∀ (vs : PAnyValueList), wfAVL vs = true →
    ∀ ef ∈ avlFields vs, efOK ef
  | .nil, _ => by
    intro ef hef
    simp [avlFields] at hef
  | .cons v tl, h => by
    intro ef hef
    have h2 : (wfAV v && decide ((encMsg (avFields v)).length < 2 ^ 64) &&
        wfAVL tl) = true := h
    simp only [Bool.and_eq_true, decide_eq_true_eq] at h2
    rw [show avlFields (.cons v tl) =
      .ld 5 (encMsg (avFields v)) :: avlFields tl from rfl] at hef
    rcases List.mem_cons.1 hef with he | he
    · subst he
      exact ⟨by norm_num, h2.1.2⟩
    · exact avlFields_ok tl h2.2 ef he

/-- Per-field side conditions of an encoded well-formed key-value list. -/
theorem kvlFields_ok : ∀ (kvs : PKeyValueList), wfKVL kvs = true →
    ∀ ef ∈ kvlFields kvs, efOK ef
  | .nil, _ => by
    intro ef hef
    simp [kvlFields] at hef
  | .cons kv tl, h => by
    intro ef hef
    have h2 : (wfKV kv && decide ((encFields (kvFields kv)).length < 2 ^ 64) &&
        wfKVL tl) = true := h
    simp only [Bool.and_eq_true, decide_eq_true_eq] at h2
    rw [show kvlFields (.cons kv tl) =
      .ld 6 (encFields (kvFields kv)) :: kvlFields tl from rfl] at hef
    rcases List.mem_cons.1 hef with he | he
    · subst he
      exact ⟨by norm_num, h2.1.2⟩
    · exact kvlFields_ok tl h2.2 ef he

/-- Per-field side conditions of an encoded well-formed value. -/
theorem avFields_ok (v : PAnyValue) (h : wfAV v = true) :
    ∀ ef ∈ avFields v, efOK ef := by
  cases v with
  | str s =>
    intro ef hef
    simp [avFields] at hef
    subst hef
    exact ⟨by norm_num, (strOKb_spec s h).2.1⟩
  | boolv b =>
    intro ef hef
    simp [avFields] at hef
    subst hef
    refine ⟨by norm_num, ?_⟩
    cases b <;> norm_num
  | intv v =>
    intro ef hef
    simp [avFields] at hef
    subst hef
    simp [wfAV] at h
    exact ⟨by norm_num, h⟩
  | double v =>
    intro ef hef
    simp [avFields] at hef
    subst hef
    norm_num [efOK]
  | array vs =>
    intro ef hef
    exact avlFields_ok vs h ef hef
  | kvlist kvs =>
    intro ef hef
    exact kvlFields_ok kvs h ef hef
  | bytes bs =>
    intro ef hef
    simp [avFields] at hef
    subst hef
    exact ⟨by norm_num, (bytesOKb_spec bs h).2⟩

/-- Per-field side conditions of an encoded well-formed attribute. -/
theorem kvFields_ok (kv : PKeyValue) (h : wfKV kv = true) :
    fieldsOK (kvFields kv) := by
  cases kv with
  | mk key value =>
    cases value with
    | none =>
      intro f hf
      have h2 : (decide (key ≠ []) && strOKb key) = true := h
      simp only [Bool.and_eq_true] at h2
      simp [kvFields] at hf
      subst hf
      exact ⟨by norm_num, (strOKb_spec key h2.2).2.1⟩
    | some v =>
      intro f hf
      have h2 : (decide (key ≠ []) && strOKb key && wfAV v &&
          decide ((encMsg (avFields v)).length < 2 ^ 64)) = true := h
      simp only [Bool.and_eq_true, decide_eq_true_eq] at h2
      simp [kvFields] at hf
      rcases hf with he | he
      · subst he
        exact ⟨by norm_num, (strOKb_spec key h2.1.1.2).2.1⟩
      · subst he
        exact ⟨by norm_num, h2.2⟩

end Otel

namespace Otel

/-! ## Spec-modelled baseline tree, full tag tables

Modelled from the spec: the prost object tree with the complete tag table of
each message — `Resource` (attributes 1, dropped count 2),
`InstrumentationScope` (name 1, version 2, attributes 3, dropped count 4),
`LogRecord` (time 1/fixed64, severity number 2/varint, severity text 3,
body 5, attributes 6, dropped count 7/varint, flags 8/fixed32, trace id 9,
span id 10, observed time 11/fixed64, event name 12), `ScopeLogs` (scope 1,
records 2, schema url 3), `ResourceLogs` (resource 1, scopes 2,
schema url 3) and `LogsData` (resource logs 1).  Unset optional fields are
absent from the encoding. -/

/-- Modelled from the spec: a baseline `Resource`. -/
structure PResource where
  attributes : List PKeyValue
  dropped_attributes_count : Option Nat

/-- Modelled from the spec: field list of an encoded `Resource`. -/
def resFields (r : PResource) : List EField :=
  r.attributes.map (fun kv => EField.ld 1 (encKeyValue kv)) ++
  (r.dropped_attributes_count.map (fun v => EField.v0 2 v)).toList

/-- Modelled from the spec: the encoded `Resource`. -/
def encResource (r : PResource) : Bytes := encMsg (resFields r)

/-- Modelled from the spec: a baseline `InstrumentationScope`. -/
structure PInstrumentationScope where
  name : Option Bytes
  version : Option Bytes
  attributes : List PKeyValue
  dropped_attributes_count : Option Nat

/-- Modelled from the spec: field list of an encoded
`InstrumentationScope`. -/
def isFields (s : PInstrumentationScope) : List EField :=
  (s.name.map (fun n => EField.ld 1 n)).toList ++
  ((s.version.map (fun n => EField.ld 2 n)).toList ++
  (s.attributes.map (fun kv => EField.ld 3 (encKeyValue kv)) ++
  (s.dropped_attributes_count.map (fun v => EField.v0 4 v)).toList))

/-- Modelled from the spec: the encoded `InstrumentationScope`. -/
def encIScope (s : PInstrumentationScope) : Bytes := encMsg (isFields s)

/-- Modelled from the spec: a baseline `LogRecord` with its full field
set. -/
structure PLogRecord where
  time_unix_nano : Option Nat
  severity_number : Option Nat
  severity_text : Option Bytes
  body : Option PAnyValue
  attributes : List PKeyValue
  dropped_attributes_count : Option Nat
  flags : Option Nat
  trace_id : Option Bytes
  span_id : Option Bytes
  observed_time_unix_nano : Option Nat
  event_name : Option Bytes

/-- Modelled from the spec: field list of an encoded `LogRecord`, in tag
order, each field with its wire type from the tag table. -/
def lrFields (lr : PLogRecord) : List EField :=
  (lr.time_unix_nano.map (fun v => EField.f64 1 v)).toList ++
  ((lr.severity_number.map (fun v => EField.v0 2 v)).toList ++
  ((lr.severity_text.map (fun s => EField.ld 3 s)).toList ++
  ((lr.body.map (fun v => EField.ld 5 (encAnyValue v))).toList ++
  (lr.attributes.map (fun kv => EField.ld 6 (encKeyValue kv)) ++
  ((lr.dropped_attributes_count.map (fun v => EField.v0 7 v)).toList ++
  ((lr.flags.map (fun v => EField.f32 8 v)).toList ++
  ((lr.trace_id.map (fun s => EField.ld 9 s)).toList ++
  ((lr.span_id.map (fun s => EField.ld 10 s)).toList ++
  ((lr.observed_time_unix_nano.map (fun v => EField.f64 11 v)).toList ++
  (lr.event_name.map (fun s => EField.ld 12 s)).toList)))))))))

/-- Modelled from the spec: the encoded `LogRecord`. -/
def encLogRecord (lr : PLogRecord) : Bytes := encMsg (lrFields lr)

/-- Modelled from the spec: a baseline `ScopeLogs`. -/
structure PScopeLogs where
  scope : Option PInstrumentationScope
  log_records : List PLogRecord
  schema_url : Option Bytes

/-- Modelled from the spec: field list of an encoded `ScopeLogs` (all fields
length-delimited). -/
def slFields (sl : PScopeLogs) : List (Nat × Bytes) :=
  (sl.scope.map (fun s => (1, encIScope s))).toList ++
  (sl.log_records.map (fun lr => (2, encLogRecord lr)) ++
  (sl.schema_url.map (fun u => (3, u))).toList)

/-- Modelled from the spec: the encoded `ScopeLogs`. -/
def encScopeLogs (sl : PScopeLogs) : Bytes := encFields (slFields sl)

/-- Modelled from the spec: a baseline `ResourceLogs`. -/
structure PResourceLogs where
  resource : Option PResource
  scope_logs : List PScopeLogs
  schema_url : Option Bytes

/-- Modelled from the spec: field list of an encoded `ResourceLogs` (all
fields length-delimited). -/
def rlFields (rl : PResourceLogs) : List (Nat × Bytes) :=
  (rl.resource.map (fun r => (1, encResource r))).toList ++
  (rl.scope_logs.map (fun sl => (2, encScopeLogs sl)) ++
  (rl.schema_url.map (fun u => (3, u))).toList)

/-- Modelled from the spec: the encoded `ResourceLogs`. -/
def encResourceLogs (rl : PResourceLogs) : Bytes := encFields (rlFields rl)

/-- Modelled from the spec: a baseline `LogsData`. -/
structure PLogsData where
  resource_logs : List PResourceLogs

/-- Modelled from the spec: field list of an encoded `LogsData`. -/
def ldFields (d : PLogsData) : List (Nat × Bytes) :=
  d.resource_logs.map (fun rl => (1, encResourceLogs rl))

/-- Modelled from the spec: the encoded `LogsData`. -/
def encLogsData (d : PLogsData) : Bytes := encFields (ldFields d)

/-- The four counts of the benchmark traversal (`traverse_logs`), computed on
the baseline tree, whose view impls iterate the plain `Vec`s: resources,
scopes, log records, record attributes. -/
def pCounts (d : PLogsData) : Nat × Nat × Nat × Nat :=
  (d.resource_logs.length,
   (d.resource_logs.map (fun r => r.scope_logs.length)).sum,
   (d.resource_logs.map (fun r =>
     (r.scope_logs.map (fun sl => sl.log_records.length)).sum)).sum,
   (d.resource_logs.map (fun r =>
     (r.scope_logs.map (fun sl =>
       (sl.log_records.map (fun lr => lr.attributes.length)).sum)).sum)).sum)

/-- Validity of a 64-bit scalar. -/
def natOKb (v : Nat) : Bool := decide (v < 2 ^ 64)

/-- Validity of an attribute list, each with 64-bit encoded size. -/
def wfKVs (l : List PKeyValue) : Bool :=
  l.all (fun kv => wfKV kv && decide ((encKeyValue kv).length < 2 ^ 64))

/-- Validity of a baseline `Resource`. -/
def wfRes (r : PResource) : Bool :=
  wfKVs r.attributes && r.dropped_attributes_count.all natOKb

/-- Validity of a baseline `InstrumentationScope`. -/
def wfIS (s : PInstrumentationScope) : Bool :=
  s.name.all strOKb && s.version.all strOKb && wfKVs s.attributes &&
    s.dropped_attributes_count.all natOKb

/-- Validity of a baseline `LogRecord`. -/
def wfLR (lr : PLogRecord) : Bool :=
  lr.time_unix_nano.all natOKb && lr.severity_number.all natOKb &&
  lr.severity_text.all strOKb &&
  lr.body.all (fun v => wfAV v && decide ((encAnyValue v).length < 2 ^ 64)) &&
  wfKVs lr.attributes &&
  lr.dropped_attributes_count.all natOKb && lr.flags.all natOKb &&
  lr.trace_id.all bytesOKb && lr.span_id.all bytesOKb &&
  lr.observed_time_unix_nano.all natOKb && lr.event_name.all strOKb

/-- Validity of a baseline `ScopeLogs`. -/
def wfSL (sl : PScopeLogs) : Bool :=
  sl.scope.all (fun s => wfIS s && decide ((encIScope s).length < 2 ^ 64)) &&
  sl.log_records.all (fun lr =>
    wfLR lr && decide ((encLogRecord lr).length < 2 ^ 64)) &&
  sl.schema_url.all strOKb

/-- Validity of a baseline `ResourceLogs`. -/
def wfRL (rl : PResourceLogs) : Bool :=
  rl.resource.all (fun r => wfRes r && decide ((encResource r).length < 2 ^ 64)) &&
  rl.scope_logs.all (fun sl =>
    wfSL sl && decide ((encScopeLogs sl).length < 2 ^ 64)) &&
  rl.schema_url.all strOKb

/-- Validity of a baseline `LogsData`. -/
def wfLD (d : PLogsData) : Bool :=
  d.resource_logs.all (fun rl =>
    wfRL rl && decide ((encResourceLogs rl).length < 2 ^ 64))

theorem optAll_spec {α : Type} (p : α → Bool) {o : Option α}
    (h : o.all p = true) : ∀ a, o = some a → p a = true := by
  cases o with
  | none =>
    intro a ha
    exact Option.noConfusion ha
  | some b =>
    intro a ha
    injection ha with ha2
    subst ha2
    simpa [Option.all] using h

theorem listAll_spec {α : Type} (p : α → Bool) {l : List α}
    (h : l.all p = true) : ∀ a ∈ l, p a = true := by
  simpa [List.all_eq_true] using h

theorem wfKVs_spec (l : List PKeyValue) (h : wfKVs l = true) :
    ∀ kv ∈ l, wfKV kv = true ∧ (encKeyValue kv).length < 2 ^ 64 := by
  intro kv hkv
  have h2 := listAll_spec _ h kv hkv
  simpa [Bool.and_eq_true] using h2

theorem wfLR_spec (lr : PLogRecord) (h : wfLR lr = true) :
    lr.time_unix_nano.all natOKb = true ∧
    lr.severity_number.all natOKb = true ∧
    lr.severity_text.all strOKb = true ∧
    lr.body.all (fun v => wfAV v &&
      decide ((encAnyValue v).length < 2 ^ 64)) = true ∧
    wfKVs lr.attributes = true ∧
    lr.dropped_attributes_count.all natOKb = true ∧
    lr.flags.all natOKb = true ∧
    lr.trace_id.all bytesOKb = true ∧
    lr.span_id.all bytesOKb = true ∧
    lr.observed_time_unix_nano.all natOKb = true ∧
    lr.event_name.all strOKb = true := by
  simpa [wfLR, Bool.and_eq_true, and_assoc] using h

theorem wfSL_spec (sl : PScopeLogs) (h : wfSL sl = true) :
    sl.scope.all (fun s => wfIS s &&
      decide ((encIScope s).length < 2 ^ 64)) = true ∧
    sl.log_records.all (fun lr =>
      wfLR lr && decide ((encLogRecord lr).length < 2 ^ 64)) = true ∧
    sl.schema_url.all strOKb = true := by
  simpa [wfSL, Bool.and_eq_true, and_assoc] using h

theorem wfRL_spec (rl : PResourceLogs) (h : wfRL rl = true) :
    rl.resource.all (fun r => wfRes r &&
      decide ((encResource r).length < 2 ^ 64)) = true ∧
    rl.scope_logs.all (fun sl =>
      wfSL sl && decide ((encScopeLogs sl).length < 2 ^ 64)) = true ∧
    rl.schema_url.all strOKb = true := by
  simpa [wfRL, Bool.and_eq_true, and_assoc] using h

theorem wfIS_spec (s : PInstrumentationScope) (h : wfIS s = true) :
    s.name.all strOKb = true ∧ s.version.all strOKb = true ∧
    wfKVs s.attributes = true ∧
    s.dropped_attributes_count.all natOKb = true := by
  simpa [wfIS, Bool.and_eq_true, and_assoc] using h

theorem wfRes_spec (r : PResource) (h : wfRes r = true) :
    wfKVs r.attributes = true ∧
    r.dropped_attributes_count.all natOKb = true := by
  simpa [wfRes, Bool.and_eq_true, and_assoc] using h

theorem wfLD_spec (d : PLogsData) (h : wfLD d = true) :
    ∀ rl ∈ d.resource_logs,
      wfRL rl = true ∧ (encResourceLogs rl).length < 2 ^ 64 := by
  intro rl hrl
  have h2 := listAll_spec _ h rl hrl
  simpa [Bool.and_eq_true] using h2

end Otel

namespace Otel

theorem mem_optMap {α β : Type} {f : α → β} {o : Option α} {x : β}
    (h : x ∈ (Option.map f o).toList) : ∃ a, o = some a ∧ x = f a := by
  cases o with
  | none => simp at h
  | some a =>
    simp at h
    exact ⟨a, rfl, h⟩

theorem optAll_nat {o : Option Nat} (h : o.all natOKb = true) :
    ∀ v, o = some v → v < 2 ^ 64 := by
  intro v hv
  have h2 := optAll_spec natOKb h v hv
  simpa [natOKb] using h2

theorem optAll_str {o : Option Bytes} (h : o.all strOKb = true) :
    ∀ s, o = some s →
      (∀ b ∈ s, b < 256) ∧ s.length < 2 ^ 64 ∧ utf8Valid s = true := by
  intro s hs
  exact strOKb_spec s (optAll_spec strOKb h s hs)

theorem optAll_bytes {o : Option Bytes} (h : o.all bytesOKb = true) :
    ∀ s, o = some s → (∀ b ∈ s, b < 256) ∧ s.length < 2 ^ 64 := by
  intro s hs
  exact bytesOKb_spec s (optAll_spec bytesOKb h s hs)

/-- Each field of an encoded `LogRecord` comes from one of the record's
twelve components. -/
theorem lrFields_cases (lr : PLogRecord) (ef : EField) (hef : ef ∈ lrFields lr) :
    (∃ v, lr.time_unix_nano = some v ∧ ef = .f64 1 v) ∨
    (∃ v, lr.severity_number = some v ∧ ef = .v0 2 v) ∨
    (∃ s, lr.severity_text = some s ∧ ef = .ld 3 s) ∨
    (∃ v, lr.body = some v ∧ ef = .ld 5 (encAnyValue v)) ∨
    (∃ kv, kv ∈ lr.attributes ∧ ef = .ld 6 (encKeyValue kv)) ∨
    (∃ v, lr.dropped_attributes_count = some v ∧ ef = .v0 7 v) ∨
    (∃ v, lr.flags = some v ∧ ef = .f32 8 v) ∨
    (∃ s, lr.trace_id = some s ∧ ef = .ld 9 s) ∨
    (∃ s, lr.span_id = some s ∧ ef = .ld 10 s) ∨
    (∃ v, lr.observed_time_unix_nano = some v ∧ ef = .f64 11 v) ∨
    (∃ s, lr.event_name = some s ∧ ef = .ld 12 s) := by
  rw [lrFields] at hef
  rcases List.mem_append.1 hef with h1 | hef
  · exact Or.inl (mem_optMap h1)
  rcases List.mem_append.1 hef with h1 | hef
  · exact Or.inr (Or.inl (mem_optMap h1))
  rcases List.mem_append.1 hef with h1 | hef
  · exact Or.inr (Or.inr (Or.inl (mem_optMap h1)))
  rcases List.mem_append.1 hef with h1 | hef
  · exact Or.inr (Or.inr (Or.inr (Or.inl (mem_optMap h1))))
  rcases List.mem_append.1 hef with h1 | hef
  · obtain ⟨kv, hkv, he⟩ := List.mem_map.1 h1
    exact Or.inr (Or.inr (Or.inr (Or.inr (Or.inl ⟨kv, hkv, he.symm⟩))))
  rcases List.mem_append.1 hef with h1 | hef
  · exact Or.inr (Or.inr (Or.inr (Or.inr (Or.inr (Or.inl (mem_optMap h1))))))
  rcases List.mem_append.1 hef with h1 | hef
  · exact Or.inr (Or.inr (Or.inr (Or.inr (Or.inr (Or.inr (Or.inl
      (mem_optMap h1)))))))
  rcases List.mem_append.1 hef with h1 | hef
  · exact Or.inr (Or.inr (Or.inr (Or.inr (Or.inr (Or.inr (Or.inr (Or.inl
      (mem_optMap h1))))))))
  rcases List.mem_append.1 hef with h1 | hef
  · exact Or.inr (Or.inr (Or.inr (Or.inr (Or.inr (Or.inr (Or.inr (Or.inr
      (Or.inl (mem_optMap h1)))))))))
  rcases List.mem_append.1 hef with h1 | h1
  · exact Or.inr (Or.inr (Or.inr (Or.inr (Or.inr (Or.inr (Or.inr (Or.inr
      (Or.inr (Or.inl (mem_optMap h1))))))))))
  · exact Or.inr (Or.inr (Or.inr (Or.inr (Or.inr (Or.inr (Or.inr (Or.inr
      (Or.inr (Or.inr (mem_optMap h1))))))))))

/-- Per-field side conditions of a well-formed encoded `LogRecord`. -/
theorem lrFields_ok (lr : PLogRecord) (h : wfLR lr = true) :
    ∀ ef ∈ lrFields lr, efOK ef := by
  obtain ⟨ht, hsn, hst, hbd, hat, hdr, hfl, htr, hsp, hob, hev⟩ := wfLR_spec lr h
  intro ef hef
  rcases lrFields_cases lr ef hef with
    ⟨v, hv, he⟩ | ⟨v, hv, he⟩ | ⟨s, hv, he⟩ | ⟨v, hv, he⟩ | ⟨kv, hkv, he⟩ |
    ⟨v, hv, he⟩ | ⟨v, hv, he⟩ | ⟨s, hv, he⟩ | ⟨s, hv, he⟩ | ⟨v, hv, he⟩ |
    ⟨s, hv, he⟩
  · subst he
    norm_num [efOK]
  · subst he
    exact ⟨by norm_num, optAll_nat hsn v hv⟩
  · subst he
    exact ⟨by norm_num, (optAll_str hst s hv).2.1⟩
  · subst he
    have h2 := optAll_spec _ hbd v hv
    simp only [Bool.and_eq_true, decide_eq_true_eq] at h2
    exact ⟨by norm_num, h2.2⟩
  · subst he
    exact ⟨by norm_num, (wfKVs_spec lr.attributes hat kv hkv).2⟩
  · subst he
    exact ⟨by norm_num, optAll_nat hdr v hv⟩
  · subst he
    norm_num [efOK]
  · subst he
    exact ⟨by norm_num, (optAll_bytes htr s hv).2⟩
  · subst he
    exact ⟨by norm_num, (optAll_bytes hsp s hv).2⟩
  · subst he
    norm_num [efOK]
  · subst he
    exact ⟨by norm_num, (optAll_str hev s hv).2.1⟩

/-- Byte-range condition of a well-formed encoded `LogRecord`'s fields. -/
theorem lrFields_bytesOK (lr : PLogRecord) (h : wfLR lr = true) :
    ∀ ef ∈ lrFields lr, efBytesOK ef := by
  obtain ⟨ht, hsn, hst, hbd, hat, hdr, hfl, htr, hsp, hob, hev⟩ := wfLR_spec lr h
  intro ef hef
  rcases lrFields_cases lr ef hef with
    ⟨v, hv, he⟩ | ⟨v, hv, he⟩ | ⟨s, hv, he⟩ | ⟨v, hv, he⟩ | ⟨kv, hkv, he⟩ |
    ⟨v, hv, he⟩ | ⟨v, hv, he⟩ | ⟨s, hv, he⟩ | ⟨s, hv, he⟩ | ⟨v, hv, he⟩ |
    ⟨s, hv, he⟩
  · subst he
    exact trivial
  · subst he
    exact trivial
  · subst he
    exact (optAll_str hst s hv).1
  · subst he
    have h2 := optAll_spec _ hbd v hv
    simp only [Bool.and_eq_true, decide_eq_true_eq] at h2
    exact encMsg_bytes_lt (avFields v) (avFields_bytesOK v h2.1)
  · subst he
    exact encFields_bytes_lt (kvFields kv)
      (kvFields_bytesOK kv (wfKVs_spec lr.attributes hat kv hkv).1)
  · subst he
    exact trivial
  · subst he
    exact trivial
  · subst he
    exact (optAll_bytes htr s hv).1
  · subst he
    exact (optAll_bytes hsp s hv).1
  · subst he
    exact trivial
  · subst he
    exact (optAll_str hev s hv).1

/-- In an encoded `LogRecord`, every tag-6 field is length-delimited. -/
theorem lrFields_tag6 (lr : PLogRecord) :
    ∀ ef ∈ lrFields lr, efTag ef = 6 → efWire ef = 2 := by
  intro ef hef
  rcases lrFields_cases lr ef hef with
    ⟨v, hv, he⟩ | ⟨v, hv, he⟩ | ⟨s, hv, he⟩ | ⟨v, hv, he⟩ | ⟨kv, hkv, he⟩ |
    ⟨v, hv, he⟩ | ⟨v, hv, he⟩ | ⟨s, hv, he⟩ | ⟨s, hv, he⟩ | ⟨v, hv, he⟩ |
    ⟨s, hv, he⟩ <;> subst he <;> intro h6
  · simp [efTag] at h6
  · simp [efTag] at h6
  · simp [efTag] at h6
  · simp [efTag] at h6
  · rfl
  · simp [efTag] at h6
  · simp [efTag] at h6
  · simp [efTag] at h6
  · simp [efTag] at h6
  · simp [efTag] at h6
  · simp [efTag] at h6

end Otel

namespace Otel

theorem ldPayloads_append (a b : List EField) (t : Nat) :
    ldPayloads (a ++ b) t = ldPayloads a t ++ ldPayloads b t := by
  simp [ldPayloads]

theorem ldPayloads_optF64 (t' : Nat) (o : Option Nat) (t : Nat) :
    ldPayloads (Option.map (fun v => EField.f64 t' v) o).toList t = [] := by
  cases o with
  | none => rfl
  | some a =>
    show ldPayloads [EField.f64 t' a] t = []
    rw [ldPayloads_cons_nonld _ _ _ (by simp [efWire])]
    rfl

theorem ldPayloads_optV0 (t' : Nat) (o : Option Nat) (t : Nat) :
    ldPayloads (Option.map (fun v => EField.v0 t' v) o).toList t = [] := by
  cases o with
  | none => rfl
  | some a =>
    show ldPayloads [EField.v0 t' a] t = []
    rw [ldPayloads_cons_nonld _ _ _ (by simp [efWire])]
    rfl

theorem ldPayloads_optF32 (t' : Nat) (o : Option Nat) (t : Nat) :
    ldPayloads (Option.map (fun v => EField.f32 t' v) o).toList t = [] := by
  cases o with
  | none => rfl
  | some a =>
    show ldPayloads [EField.f32 t' a] t = []
    rw [ldPayloads_cons_nonld _ _ _ (by simp [efWire])]
    rfl

theorem ldPayloads_optLd {α : Type} (t' : Nat) (g : α → Bytes) (o : Option α)
    (t : Nat) (h : ¬t' = t) :
    ldPayloads (Option.map (fun a => EField.ld t' (g a)) o).toList t = [] := by
  cases o with
  | none => rfl
  | some a =>
    show ldPayloads [EField.ld t' (g a)] t = []
    rw [ldPayloads_cons_ld, if_neg h]
    rfl

theorem ldPayloads_optLdId (t' : Nat) (o : Option Bytes) (t : Nat)
    (h : ¬t' = t) :
    ldPayloads (Option.map (fun s => EField.ld t' s) o).toList t = [] := by
  cases o with
  | none => rfl
  | some a =>
    show ldPayloads [EField.ld t' a] t = []
    rw [ldPayloads_cons_ld, if_neg h]
    rfl

theorem ldPayloads_mapLd {α : Type} (t : Nat) (g : α → Bytes) (l : List α) :
    ldPayloads (l.map (fun a => EField.ld t (g a))) t = l.map g := by
  induction l with
  | nil => rfl
  | cons a l ih =>
    rw [List.map_cons, ldPayloads_cons_ld, if_pos rfl, ih, List.map_cons]

/-- The tag-6 length-delimited payloads of an encoded `LogRecord` are its
encoded attributes, in order. -/
theorem lrFields_payloads6 (lr : PLogRecord) :
    ldPayloads (lrFields lr) 6 = lr.attributes.map encKeyValue := by
  rw [lrFields]
  simp only [ldPayloads_append, ldPayloads_optF64, ldPayloads_optV0,
    ldPayloads_optF32]
  rw [ldPayloads_optLdId 3 lr.severity_text 6 (by norm_num),
    ldPayloads_optLd 5 encAnyValue lr.body 6 (by norm_num),
    ldPayloads_optLdId 9 lr.trace_id 6 (by norm_num),
    ldPayloads_optLdId 10 lr.span_id 6 (by norm_num),
    ldPayloads_optLdId 12 lr.event_name 6 (by norm_num),
    ldPayloads_mapLd 6 encKeyValue lr.attributes]
  simp

/-- Byte-range condition of a well-formed encoded `Resource`'s fields. -/
theorem resFields_bytesOK (r : PResource) (h : wfRes r = true) :
    ∀ ef ∈ resFields r, efBytesOK ef := by
  obtain ⟨ha, hd⟩ := wfRes_spec r h
  intro ef hef
  rw [resFields] at hef
  rcases List.mem_append.1 hef with h1 | h1
  · obtain ⟨kv, hkv, he⟩ := List.mem_map.1 h1
    subst he
    exact encFields_bytes_lt (kvFields kv)
      (kvFields_bytesOK kv (wfKVs_spec r.attributes ha kv hkv).1)
  · obtain ⟨v, hv, he⟩ := mem_optMap h1
    subst he
    exact trivial

/-- Byte-range condition of a well-formed encoded
`InstrumentationScope`'s fields. -/
theorem isFields_bytesOK (s : PInstrumentationScope) (h : wfIS s = true) :
    ∀ ef ∈ isFields s, efBytesOK ef := by
  obtain ⟨hn, hv, ha, hd⟩ := wfIS_spec s h
  intro ef hef
  rw [isFields] at hef
  rcases List.mem_append.1 hef with h1 | hef
  · obtain ⟨n, hsome, he⟩ := mem_optMap h1
    subst he
    exact (optAll_str hn n hsome).1
  rcases List.mem_append.1 hef with h1 | hef
  · obtain ⟨n, hsome, he⟩ := mem_optMap h1
    subst he
    exact (optAll_str hv n hsome).1
  rcases List.mem_append.1 hef with h1 | h1
  · obtain ⟨kv, hkv, he⟩ := List.mem_map.1 h1
    subst he
    exact encFields_bytes_lt (kvFields kv)
      (kvFields_bytesOK kv (wfKVs_spec s.attributes ha kv hkv).1)
  · obtain ⟨w, hw, he⟩ := mem_optMap h1
    subst he
    exact trivial

end Otel

namespace Otel

theorem filter_optPair_ne {α : Type} (t' : Nat) (g : α → Bytes) (o : Option α)
    (t : Nat) (h : (t' == t) = false) :
    (Option.map (fun a => (t', g a)) o).toList.filter (fun f => f.1 == t) = [] := by
  cases o with
  | none => rfl
  | some a =>
    show List.filter (fun f => f.1 == t) [(t', g a)] = []
    simp [List.filter_cons, h]

theorem filter_optPairId_ne (t' : Nat) (o : Option Bytes) (t : Nat)
    (h : (t' == t) = false) :
    (Option.map (fun u => (t', u)) o).toList.filter (fun f => f.1 == t) = [] := by
  cases o with
  | none => rfl
  | some a =>
    show List.filter (fun f => f.1 == t) [(t', a)] = []
    simp [List.filter_cons, h]

/-- Each field of an encoded `ScopeLogs` comes from one of its three
components. -/
theorem slFields_cases (sl : PScopeLogs) (f : Nat × Bytes)
    (hf : f ∈ slFields sl) :
    (∃ s, sl.scope = some s ∧ f = (1, encIScope s)) ∨
    (∃ lr, lr ∈ sl.log_records ∧ f = (2, encLogRecord lr)) ∨
    (∃ u, sl.schema_url = some u ∧ f = (3, u)) := by
  rw [slFields] at hf
  rcases List.mem_append.1 hf with h1 | hf
  · exact Or.inl (mem_optMap h1)
  rcases List.mem_append.1 hf with h1 | h1
  · obtain ⟨lr, hlr, he⟩ := List.mem_map.1 h1
    exact Or.inr (Or.inl ⟨lr, hlr, he.symm⟩)
  · exact Or.inr (Or.inr (mem_optMap h1))

/-- The payloads of a well-formed encoded `ScopeLogs` consist of bytes. -/
theorem slFields_bytes (sl : PScopeLogs) (h : wfSL sl = true) :
    ∀ f ∈ slFields sl, ∀ b ∈ f.2, b < 256 := by
  obtain ⟨hsc, hrec, hurl⟩ := wfSL_spec sl h
  intro f hf
  rcases slFields_cases sl f hf with
    ⟨s, hsome, he⟩ | ⟨lr, hlr, he⟩ | ⟨u, hsome, he⟩
  · subst he
    have h2 := optAll_spec _ hsc s hsome
    simp only [Bool.and_eq_true, decide_eq_true_eq] at h2
    exact encMsg_bytes_lt (isFields s) (isFields_bytesOK s h2.1)
  · subst he
    have h2 := listAll_spec _ hrec lr hlr
    simp only [Bool.and_eq_true, decide_eq_true_eq] at h2
    exact encMsg_bytes_lt (lrFields lr) (lrFields_bytesOK lr h2.1)
  · subst he
    exact (optAll_str hurl u hsome).1

/-- Per-field side conditions of a well-formed encoded `ScopeLogs`. -/
theorem slFields_ok (sl : PScopeLogs) (h : wfSL sl = true) :
    fieldsOK (slFields sl) := by
  obtain ⟨hsc, hrec, hurl⟩ := wfSL_spec sl h
  intro f hf
  rcases slFields_cases sl f hf with
    ⟨s, hsome, he⟩ | ⟨lr, hlr, he⟩ | ⟨u, hsome, he⟩
  · subst he
    have h2 := optAll_spec _ hsc s hsome
    simp only [Bool.and_eq_true, decide_eq_true_eq] at h2
    exact ⟨by norm_num, h2.2⟩
  · subst he
    have h2 := listAll_spec _ hrec lr hlr
    simp only [Bool.and_eq_true, decide_eq_true_eq] at h2
    exact ⟨by norm_num, h2.2⟩
  · subst he
    exact ⟨by norm_num, (optAll_str hurl u hsome).2.1⟩

/-- The tag-2 fields of an encoded `ScopeLogs` are its encoded log
records, in order. -/
theorem slFields_filter2 (sl : PScopeLogs) :
    ((slFields sl).filter (fun f => f.1 == 2)).map Prod.snd =
      sl.log_records.map encLogRecord := by
  rw [slFields, List.filter_append, List.filter_append,
    List.map_append, List.map_append,
    filter_optPair_ne 1 encIScope sl.scope 2 (by norm_num),
    filter_optPairId_ne 3 sl.schema_url 2 (by norm_num),
    filter_map_const_tag 2 encLogRecord sl.log_records]
  simp

/-- Each field of an encoded `ResourceLogs` comes from one of its three
components. -/
theorem rlFields_cases (rl : PResourceLogs) (f : Nat × Bytes)
    (hf : f ∈ rlFields rl) :
    (∃ r, rl.resource = some r ∧ f = (1, encResource r)) ∨
    (∃ sl, sl ∈ rl.scope_logs ∧ f = (2, encScopeLogs sl)) ∨
    (∃ u, rl.schema_url = some u ∧ f = (3, u)) := by
  rw [rlFields] at hf
  rcases List.mem_append.1 hf with h1 | hf
  · exact Or.inl (mem_optMap h1)
  rcases List.mem_append.1 hf with h1 | h1
  · obtain ⟨sl, hsl, he⟩ := List.mem_map.1 h1
    exact Or.inr (Or.inl ⟨sl, hsl, he.symm⟩)
  · exact Or.inr (Or.inr (mem_optMap h1))

/-- The payloads of a well-formed encoded `ResourceLogs` consist of bytes. -/
theorem rlFields_bytes (rl : PResourceLogs) (h : wfRL rl = true) :
    ∀ f ∈ rlFields rl, ∀ b ∈ f.2, b < 256 := by
  obtain ⟨hres, hscs, hurl⟩ := wfRL_spec rl h
  intro f hf
  rcases rlFields_cases rl f hf with
    ⟨r, hsome, he⟩ | ⟨sl, hsl, he⟩ | ⟨u, hsome, he⟩
  · subst he
    have h2 := optAll_spec _ hres r hsome
    simp only [Bool.and_eq_true, decide_eq_true_eq] at h2
    exact encMsg_bytes_lt (resFields r) (resFields_bytesOK r h2.1)
  · subst he
    have h2 := listAll_spec _ hscs sl hsl
    simp only [Bool.and_eq_true, decide_eq_true_eq] at h2
    exact encFields_bytes_lt (slFields sl) (slFields_bytes sl h2.1)
  · subst he
    exact (optAll_str hurl u hsome).1

/-- Per-field side conditions of a well-formed encoded `ResourceLogs`. -/
theorem rlFields_ok (rl : PResourceLogs) (h : wfRL rl = true) :
    fieldsOK (rlFields rl) := by
  obtain ⟨hres, hscs, hurl⟩ := wfRL_spec rl h
  intro f hf
  rcases rlFields_cases rl f hf with
    ⟨r, hsome, he⟩ | ⟨sl, hsl, he⟩ | ⟨u, hsome, he⟩
  · subst he
    have h2 := optAll_spec _ hres r hsome
    simp only [Bool.and_eq_true, decide_eq_true_eq] at h2
    exact ⟨by norm_num, h2.2⟩
  · subst he
    have h2 := listAll_spec _ hscs sl hsl
    simp only [Bool.and_eq_true, decide_eq_true_eq] at h2
    exact ⟨by norm_num, h2.2⟩
  · subst he
    exact ⟨by norm_num, (optAll_str hurl u hsome).2.1⟩

/-- The tag-2 fields of an encoded `ResourceLogs` are its encoded scope
groups, in order. -/
theorem rlFields_filter2 (rl : PResourceLogs) :
    ((rlFields rl).filter (fun f => f.1 == 2)).map Prod.snd =
      rl.scope_logs.map encScopeLogs := by
  rw [rlFields, List.filter_append, List.filter_append,
    List.map_append, List.map_append,
    filter_optPair_ne 1 encResource rl.resource 2 (by norm_num),
    filter_optPairId_ne 3 rl.schema_url 2 (by norm_num),
    filter_map_const_tag 2 encScopeLogs rl.scope_logs]
  simp

/-- The payloads of a well-formed encoded `LogsData` consist of bytes. -/
theorem ldFields_bytes (d : PLogsData) (h : wfLD d = true) :
    ∀ f ∈ ldFields d, ∀ b ∈ f.2, b < 256 := by
  intro f hf
  rw [ldFields] at hf
  obtain ⟨rl, hrl, he⟩ := List.mem_map.1 hf
  subst he
  exact encFields_bytes_lt (rlFields rl) (rlFields_bytes rl (wfLD_spec d h rl hrl).1)

/-- Per-field side conditions of a well-formed encoded `LogsData`. -/
theorem ldFields_ok (d : PLogsData) (h : wfLD d = true) :
    fieldsOK (ldFields d) := by
  intro f hf
  rw [ldFields] at hf
  obtain ⟨rl, hrl, he⟩ := List.mem_map.1 hf
  subst he
  exact ⟨by norm_num, (wfLD_spec d h rl hrl).2⟩

end Otel

namespace Otel

/-- Tag 1 of an encoded attribute always holds the key. -/
theorem kvFields_find1 (kv : PKeyValue) :
    (kvFields kv).find? (fun f => f.1 == 1) = some (1, kv.key) := by
  cases kv with
  | mk key value =>
    cases value with
    | none => rfl
    | some v => rfl

/-- The key of a well-formed attribute is nonempty valid UTF-8 made of
bytes, within 64-bit size. -/
theorem wfKV_key (kv : PKeyValue) (h : wfKV kv = true) :
    kv.key ≠ [] ∧ (∀ b ∈ kv.key, b < 256) ∧ kv.key.length < 2 ^ 64 ∧
      utf8Valid kv.key = true := by
  cases kv with
  | mk key value =>
    cases value with
    | none =>
      have h2 : (decide (key ≠ []) && strOKb key) = true := h
      simp only [Bool.and_eq_true, decide_eq_true_eq] at h2
      obtain ⟨h1, hs⟩ := h2
      obtain ⟨hb, hl, hu⟩ := strOKb_spec key hs
      exact ⟨h1, hb, hl, hu⟩
    | some v =>
      have h2 : (decide (key ≠ []) && strOKb key && wfAV v &&
          decide ((encMsg (avFields v)).length < 2 ^ 64)) = true := h
      simp only [Bool.and_eq_true, decide_eq_true_eq] at h2
      obtain ⟨hb, hl, hu⟩ := strOKb_spec key h2.1.1.2
      exact ⟨h2.1.1.1, hb, hl, hu⟩

/-- `KeyValue::parse` succeeds on every well-formed encoded attribute. -/
theorem KeyValue_parse_enc (kv : PKeyValue) (h : wfKV kv = true) :
    (KeyValue_parse (encKeyValue kv)).2 = true := by
  have hk := wfKV_key kv h
  have hb := encFields_bytes_lt (kvFields kv) (kvFields_bytesOK kv h)
  have hc := KeyValue_parse_cases (encKeyValue kv)
  have hkey : strField (encKeyValue kv) 1 = some kv.key := by
    rw [strField_eq_bytesField,
      show encKeyValue kv = encFields (kvFields kv) from rfl,
      bytesField_enc (kvFields kv) 1 hb (kvFields_ok kv h), kvFields_find1]
    rw [Option.map_some', Option.some_bind]
    rw [show (1, kv.key).2 = kv.key from rfl]
    rw [from_utf8, if_pos hk.2.2.2]
  rw [hkey] at hc
  rw [Option.getD_some, if_neg hk.1] at hc
  exact hc

/-- Well-formed encoded attributes all survive the success filter. -/
theorem filterMap_kv_success : ∀ (l : List PKeyValue),
    (∀ kv ∈ l, wfKV kv = true) →
    ((l.map (fun kv => encKeyValue kv)).filterMap (fun b =>
        if (KeyValue_parse b).2 then some (KeyValue_parse b).1 else none)) =
      l.map (fun kv => (KeyValue_parse (encKeyValue kv)).1) := by
  intro l
  induction l with
  | nil => intro _; rfl
  | cons kv rest ih =>
    intro h
    rw [List.map_cons, List.filterMap_cons]
    rw [if_pos (KeyValue_parse_enc kv (h kv (by simp)))]
    rw [ih (fun x hx => h x (by simp [hx]))]
    rfl

/-- The used attribute prefix of an eager `LogRecord` parsed from a
well-formed encoded record is one node per baseline attribute, whatever
singular fields the record carries. -/
theorem LogRecord_attrs_enc (lr : PLogRecord) (h : wfLR lr = true)
    (s : LogRecordE) :
    (LogRecord_parse s (encLogRecord lr)).1.attributes.take
        (LogRecord_parse s (encLogRecord lr)).1.attributes_used =
      lr.attributes.map (fun kv => (KeyValue_parse (encKeyValue kv)).1) := by
  have hat := (wfLR_spec lr h).2.2.2.2.1
  simp only [LogRecord_parse]
  rw [parseRepeated_stateless KeyValue_parse ([], none) _ s.attributes 0
    (Nat.zero_le _)]
  rw [show encLogRecord lr = encMsg (lrFields lr) from rfl,
    kvItemsE_enc (lrFields lr) 6
      (encMsg_bytes_lt (lrFields lr) (lrFields_bytesOK lr h))
      (lrFields_ok lr h),
    lrFields_payloads6]
  rw [List.take_zero, List.nil_append]
  exact filterMap_kv_success lr.attributes
    (fun kv hkv => (wfKVs_spec lr.attributes hat kv hkv).1)

/-- The lazy cached attribute iterator over a well-formed encoded record
yields one payload per baseline attribute, skipping the singular fields of
every wire type. -/
theorem lazy_attrs_enc (lr : PLogRecord) (h : wfLR lr = true) :
    lazy_record_attrs (encLogRecord lr) =
      lr.attributes.map (fun kv => encKeyValue kv) := by
  rw [show encLogRecord lr = encMsg (lrFields lr) from rfl,
    lazy_record_attrsE_enc (lrFields lr)
      (encMsg_bytes_lt (lrFields lr) (lrFields_bytesOK lr h))
      (lrFields_ok lr h) (lrFields_tag6 lr),
    lrFields_payloads6]

end Otel

namespace Otel

theorem wfLD_rl (d : PLogsData) (h : wfLD d = true) :
    ∀ rl ∈ d.resource_logs, wfRL rl = true := by
  intro rl hrl
  exact (wfLD_spec d h rl hrl).1

theorem wfRL_sl (rl : PResourceLogs) (h : wfRL rl = true) :
    ∀ sl ∈ rl.scope_logs, wfSL sl = true := by
  intro sl hsl
  have h2 := listAll_spec _ (wfRL_spec rl h).2.1 sl hsl
  simp only [Bool.and_eq_true] at h2
  exact h2.1

theorem wfSL_lr (sl : PScopeLogs) (h : wfSL sl = true) :
    ∀ lr ∈ sl.log_records, wfLR lr = true := by
  intro lr hlr
  have h2 := listAll_spec _ (wfSL_spec sl h).2.1 lr hlr
  simp only [Bool.and_eq_true] at h2
  exact h2.1

/-- The used log-record prefix of an eager `ScopeLogs` parsed fresh from a
well-formed encoding is one freshly parsed record per baseline record; the
scope and schema-url fields are passed over by the tag-2 filter. -/
theorem ScopeLogs_records_enc (sl : PScopeLogs) (h : wfSL sl = true) :
    (ScopeLogs_parse ScopeLogs_new (encScopeLogs sl)).1.log_records.take
        (ScopeLogs_parse ScopeLogs_new (encScopeLogs sl)).1.log_records_used =
      sl.log_records.map (fun lr =>
        (LogRecord_parse LogRecord_new (encLogRecord lr)).1) := by
  simp only [ScopeLogs_parse, ScopeLogs_new]
  have hfr := parseRepeated_fresh LogRecord_parse LogRecord_new (fun _ _ => rfl)
    (kvItems (encScopeLogs sl) 2) []
  simp only [List.length_nil, List.nil_append] at hfr
  rw [hfr.1, hfr.2]
  rw [show encScopeLogs sl = encFields (slFields sl) from rfl,
    kvItems_enc (slFields sl) 2
      (encFields_bytes_lt (slFields sl) (slFields_bytes sl h))
      (slFields_ok sl h),
    slFields_filter2, List.map_map, List.length_map, take_map_full]
  rfl

/-- The used scope-logs prefix of an eager `ResourceLogs` parsed fresh from a
well-formed encoding is one freshly parsed scope group per baseline scope
group; the resource and schema-url fields are passed over by the tag-2
filter. -/
theorem ResourceLogs_scopes_enc (rl : PResourceLogs) (h : wfRL rl = true) :
    (ResourceLogs_parse ResourceLogs_new (encResourceLogs rl)).1.scope_logs.take
        (ResourceLogs_parse ResourceLogs_new (encResourceLogs rl)).1.scope_logs_used =
      rl.scope_logs.map (fun sl =>
        (ScopeLogs_parse ScopeLogs_new (encScopeLogs sl)).1) := by
  simp only [ResourceLogs_parse, ResourceLogs_new]
  have hfr := parseRepeated_fresh ScopeLogs_parse ScopeLogs_new (fun _ _ => rfl)
    (kvItems (encResourceLogs rl) 2) []
  simp only [List.length_nil, List.nil_append] at hfr
  rw [hfr.1, hfr.2]
  rw [show encResourceLogs rl = encFields (rlFields rl) from rfl,
    kvItems_enc (rlFields rl) 2
      (encFields_bytes_lt (rlFields rl) (rlFields_bytes rl h))
      (rlFields_ok rl h),
    rlFields_filter2, List.map_map, List.length_map, take_map_full]
  rfl

/-- The used resource-logs prefix of an eager `LogsData` parsed fresh from a
well-formed encoding is one freshly parsed resource group per baseline
resource group. -/
theorem LogsData_rls_enc (d : PLogsData) (h : wfLD d = true) :
    (LogsData_parse LogsData_new (encLogsData d)).1.resource_logs.take
        (LogsData_parse LogsData_new (encLogsData d)).1.used_count =
      d.resource_logs.map (fun rl =>
        (ResourceLogs_parse ResourceLogs_new (encResourceLogs rl)).1) := by
  simp only [LogsData_parse, LogsData_new]
  rw [logsDataLoopF_eq]
  rw [show logsItemsF ((encLogsData d).length + 1) (encLogsData d) 0 =
    logs_items (encLogsData d) from rfl]
  rw [show logs_items (encLogsData d) = d.resource_logs.map
      (fun rl => encResourceLogs rl) from by
    rw [show encLogsData d = encFields (ldFields d) from rfl,
      logsItems_enc (ldFields d)
        (encFields_bytes_lt (ldFields d) (ldFields_bytes d h))
        (ldFields_ok d h),
      ldFields, filter_map_const_tag]]
  have hfr := parseRepeated_fresh ResourceLogs_parse ResourceLogs_new
    (fun _ _ => rfl) (d.resource_logs.map (fun rl => encResourceLogs rl)) []
  simp only [List.length_nil, List.nil_append] at hfr
  rw [hfr.1, hfr.2]
  rw [List.map_map, List.length_map, take_map_full]
  rfl

/-- The lazy resource-logs iterator over a well-formed encoded buffer yields
one payload per baseline resource group. -/
theorem lazy_rls_enc (d : PLogsData) (h : wfLD d = true) :
    iter_payloads (encLogsData d) 1 =
      d.resource_logs.map (fun rl => encResourceLogs rl) := by
  rw [show encLogsData d = encFields (ldFields d) from rfl,
    iterPayloads_enc (ldFields d) 1
      (encFields_bytes_lt (ldFields d) (ldFields_bytes d h))
      (ldFields_ok d h),
    ldFields, filter_map_const_tag]

/-- The lazy scope-logs iterator over a well-formed encoded resource group
yields one payload per baseline scope group, skipping the resource and
schema-url fields. -/
theorem lazy_scopes_enc (rl : PResourceLogs) (h : wfRL rl = true) :
    iter_payloads (encResourceLogs rl) 2 =
      rl.scope_logs.map (fun sl => encScopeLogs sl) := by
  rw [show encResourceLogs rl = encFields (rlFields rl) from rfl,
    iterPayloads_enc (rlFields rl) 2
      (encFields_bytes_lt (rlFields rl) (rlFields_bytes rl h))
      (rlFields_ok rl h),
    rlFields_filter2]

/-- The lazy log-record iterator over a well-formed encoded scope group
yields one payload per baseline record, skipping the scope and schema-url
fields. -/
theorem lazy_records_enc (sl : PScopeLogs) (h : wfSL sl = true) :
    iter_payloads (encScopeLogs sl) 2 =
      sl.log_records.map (fun lr => encLogRecord lr) := by
  rw [show encScopeLogs sl = encFields (slFields sl) from rfl,
    iterPayloads_enc (slFields sl) 2
      (encFields_bytes_lt (slFields sl) (slFields_bytes sl h))
      (slFields_ok sl h),
    slFields_filter2]

end Otel

namespace Otel

/-- A sample baseline tree exercising every tag of the modelled tables: a
resource with an attribute and a dropped count, a scope with name, version
and an unset-value attribute, schema URLs at both levels, one record with
all singular fields (fixed64 timestamps, varint severity and dropped count,
fixed32 flags, string and bytes fields, a message body) and int/bool-valued
attributes, and one bare record with a double-valued attribute. -/
def c1Tree : PLogsData :=
  ⟨[⟨some ⟨[PKeyValue.mk [107] (PValueOpt.some (PAnyValue.str [120]))], some 1⟩,
     [⟨some ⟨some [115, 99], some [118, 49],
         [PKeyValue.mk [98] PValueOpt.none], none⟩,
       [⟨some 11, some 9, some [73],
          some (PAnyValue.str [104]),
          [PKeyValue.mk [97] (PValueOpt.some (PAnyValue.intv 7)),
           PKeyValue.mk [100] (PValueOpt.some (PAnyValue.boolv true))],
          some 0, some 1, some [1, 2], some [3, 4], some 12, some [69]⟩,
        ⟨none, none, none, none,
          [PKeyValue.mk [101] (PValueOpt.some (PAnyValue.double 3))],
          none, none, none, none, none, none⟩],
       some [117, 50]⟩],
     some [117, 49]⟩]⟩

/-- The four counts of the benchmark traversal computed over the eager tree's
views after a fresh parse: `UsedSliceIter` exposes each node's used prefix,
and record attributes are the used attribute prefix. -/
def eagerCounts (data : Bytes) : Nat × Nat × Nat × Nat :=
  let s := (LogsData_parse LogsData_new data).1
  let rls := s.resource_logs.take s.used_count
  (rls.length,
   (rls.map (fun r => (r.scope_logs.take r.scope_logs_used).length)).sum,
   (rls.map (fun r => ((r.scope_logs.take r.scope_logs_used).map
     (fun sc => (sc.log_records.take sc.log_records_used).length)).sum)).sum,
   (rls.map (fun r => ((r.scope_logs.take r.scope_logs_used).map
     (fun sc => ((sc.log_records.take sc.log_records_used).map
       (fun lr => (lr.attributes.take lr.attributes_used).length)).sum)).sum)).sum)

/-- The four counts of the benchmark traversal computed over the lazy views:
each level re-scans its byte range with its iterator, and record attributes
come from the cached attribute iterator. -/
def lazyCounts (data : Bytes) : Nat × Nat × Nat × Nat :=
  let rls := iter_payloads data 1
  (rls.length,
   (rls.map (fun r => (iter_payloads r 2).length)).sum,
   (rls.map (fun r => ((iter_payloads r 2).map
     (fun sc => (iter_payloads sc 2).length)).sum)).sum,
   (rls.map (fun r => ((iter_payloads r 2).map
     (fun sc => ((iter_payloads sc 2).map
       (fun lr => (lazy_record_attrs lr).length)).sum)).sum)).sum)

/-- C1: for every well-formed baseline logs tree — arbitrary fields from the
full tag table of every message, of all four wire types — traversing its
encoded buffer with the eager reusable tree (`otlp_bytes::LogsData` after a
fresh parse) and with the lazy view (`otlp_bytes_lazy::LogsDataParser`)
yields the same (resource, scope, log-record, record-attribute) counts as
the baseline in-memory object tree, whose views iterate its plain vectors
(`pCounts`).  The baseline side is spec-modelled: the prost-generated tree
and its encoder live outside this repository's sources, so the tree, the
wire-format encoder and the counting traversal are formalised from the
spec's tag tables. -/
theorem c1_traversal_counts_agree (d : PLogsData) (h : wfLD d = true) :
    eagerCounts (encLogsData d) = pCounts d ∧
    lazyCounts (encLogsData d) = pCounts d := by
  constructor
  · simp only [eagerCounts, pCounts]
    rw [LogsData_rls_enc d h]
    refine Prod.ext ?_ (Prod.ext ?_ (Prod.ext ?_ ?_))
    · simp
    · show ((d.resource_logs.map _).map _).sum = (d.resource_logs.map _).sum
      rw [List.map_map]
      congr 1
      apply List.map_congr_left
      intro rl hrl
      simp only [Function.comp]
      rw [ResourceLogs_scopes_enc rl (wfLD_rl d h rl hrl)]
      simp
    · show ((d.resource_logs.map _).map _).sum = (d.resource_logs.map _).sum
      rw [List.map_map]
      congr 1
      apply List.map_congr_left
      intro rl hrl
      simp only [Function.comp]
      rw [ResourceLogs_scopes_enc rl (wfLD_rl d h rl hrl), List.map_map]
      congr 1
      apply List.map_congr_left
      intro sl hsl
      simp only [Function.comp]
      rw [ScopeLogs_records_enc sl (wfRL_sl rl (wfLD_rl d h rl hrl) sl hsl)]
      simp
    · show ((d.resource_logs.map _).map _).sum = (d.resource_logs.map _).sum
      rw [List.map_map]
      congr 1
      apply List.map_congr_left
      intro rl hrl
      simp only [Function.comp]
      rw [ResourceLogs_scopes_enc rl (wfLD_rl d h rl hrl), List.map_map]
      congr 1
      apply List.map_congr_left
      intro sl hsl
      simp only [Function.comp]
      rw [ScopeLogs_records_enc sl (wfRL_sl rl (wfLD_rl d h rl hrl) sl hsl),
        List.map_map]
      congr 1
      apply List.map_congr_left
      intro lr hlr
      simp only [Function.comp]
      rw [LogRecord_attrs_enc lr
        (wfSL_lr sl (wfRL_sl rl (wfLD_rl d h rl hrl) sl hsl) lr hlr)]
      simp
  · simp only [lazyCounts, pCounts]
    rw [lazy_rls_enc d h]
    refine Prod.ext ?_ (Prod.ext ?_ (Prod.ext ?_ ?_))
    · simp
    · show ((d.resource_logs.map _).map _).sum = (d.resource_logs.map _).sum
      rw [List.map_map]
      congr 1
      apply List.map_congr_left
      intro rl hrl
      simp only [Function.comp]
      rw [lazy_scopes_enc rl (wfLD_rl d h rl hrl)]
      simp
    · show ((d.resource_logs.map _).map _).sum = (d.resource_logs.map _).sum
      rw [List.map_map]
      congr 1
      apply List.map_congr_left
      intro rl hrl
      simp only [Function.comp]
      rw [lazy_scopes_enc rl (wfLD_rl d h rl hrl), List.map_map]
      congr 1
      apply List.map_congr_left
      intro sl hsl
      simp only [Function.comp]
      rw [lazy_records_enc sl (wfRL_sl rl (wfLD_rl d h rl hrl) sl hsl)]
      simp
    · show ((d.resource_logs.map _).map _).sum = (d.resource_logs.map _).sum
      rw [List.map_map]
      congr 1
      apply List.map_congr_left
      intro rl hrl
      simp only [Function.comp]
      rw [lazy_scopes_enc rl (wfLD_rl d h rl hrl), List.map_map]
      congr 1
      apply List.map_congr_left
      intro sl hsl
      simp only [Function.comp]
      rw [lazy_records_enc sl (wfRL_sl rl (wfLD_rl d h rl hrl) sl hsl),
        List.map_map]
      congr 1
      apply List.map_congr_left
      intro lr hlr
      simp only [Function.comp]
      rw [lazy_attrs_enc lr
        (wfSL_lr sl (wfRL_sl rl (wfLD_rl d h rl hrl) sl hsl) lr hlr)]
      simp

set_option maxRecDepth 100000 in
/-- Witness: the sample tree — one resource group, one scope, two records,
three attributes, with singular fields of all four wire types present — is
counted identically by all three strategies. -/
theorem c1_traversal_counts_agree_witness :
    eagerCounts (encLogsData c1Tree) = pCounts c1Tree ∧
    lazyCounts (encLogsData c1Tree) = pCounts c1Tree ∧
    pCounts c1Tree = (1, 1, 2, 3) := by
  have h := c1_traversal_counts_agree c1Tree (by decide)
  exact ⟨h.1, h.2, by decide⟩

end Otel
